import Mathlib

/-!
Verification of the gwf core (graph + scheduler + state model), shallowly
embedded from `src/gwf/core.py`.  Pure Python functions become Lean
functions; the scheduler's mutable state (the persisted TargetMeta store,
the pretend-submitted set and the submission trace) is threaded
explicitly; fallible code returns `Except`.  Recursions over the
dependency graph take an explicit fuel argument since Python's recursion
is unbounded; theorems hypothesise a successful (`ok`) run, which in
particular means the fuel sufficed.
-/

namespace Gwf

/-! ### Timestamps and the file system

`_fileinfo` (core.py) probes a path and yields its modification time or
`None`; `FileCache` memoises it, so within one scheduling pass the file
system is a fixed partial map from paths to timestamps. -/

abbrev Time := Nat

/-- A pass-constant snapshot of the file system, as exposed by the
memoising `FileCache`: `none` means the path is missing. -/
abbrev FS := String → Option Time

/-! ### Targets

Modelled from the spec: the `Target` class is not under `src/`; spec §3
describes it as an immutable descriptor whose flattened inputs/outputs
are ordered sequences of absolute paths, with `is_source` ≡ flattened
inputs empty and `is_sink` ≡ flattened outputs empty. -/

structure Target where
  name : String
  inputs : List String
  outputs : List String
  deriving DecidableEq, Repr

/-- Modelled from the spec (§3): `is_source` ≡ flattened inputs empty. -/
def Target.is_source (t : Target) : Bool := t.inputs.isEmpty

/-- Modelled from the spec (§3): `is_sink` ≡ flattened outputs empty. -/
def Target.is_sink (t : Target) : Bool := t.outputs.isEmpty

/-- Modelled from the spec (§3): `flattened_inputs()` is the canonical
ordered sequence of input paths. -/
def Target.flattened_inputs (t : Target) : List String := t.inputs

/-- Modelled from the spec (§3): `flattened_outputs()` is the canonical
ordered sequence of output paths. -/
def Target.flattened_outputs (t : Target) : List String := t.outputs

/-! ### Python dictionaries with insertion order

`prepare_target_options` manipulates Python `dict`s whose iteration
order is insertion order.  We model such a dictionary as an association
list; the operations below reproduce `dict(d)`, `d.update(e)` and
entry deletion during iteration over a snapshot of `items()`. -/

/-- An insertion-ordered dictionary (Python `dict`). -/
abbrev Dict (V : Type) := List (String × V)

namespace Dict

/-- `k in d` for a Python dict. -/
def containsKey {V : Type} (d : Dict V) (k : String) : Bool :=
  d.any (fun e => e.1 = k)

/-- `d.get(k)`: the value stored at `k`, if any. -/
def get {V : Type} (d : Dict V) (k : String) : Option V :=
  (d.find? (fun e => e.1 = k)).map (fun e => e.2)

/-- `d.update(e)`: existing keys keep their position and take the new
value; keys of `e` absent from `d` are appended in `e`'s order. -/
def update {V : Type} (d e : Dict V) : Dict V :=
  (d.map (fun kv => (kv.1, ((get e kv.1).getD kv.2))))
    ++ e.filter (fun kv => ¬ containsKey d kv.1)

end Dict

/-- Option dictionaries: a value of `none` is Python's `None`. -/
abbrev OptDict := Dict (Option Nat)

/-- `Scheduler.prepare_target_options` (core.py:295-315): start from a
copy of `backend.option_defaults`, overlay the target's options, then
delete (iterating over a snapshot of the items) every option whose key
the backend does not know and every option whose value is `None`.
Returns the new value of `target.options`. -/
def prepare_target_options (defaults : OptDict) (options : OptDict) : OptDict :=
  (Dict.update defaults options).filter
    (fun kv => Dict.containsKey defaults kv.1 && kv.2.isSome)

/-! ### Persisted target state

Modelled from the spec (§3, §4.9): `TargetMeta` (the `models` module is
not under `src/`) is a per-target persistent record whose state is one
of seven values, with `reset` setting UNKNOWN, `submitted` setting
SUBMITTED, and `is_*` predicates testing the current state.  The store
is keyed by target name and records are created lazily as UNKNOWN, so
it is a total map defaulting to UNKNOWN. -/

inductive MetaState
  | unknown | submitted | running | completed | failed | cancelled | killed
  deriving DecidableEq, Repr

/-- The persisted state store, keyed by target name.  Records are
created lazily as UNKNOWN, so lookup defaults to UNKNOWN; a mutation
prepends the new record. -/
abbrev DB := List (String × MetaState)

/-- Look up a target's persisted state (UNKNOWN when absent). -/
def DB.get (db : DB) (n : String) : MetaState :=
  ((db.find? (fun e => e.1 = n)).map (fun e => e.2)).getD .unknown

/-- Durably store a target's persisted state. -/
def DB.set (db : DB) (n : String) (v : MetaState) : DB := (n, v) :: db

/-- The condition tested on a dependency's meta in `update_state`
(core.py:388-393): `is_failed() or is_killed() or is_cancelled() or
is_unknown()`. -/
def MetaState.isBad : MetaState → Bool
  | .failed => true
  | .killed => true
  | .cancelled => true
  | .unknown => true
  | _ => false

/-- `TargetStatus` (core.py:60-69). -/
inductive TargetStatus
  | shouldrun | submitted | running | completed | failed | killed | cancelled
  deriving DecidableEq, Repr

/-! ### The dependency graph -/

/-- `Graph` (core.py:72-232), restricted to the fields the scheduler
reads.  `dependencies` is a total function because the source uses a
`defaultdict(set)`; a set is modelled as a duplicate-free list. -/
structure Graph where
  targets : List Target
  dependencies : Target → List Target
  unresolved : List String

/-- Paths in the dependency relation: `Reaches g t u` holds when `u` is
`t` itself or is reachable from `t` through `dependencies` edges. -/
inductive Reaches (g : Graph) : Target → Target → Prop
  | refl (t : Target) : Reaches g t t
  | step {t d u : Target} : d ∈ g.dependencies t → Reaches g d u → Reaches g t u

/-- The dependency relation contains a cycle: some target of the graph
reaches itself through at least one edge. -/
def Cycle (g : Graph) : Prop :=
  ∃ t ∈ g.targets, ∃ d ∈ g.dependencies t, Reaches g d t

/-- Accessibility of the dependency relation: no infinite descent
through dependencies starts at `t`. -/
inductive AccDep (g : Graph) : Target → Prop
  | intro {t : Target} : (∀ d ∈ g.dependencies t, AccDep g d) → AccDep g t

/-! ### Cycle detection (`Graph._check_for_circular_dependencies`,
core.py:174-198): the three-colour depth-first walk. -/

inductive Color
  | fresh | started | done
  deriving DecidableEq, Repr

abbrev ColorMap := Target → Color

/-- Errors raised while building a graph. -/
inductive BuildErr
  | fuel
  | multiProvider (path : String) (first : String) (second : String)
  | cyclic (target : String)
  deriving DecidableEq, Repr

/-- The `for dep in self.dependencies[node]` loop of `visitor`: a
started dependency is a cycle, a fresh one is visited recursively
(through the abstracted recursive call `v`). -/
def visitLoop (v : ColorMap → Target → Except BuildErr ColorMap) (node : Target) :
    ColorMap → List Target → Except BuildErr ColorMap
  | st, [] => .ok st
  | st, d :: ds =>
    if st d = .started then .error (.cyclic node.name)
    else if st d = .fresh then do
      let st1 ← v st d
      visitLoop v node st1 ds
    else visitLoop v node st ds

/-- `visitor(node)` of the cycle check: mark the node started, walk its
dependencies, mark it done. -/
def visitor (g : Graph) : Nat → ColorMap → Target → Except BuildErr ColorMap
  | 0, _, _ => .error .fuel
  | f + 1, st, node => do
    let st1 ← visitLoop (visitor g f) node
      (Function.update st node .started) (g.dependencies node)
    .ok (Function.update st1 node .done)

/-- The outer `for node in nodes: if state[node] == fresh: visitor(node)`
loop of the cycle check. -/
def checkLoop (g : Graph) (f : Nat) : ColorMap → List Target → Except BuildErr ColorMap
  | st, [] => .ok st
  | st, n :: ns => do
    let st1 ← if st n = .fresh then visitor g f st n else pure st
    checkLoop g f st1 ns

/-- `Graph._check_for_circular_dependencies` (core.py:174-198): every
node starts fresh; the depth-first walk errors on a started neighbour. -/
def checkCircular (g : Graph) (f : Nat) : Except BuildErr ColorMap :=
  checkLoop g f (fun _ => .fresh) g.targets

/-- `Graph.__init__` (core.py:112-119): store the five components, then
run the circular-dependency check. -/
def Graph.init (targets : List Target) (dependencies : Target → List Target)
    (unresolved : List String) (f : Nat) : Except BuildErr Graph :=
  let g : Graph := ⟨targets, dependencies, unresolved⟩
  match checkCircular g f with
  | .ok _ => .ok g
  | .error e => .error e

/-! ### Graph construction (`Graph.from_targets`, core.py:121-172) -/

/-- The `for path in target.flattened_outputs()` body of the first
pass: insert each output into `provides`, failing when the path is
already provided. -/
def addOutputs (t : Target) : List String → Dict Target → Except BuildErr (Dict Target)
  | [], acc => .ok acc
  | p :: ps, acc =>
    match Dict.get acc p with
    | some t0 => .error (.multiProvider p t0.name t.name)
    | none => addOutputs t ps (acc ++ [(p, t)])

/-- The first pass of `from_targets`: build the `provides` map. -/
def buildProvides : List Target → Dict Target → Except BuildErr (Dict Target)
  | [], acc => .ok acc
  | t :: ts, acc => do
    let acc1 ← addOutputs t t.flattened_outputs acc
    buildProvides ts acc1

/-- The second pass of `from_targets`: the dependencies of a target are
the providers of its inputs (a set: duplicates removed). -/
def depsFromProvides (provides : Dict Target) (t : Target) : List Target :=
  ((t.flattened_inputs).filterMap (fun p => Dict.get provides p)).dedup

/-- The second pass of `from_targets`: input paths provided by no
target are unresolved. -/
def unresolvedOf (provides : Dict Target) (targets : List Target) : List String :=
  ((targets.map (fun t =>
    t.flattened_inputs.filter (fun p => ¬ Dict.containsKey provides p))).flatten).dedup

/-- `Graph.from_targets` (core.py:121-172): build `provides` (failing on
a doubly-provided file), derive `dependencies` and `unresolved`, then
initialise the graph (which runs the cycle check). -/
def fromTargets (targets : List Target) (f : Nat) : Except BuildErr Graph := do
  let provides ← buildProvides targets []
  Graph.init targets (depsFromProvides provides) (unresolvedOf provides targets) f

/-! ### The scheduler -/

/-- Errors surfaced by the scheduler.  `fileRequired` is the
`WorkflowError` of core.py:410-416, identifying the missing path and
the target requiring it; `typeConfusion` models the `TypeError` Python
would raise when `max`/`min` compared `None` with a timestamp at
core.py:435-447; `fuel` is the model's out-of-fuel marker. -/
inductive SchedErr
  | fuel
  | fileRequired (path : String) (target : String)
  | typeConfusion
  deriving DecidableEq, Repr

/-- The fixed collaborators of one scheduling pass: the graph, the
memoised file cache, the backend's option defaults, the dry-run flag
and the auxiliary fuel used by `update_state`/`should_run` recursion. -/
structure Ctx where
  g : Graph
  fs : FS
  optionDefaults : OptDict
  dryRun : Bool
  F : Nat

/-- Largest element of a timestamp list (`max` at core.py:435, used
only on the non-empty input list of a non-source target). -/
def maxOf : List Time → Time
  | [] => 0
  | x :: xs => xs.foldl Nat.max x

/-- Smallest element of a timestamp list (`min` at core.py:445, used
only on the non-empty output list of a non-sink target). -/
def minOf : List Time → Time
  | [] => 0
  | x :: xs => xs.foldl Nat.min x

/-- The timestamps of a list of paths, provided every path exists. -/
def collectTimes (fs : FS) (ps : List String) : Option (List Time) :=
  ps.mapM fs

/-- The `for dep in self.graph.dependencies[target]` loop of
`should_run` (with the abstracted recursive call `f`): short-circuits
on the first dependency that should run. -/
def anyTrueM {ε α : Type} (f : α → Except ε Bool) : List α → Except ε Bool
  | [] => .ok false
  | x :: xs => do
    let b ← f x
    if b then .ok true else anyTrueM f xs

/-- `Scheduler.should_run` (core.py:397-463).  In order: any dependency
that should run forces `true`; an unresolved input missing on disk
raises; a sink always runs; a missing output forces `true`; a source is
otherwise up to date; otherwise the youngest input is compared strictly
against the oldest output. -/
def shouldRun (c : Ctx) : Nat → Target → Except SchedErr Bool
  | 0, _ => .error .fuel
  | f + 1, t => do
    let b ← anyTrueM (shouldRun c f) (c.g.dependencies t)
    if b then .ok true
    else
      match t.flattened_inputs.find?
          (fun p => c.g.unresolved.contains p && (c.fs p).isNone) with
      | some p => .error (.fileRequired p t.name)
      | none =>
        if t.is_sink then .ok true
        else if t.flattened_outputs.any (fun p => (c.fs p).isNone) then .ok true
        else if t.is_source then .ok false
        else
          match collectTimes c.fs t.flattened_inputs,
                collectTimes c.fs t.flattened_outputs with
          | some yin, some yout => .ok (decide (maxOf yin > minOf yout))
          | _, _ => .error .typeConfusion

/-- The dependency loop of `update_state` (with the abstracted
recursive call `f`): after updating a dependency, a bad resulting state
resets the parent (`tname`) to unknown. -/
def updateLoop {ε : Type} (f : DB → Target → Except ε (DB × MetaState))
    (tname : String) : DB → List Target → Except ε DB
  | db, [] => .ok db
  | db, d :: ds => do
    let r ← f db d
    updateLoop f tname
      (if r.2.isBad then DB.set r.1 tname .unknown else r.1) ds

/-- `Scheduler.update_state` (core.py:382-395): recursively update every
dependency; whenever a dependency's resulting state is failed, killed,
cancelled or unknown, reset this target's persisted state to unknown.
Returns the store and the target's final meta state. -/
def updateState (c : Ctx) : Nat → DB → Target → Except SchedErr (DB × MetaState)
  | 0, _, _ => .error .fuel
  | f + 1, db, t => do
    let db1 ← updateLoop (updateState c f) t.name db (c.g.dependencies t)
    .ok (db1, DB.get db1 t.name)

/-- The `if/elif` chain of `Scheduler.status` (core.py:477-496) as a
function of the updated meta state and of `should_run`. -/
def statusCase (m : MetaState) (sr : Bool) : TargetStatus :=
  if m = .unknown then (if sr then .shouldrun else .completed)
  else if m = .submitted then .submitted
  else if m = .running then .running
  else if m = .completed then (if sr then .shouldrun else .completed)
  else if m = .failed then .failed
  else if m = .cancelled then .cancelled
  else .killed

/-- `Scheduler.status` (core.py:465-497): update the persisted state,
ask `should_run`, and fuse the two. -/
def status (c : Ctx) (db : DB) (t : Target) : Except SchedErr (DB × TargetStatus) := do
  let r ← updateState c c.F db t
  let sr ← shouldRun c c.F t
  .ok (r.1, statusCase r.2 sr)

/-- `Scheduler.SHOULDRUN_STATES` (core.py:267-272). -/
def SHOULDRUN_STATES : List TargetStatus :=
  [.failed, .killed, .cancelled, .shouldrun]

/-- The mutable state of one scheduling pass: the persisted store, the
pretend-submitted set (dry-run memo), the ordered trace of
`backend.submit` calls (target name and the names passed as
`dependencies`), and each target's current `options` dict. -/
structure SchedState where
  db : DB
  pretend : List String
  trace : List (String × List String)
  options : String → OptDict

instance : Inhabited SchedState :=
  ⟨⟨[], [], [], fun _ => []⟩⟩

/-- Lexicographic code-point comparison of character lists: the model
of Python's string comparison used by `sorted(..., key=name)`. -/
def charListLe : List Char → List Char → Bool
  | [], _ => true
  | _ :: _, [] => false
  | a :: as, b :: bs =>
    if a.toNat < b.toNat then true
    else if b.toNat < a.toNat then false
    else charListLe as bs

/-- Lexicographic comparison of strings by code points. -/
def strLe (a b : String) : Bool := charListLe a.data b.data

/-- The dependencies of `t` in the order the scheduler walks them:
`sorted(self.graph.dependencies[target], key=lambda t: t.name)`
(core.py:337). -/
def sortedDeps (g : Graph) (t : Target) : List Target :=
  (g.dependencies t).insertionSort (fun a b => strLe a.name b.name = true)

/-- The dependency loop of `schedule` (with the abstracted recursive
call `f`): collect the names of the dependencies whose scheduling
returned `true` (the `submitted_deps` set, in walk order). -/
def schedLoop {ε : Type} (f : SchedState → Target → Except ε (SchedState × Bool)) :
    SchedState → List Target → Except ε (SchedState × List String)
  | s, [] => .ok (s, [])
  | s, d :: ds => do
    let r1 ← f s d
    let r2 ← schedLoop f r1.1 ds
    .ok (r2.1, if r1.2 then d.name :: r2.2 else r2.2)

/-- `Scheduler.schedule` (core.py:317-357): normalise the target's
options; return `true` at once when the target's status is SUBMITTED or
it is in the pretend-submitted set; otherwise schedule the dependencies
in name order, then submit (or pretend to) when some dependency was
submitted or the second status query lands in `SHOULDRUN_STATES`. -/
def schedule (c : Ctx) : Nat → SchedState → Target → Except SchedErr (SchedState × Bool)
  | 0, _, _ => .error .fuel
  | f + 1, s, t =>
    let newOpts := Function.update s.options t.name
      (prepare_target_options c.optionDefaults (s.options t.name))
    let s0 : SchedState := { s with options := newOpts }
    do
    let r1 ← status c s0.db t
    let s1 : SchedState := { s0 with db := r1.1 }
    if r1.2 = .submitted || s1.pretend.contains t.name then
      .ok (s1, true)
    else do
      let r2 ← schedLoop (schedule c f) s1 (sortedDeps c.g t)
      let s2 := r2.1
      let subs := r2.2
      let r3 ←
        if subs.isEmpty then do
          let r ← status c s2.db t
          pure (({ s2 with db := r.1 } : SchedState),
                SHOULDRUN_STATES.contains r.2)
        else pure (s2, true)
      if r3.2 then
        if c.dryRun then
          .ok ({ r3.1 with pretend := r3.1.pretend ++ [t.name] }, true)
        else
          .ok ({ r3.1 with
                  db := DB.set (DB.set r3.1.db t.name .unknown) t.name .submitted,
                  trace := r3.1.trace ++ [(t.name, subs)] }, true)
      else .ok (r3.1, false)

/-- `Scheduler.schedule_many` (core.py:359-380): schedule each target in
input order, collecting the boolean vector. -/
def scheduleMany (c : Ctx) (f : Nat) :
    SchedState → List Target → Except SchedErr (SchedState × List Bool)
  | s, [] => .ok (s, [])
  | s, t :: ts => do
    let r1 ← schedule c f s t
    let r2 ← scheduleMany c f r1.1 ts
    .ok (r2.1, r1.2 :: r2.2)

/-! ### Specification predicates about the colour map of the cycle
check -/

/-- Done nodes stay done. -/
def DonePres (st st' : ColorMap) : Prop := ∀ x, st x = .done → st' x = .done

/-- No new started nodes appear. -/
def StartAnti (st st' : ColorMap) : Prop := ∀ x, st' x = .started → st x = .started

/-- No new fresh nodes appear. -/
def FreshAnti (st st' : ColorMap) : Prop := ∀ x, st' x = .fresh → st x = .fresh

/-- Every done node is accessible in the dependency relation. -/
def DoneAcc (g : Graph) (st : ColorMap) : Prop := ∀ x, st x = .done → AccDep g x

/-- No node is started (the state between outer-loop iterations). -/
def NoStarted (st : ColorMap) : Prop := ∀ x, st x ≠ .started

/-- Every started node reaches `node` (the recursion-stack invariant of
the walk). -/
def StackInv (g : Graph) (st : ColorMap) (node : Target) : Prop :=
  ∀ x, st x = .started → Reaches g x node

/-- The number of fresh targets of the graph: the termination measure
of the walk. -/
def freshCount (g : Graph) (st : ColorMap) : Nat :=
  g.targets.countP (fun n => decide (st n = .fresh))

/-! ### Specification predicates about the state store

These predicates support the characterisation of `update_state`:
badness of a persisted state propagates along the dependency relation. -/

/-- The dependency closure of `e` contains a target whose persisted
state is bad (failed, killed, cancelled or unknown). -/
def BadClosure (g : Graph) (db : DB) (e : Target) : Prop :=
  ∃ z, Reaches g e z ∧ (DB.get db z.name).isBad = true

/-- Some dependency of `x` has a bad closure. -/
def HasBadDep (g : Graph) (db : DB) (x : Target) : Prop :=
  ∃ e ∈ g.dependencies x, BadClosure g db e

/-- Every dependency edge stays inside the graph's target list. -/
def DepsClosed (g : Graph) : Prop :=
  ∀ u ∈ g.targets, ∀ d ∈ g.dependencies u, d ∈ g.targets

/-- Target names are unique within the graph's target list. -/
def NamesInj (g : Graph) : Prop :=
  ∀ x ∈ g.targets, ∀ y ∈ g.targets, x.name = y.name → x = y

/-- The exact effect of `update_state(t)` on the store: a target in the
closure of `t` with a bad-closured dependency is reset to UNKNOWN,
everything else keeps its persisted state. -/
def UpdChar (c : Ctx) (db db' : DB) (t : Target) : Prop :=
  ∀ x ∈ c.g.targets,
    ((Reaches c.g t x ∧ HasBadDep c.g db x) → DB.get db' x.name = .unknown) ∧
    (¬ (Reaches c.g t x ∧ HasBadDep c.g db x) →
      DB.get db' x.name = DB.get db x.name)

/-- The reset condition established by the dependency loop of
`update_state(t)` run over the sublist `l` of `t`'s dependencies. -/
def LoopCond (c : Ctx) (db : DB) (tname : String) (l : List Target)
    (x : Target) : Prop :=
  ((∃ d ∈ l, Reaches c.g d x) ∧ HasBadDep c.g db x) ∨
    (x.name = tname ∧ ∃ d ∈ l, BadClosure c.g db d)

/-- The exact effect of the dependency loop of `update_state`. -/
def LoopChar (c : Ctx) (db db' : DB) (tname : String) (l : List Target) : Prop :=
  ∀ x ∈ c.g.targets,
    (LoopCond c db tname l x → DB.get db' x.name = .unknown) ∧
    (¬ LoopCond c db tname l x → DB.get db' x.name = DB.get db x.name)

/-- One store extends another by resets at bad-closured targets only. -/
def ResetsOf (c : Ctx) (db db2 : DB) : Prop :=
  ∀ x ∈ c.g.targets,
    DB.get db2 x.name = DB.get db x.name ∨
      (DB.get db2 x.name = .unknown ∧ BadClosure c.g db x)

/-- A call changes no trace, no pretend set, and at most resets
persisted states (the frame of a `schedule` call that returns false). -/
def FrameOnly (s s' : SchedState) : Prop :=
  s'.trace = s.trace ∧ s'.pretend = s.pretend ∧
    ∀ n, DB.get s'.db n = DB.get s.db n ∨ DB.get s'.db n = .unknown

/-- A store evolution that at most resets states. -/
def DBResetOnly (db db' : DB) : Prop :=
  ∀ n, DB.get db' n = DB.get db n ∨ DB.get db' n = .unknown

/-! ### Specification predicates for the submission ordering (claim C5) -/

/-- A target status on which `schedule` takes neither submit path: not
in `SHOULDRUN_STATES` (no must-run submission) and not SUBMITTED (no
dedup gate). -/
def SafeSt (st : TargetStatus) : Prop :=
  SHOULDRUN_STATES.contains st = false ∧ st ≠ .submitted

/-- Node-level safety of a target in a store: `should_run` succeeds at
the scheduler's fuel, the status fused from the target's persisted
state is safe, and it stays safe when a reset replaces that state with
UNKNOWN (possible only when the closure already held a bad state). -/
def NodeSafe (c : Ctx) (db : DB) (x : Target) : Prop :=
  ∃ sr, shouldRun c c.F x = .ok sr ∧
    SafeSt (statusCase (DB.get db x.name) sr) ∧
    ((HasBadDep c.g db x ∨ (DB.get db x.name).isBad = true) →
      SafeSt (statusCase .unknown sr))

/-- `schedule` returns `false` on this target, stably across the rest
of the pass: the target and every target below it are node-safe. -/
inductive StableFalse (c : Ctx) (db : DB) : Target → Prop
  | mk (x : Target) (hnode : NodeSafe c db x)
      (hdeps : ∀ d ∈ c.g.dependencies x, StableFalse c db d) :
      StableFalse c db x

/-- The target is persisted SUBMITTED with a good closure: every later
`schedule` of it returns `true` through the dedup gate, never emitting
a submission event. -/
def NeverSub (c : Ctx) (db : DB) (x : Target) : Prop :=
  DB.get db x.name = .submitted ∧ ¬ BadClosure c.g db x

/-- A certificate that a target is not stably false, output of a
`schedule` call that returned `true`: the target is persisted SUBMITTED
(with a bad dependency only when `should_run` is true, so a reset keeps
it resubmittable), or its persisted state is bad while `should_run` is
true, or some dependency carries the certificate. -/
inductive TrueMark (c : Ctx) (db : DB) : Target → Prop
  | self (x : Target) : DB.get db x.name = .submitted →
      (HasBadDep c.g db x → ∀ sr, shouldRun c c.F x = .ok sr → sr = true) →
      TrueMark c db x
  | bad (x : Target) : (DB.get db x.name).isBad = true →
      (∀ sr, shouldRun c c.F x = .ok sr → sr = true) →
      TrueMark c db x
  | dep (x d : Target) : d ∈ c.g.dependencies x → TrueMark c db d →
      TrueMark c db x

/-- The store evolution of a scheduling pass: every target keeps its
persisted state, is reset to UNKNOWN (possible only with a bad state
already in its closure), or is written SUBMITTED. -/
def PassEvol (c : Ctx) (db db2 : DB) : Prop :=
  ∀ x ∈ c.g.targets,
    DB.get db2 x.name = DB.get db x.name ∨
      (DB.get db2 x.name = .unknown ∧ BadClosure c.g db x) ∨
      DB.get db2 x.name = .submitted

/-- The meta state `update_state` materialises for a target: UNKNOWN
when some dependency has a bad closure, the stored state otherwise. -/
def MIs (c : Ctx) (db : DB) (x : Target) (m : MetaState) : Prop :=
  (HasBadDep c.g db x ∧ m = .unknown) ∨
    (¬ HasBadDep c.g db x ∧ m = DB.get db x.name)

/-- The ordering invariant of a pass: every recorded submission of a
target was preceded by a submission of each of its dependencies, except
dependencies with no later submission either, being stably false or
submitted with a good closure. -/
def TraceInv (c : Ctx) (db : DB) (tr : List (String × List String)) : Prop :=
  ∀ pre ev post, tr = pre ++ ev :: post →
    ∀ p ∈ c.g.targets, p.name = ev.1 →
    ∀ d ∈ c.g.dependencies p,
      (∃ ds, (d.name, ds) ∈ pre) ∨
        ((∀ ds, (d.name, ds) ∉ ev :: post) ∧
          (StableFalse c db d ∨ NeverSub c db d))

/-- The effect of one `schedule` call within a non-dry pass running on
an empty pretend set: the store evolves by resets and submit-writes,
the pretend set stays empty, stably-false targets stay stably false and
return `false`, the ordering invariant is preserved, and the appended
events `new` avoid stably-false and gate-stable targets, name only
targets reachable from the scheduled one, and record every fresh
SUBMITTED write; a false call appends nothing and leaves the target
stably false, a true call leaves an event or a gate-stable target,
together with a resubmittability certificate. -/
structure CallSpecData (c : Ctx) (s : SchedState) (t : Target)
    (s' : SchedState) (b : Bool) (new : List (String × List String)) :
    Prop where
  evol : PassEvol c s.db s'.db
  pempty : s'.pretend = []
  pres : ∀ x ∈ c.g.targets, StableFalse c s.db x → StableFalse c s'.db x
  stf : StableFalse c s.db t → b = false
  inv : TraceInv c s.db s.trace → TraceInv c s'.db s'.trace
  tr_eq : s'.trace = s.trace ++ new
  noev : ∀ x ∈ c.g.targets, StableFalse c s.db x ∨ NeverSub c s.db x →
    ∀ ds, (x.name, ds) ∉ new
  names : ∀ nm ds, (nm, ds) ∈ new →
    ∃ q ∈ c.g.targets, q.name = nm ∧ Reaches c.g t q
  subev : ∀ x ∈ c.g.targets, DB.get s'.db x.name = .submitted →
    DB.get s.db x.name = .submitted ∨ ∃ ds, (x.name, ds) ∈ new
  bfalse : b = false → new = [] ∧ StableFalse c s'.db t
  btrue : b = true → ((∃ ds, (t.name, ds) ∈ new) ∨ NeverSub c s'.db t) ∧
    TrueMark c s'.db t

/-- The effect of one `schedule` call, with some event list. -/
def CallSpec (c : Ctx) (s : SchedState) (t : Target) (s' : SchedState)
    (b : Bool) : Prop :=
  ∃ new, CallSpecData c s t s' b new

/-- The effect of the dependency walk of `schedule` over the sublist
`l`, mirroring `CallSpec` call by call; `subs` collects the names of
the dependencies whose call returned `true`. -/
structure LoopSpecData (c : Ctx) (l : List Target) (s : SchedState)
    (s2 : SchedState) (subs : List String)
    (new : List (String × List String)) : Prop where
  evol : PassEvol c s.db s2.db
  pempty : s2.pretend = []
  pres : ∀ x ∈ c.g.targets, StableFalse c s.db x → StableFalse c s2.db x
  inv : TraceInv c s.db s.trace → TraceInv c s2.db s2.trace
  tr_eq : s2.trace = s.trace ++ new
  noev : ∀ x ∈ c.g.targets, StableFalse c s.db x ∨ NeverSub c s.db x →
    ∀ ds, (x.name, ds) ∉ new
  names : ∀ nm ds, (nm, ds) ∈ new →
    ∃ q ∈ c.g.targets, q.name = nm ∧ ∃ d ∈ l, Reaches c.g d q
  subev : ∀ x ∈ c.g.targets, DB.get s2.db x.name = .submitted →
    DB.get s.db x.name = .submitted ∨ ∃ ds, (x.name, ds) ∈ new
  sempty : subs = [] → new = [] ∧ ∀ d ∈ l, StableFalse c s2.db d
  snonempty : subs ≠ [] → ∃ d ∈ l, TrueMark c s2.db d
  perdep : ∀ d ∈ l, (∃ ds, (d.name, ds) ∈ new) ∨ StableFalse c s2.db d ∨
    NeverSub c s2.db d

/-- The effect of the dependency walk, with some event list. -/
def LoopSpec (c : Ctx) (l : List Target) (s : SchedState) (s2 : SchedState)
    (subs : List String) : Prop :=
  ∃ new, LoopSpecData c l s s2 subs new

/-! ## Concrete fixtures used by witnesses and counterexamples -/

/-- A dependency-free sink target. -/
def fixSink : Target := ⟨"A", [], []⟩

/-- A context holding only `fixSink`, no files on disk. -/
def ctxSink : Ctx := ⟨⟨[fixSink], fun _ => [], []⟩, fun _ => none, [], false, 2⟩

/-- The all-UNKNOWN persisted store: the empty record list. -/
def dbU : DB := []

/-- An up-to-date source target producing file `a`. -/
def fixD : Target := ⟨"D", [], ["a"]⟩

/-- A stale target consuming `a` and producing the missing file `b`. -/
def fixT : Target := ⟨"T", ["a"], ["b"]⟩

/-- A context for the two-target chain `fixD → fixT` where `a` exists
with timestamp 1 and `b` is missing. -/
def ctxC1 : Ctx :=
  ⟨⟨[fixD, fixT], fun t => if t = fixT then [fixD] else [], []⟩,
    fun p => if p = "a" then some 1 else none, [], false, 4⟩

/-- Scenario S1's first target: `A : {} → {a}`. -/
def fixA : Target := ⟨"A", [], ["a"]⟩

/-- Scenario S1's second target: `B : {a} → {b}`. -/
def fixB : Target := ⟨"B", ["a"], ["b"]⟩

/-- Scenario S1's third target: `C : {b} → {c}`. -/
def fixC : Target := ⟨"C", ["b"], ["c"]⟩

/-- Scenario S1 with dry-run enabled: the chain `A → B → C`, no files
on disk. -/
def ctxS1 : Ctx :=
  ⟨⟨[fixA, fixB, fixC],
    fun t => if t = fixB then [fixA] else if t = fixC then [fixB] else [], []⟩,
    fun _ => none, [], true, 4⟩

/-- The clean scheduling-pass state: all TargetMeta UNKNOWN, nothing
pretend-submitted, empty trace. -/
def schedState0 : SchedState := ⟨dbU, [], [], fun _ => []⟩

/-- The S8 run: `schedule(C)` under dry-run on scenario S1. -/
def runS1 : Except SchedErr (SchedState × Bool) := schedule ctxS1 4 schedState0 fixC

/-- The scheduler state after `schedule(C)` in S8. -/
def s1S1 : SchedState := match runS1 with | .ok r => r.1 | .error _ => default

/-- The S8 re-invocation: `schedule(B)` after `schedule(C)`. -/
def runS1B : Except SchedErr (SchedState × Bool) := schedule ctxS1 4 s1S1 fixB

/-- The scheduler state after the re-invocation. -/
def s2S1 : SchedState := match runS1B with | .ok r => r.1 | .error _ => default

/-- First `schedule(T)` of the C3 scenario: the chain `D → T` of
`ctxC1`, no dry-run, from the clean state (every persisted state
UNKNOWN). -/
def runC3x : Except SchedErr (SchedState × Bool) :=
  schedule ctxC1 4 schedState0 fixT

/-- The pass state after the first C3 call. -/
def s1C3x : SchedState := match runC3x with | .ok r => r.1 | .error _ => default

/-- The repeated `schedule(T)` of the C3 scenario, within the same
pass. -/
def runC3x2 : Except SchedErr (SchedState × Bool) :=
  schedule ctxC1 4 s1C3x fixT

/-- The store for the amended-C3 scenario: the dependency `D` has run
to completion, so no persisted state in `T`'s closure is bad. -/
def dbC3 : DB := [("D", .completed)]

/-- The pass state opening the amended-C3 scenario. -/
def sC3 : SchedState := ⟨dbC3, [], [], fun _ => []⟩

/-- First `schedule(T)` of the amended-C3 scenario. -/
def runC3 : Except SchedErr (SchedState × Bool) := schedule ctxC1 4 sC3 fixT

/-- The pass state after the first amended-C3 call. -/
def s1C3 : SchedState := match runC3 with | .ok r => r.1 | .error _ => default

/-- The repeated `schedule(T)` of the amended-C3 scenario. -/
def runC3b : Except SchedErr (SchedState × Bool) := schedule ctxC1 4 s1C3 fixT

/-- The pass state after the second amended-C3 call. -/
def s2C3 : SchedState := match runC3b with | .ok r => r.1 | .error _ => default

/-- Innermost target of the C5 diamond: `b : {} → {fb}`. -/
def fixB5 : Target := ⟨"b", [], ["fb"]⟩

/-- Middle target of the C5 diamond: `a : {fb} → {fa}`. -/
def fixA5 : Target := ⟨"a", ["fb"], ["fa"]⟩

/-- Top target of the C5 diamond: `t` consumes the outputs of both `a`
and `b`, so `a` and `b` are sibling dependencies of `t` while `b` is
also a dependency of `a`. -/
def fixT5 : Target := ⟨"t", ["fa", "fb"], ["ft"]⟩

/-- The C5 diamond context: no files on disk, no dry-run. -/
def ctxC5x : Ctx :=
  ⟨⟨[fixB5, fixA5, fixT5],
    fun t => if t = fixT5 then [fixA5, fixB5]
      else if t = fixA5 then [fixB5] else [], []⟩,
    fun _ => none, [], false, 6⟩

/-- `schedule(t)` on the C5 diamond from the clean state. -/
def runC5x : Except SchedErr (SchedState × Bool) :=
  schedule ctxC5x 6 schedState0 fixT5

/-- The C5 witness pass: `schedule_many([T])` on the `D → T` chain of
`ctxC1`, from the clean state. -/
def runC5w : Except SchedErr (SchedState × List Bool) :=
  scheduleMany ctxC1 4 schedState0 [fixT]

/-- The pass state after the C5 witness pass. -/
def sC5w : SchedState := match runC5w with | .ok r => r.1 | .error _ => default

/-- A dependency target for the `update_state` scenario: `P : {} → {p}`. -/
def fixP : Target := ⟨"P", [], ["p"]⟩

/-- A parent target for the `update_state` scenario: `Q : {p} → {q}`. -/
def fixQ : Target := ⟨"Q", ["p"], ["q"]⟩

/-- Context for the `update_state` scenario: `Q` depends on `P`. -/
def ctxC6 : Ctx :=
  ⟨⟨[fixP, fixQ], fun t => if t = fixQ then [fixP] else [], []⟩,
    fun _ => none, [], false, 3⟩

/-- Store for the `update_state` scenario: `P` FAILED, `Q` COMPLETED. -/
def dbC6 : DB := [("P", .failed), ("Q", .completed)]

/-- The `update_state(Q)` run of the scenario. -/
def runC6 : Except SchedErr (DB × MetaState) := updateState ctxC6 3 dbC6 fixQ

/-- The store after `update_state(Q)`. -/
def dbC6r : DB := match runC6 with | .ok r => r.1 | .error _ => dbU

/-- The meta state returned by `update_state(Q)`. -/
def mC6 : MetaState := match runC6 with | .ok r => r.2 | .error _ => .unknown

/-- Scenario S7's target: `M : {ext} → {m}` with `ext` unresolved. -/
def fixM : Target := ⟨"M", ["ext"], ["m"]⟩

/-- Scenario S7's context: `ext` unresolved and missing on disk. -/
def ctxC8 : Ctx := ⟨⟨[fixM], fun _ => [], ["ext"]⟩, fun _ => none, [], false, 3⟩

/-! ## Dictionary lemmas for `prepare_target_options` -/

theorem Dict.get_eq_none_of_not_contains {V : Type} (d : Dict V) (k : String)
    (h : d.containsKey k = false) : d.get k = none := by
  induction d with
  | nil => rfl
  | cons kv tl ih =>
    simp only [Dict.containsKey, List.any_cons, Bool.or_eq_false_iff] at h
    simp only [Dict.get, List.find?]
    rw [show (decide (kv.1 = k)) = false from h.1]
    exact ih h.2

theorem Dict.get_cons {V : Type} (kv : String × V) (tl : Dict V) (k : String) :
    Dict.get (kv :: tl) k = if kv.1 = k then some kv.2 else Dict.get tl k := by
  simp only [Dict.get, List.find?]
  by_cases h : kv.1 = k
  · simp [h]
  · simp [h]

theorem Dict.get_of_mem_nodup {V : Type} {d : Dict V} {kv : String × V}
    (hmem : kv ∈ d) (hnodup : (d.map Prod.fst).Nodup) :
    d.get kv.1 = some kv.2 := by
  induction d with
  | nil => cases hmem
  | cons hd tl ih =>
    simp only [List.map_cons, List.nodup_cons] at hnodup
    rw [Dict.get_cons]
    rcases List.mem_cons.mp hmem with h | h
    · subst h; simp
    · have hne : hd.1 ≠ kv.1 := by
        intro he
        exact hnodup.1 (he ▸ List.mem_map_of_mem Prod.fst h)
      rw [if_neg hne]
      exact ih h hnodup.2

/-- Keys surviving `prepare`-style map-and-filter: a key absent from the
underlying list is absent from the result. -/
theorem mapFilter_get_none (l : OptDict) (P : String × Option Nat → Bool)
    (fv : String → Option Nat → Option Nat) (k : String)
    (h : l.containsKey k = false) :
    Dict.get ((l.map (fun kv => (kv.1, fv kv.1 kv.2))).filter P) k = none := by
  induction l with
  | nil => rfl
  | cons kv tl ih =>
    simp only [Dict.containsKey, List.any_cons, Bool.or_eq_false_iff] at h
    have hk : kv.1 ≠ k := by simpa using h.1
    simp only [List.map_cons, List.filter_cons]
    by_cases hp : P (kv.1, fv kv.1 kv.2)
    · rw [if_pos hp, Dict.get_cons, if_neg hk]
      exact ih h.2
    · rw [if_neg hp]
      exact ih h.2

/-- The value a `prepare`-style map-and-filter stores at a key of the
underlying duplicate-free list. -/
theorem mapFilter_get (l : OptDict) (P : String × Option Nat → Bool)
    (fv : String → Option Nat → Option Nat)
    (hnodup : (l.map Prod.fst).Nodup) (k : String) (v : Option Nat)
    (hget : l.get k = some v) :
    Dict.get ((l.map (fun kv => (kv.1, fv kv.1 kv.2))).filter P) k
      = if P (k, fv k v) then some (fv k v) else none := by
  induction l with
  | nil => simp [Dict.get] at hget
  | cons kv tl ih =>
    simp only [List.map_cons, List.nodup_cons] at hnodup
    rw [Dict.get_cons] at hget
    simp only [List.map_cons, List.filter_cons]
    by_cases hk : kv.1 = k
    · rw [if_pos hk] at hget
      injection hget with hv
      subst hv; subst hk
      have htl : Dict.containsKey tl kv.1 = false := by
        unfold Dict.containsKey
        rw [List.any_eq_false]
        intro x hx
        simp only [decide_eq_true_eq]
        intro he
        exact hnodup.1 (he ▸ List.mem_map_of_mem Prod.fst hx)
      by_cases hp : P (kv.1, fv kv.1 kv.2)
      · rw [if_pos hp, Dict.get_cons, if_pos rfl, if_pos hp]
      · rw [if_neg hp, if_neg hp]
        exact mapFilter_get_none tl P fv kv.1 htl
    · rw [if_neg hk] at hget
      by_cases hp : P (kv.1, fv kv.1 kv.2)
      · rw [if_pos hp, Dict.get_cons, if_neg hk]
        exact ih hnodup.2 hget
      · rw [if_neg hp]
        exact ih hnodup.2 hget

/-- `prepare_target_options` as a map-and-filter over the defaults: the
options overlaid outside the backend's schema are all dropped again. -/
theorem prepare_eq_mapFilter (defaults opts : OptDict) :
    prepare_target_options defaults opts =
      (defaults.map (fun kv => (kv.1, (Dict.get opts kv.1).getD kv.2))).filter
        (fun kv => Dict.containsKey defaults kv.1 && kv.2.isSome) := by
  unfold prepare_target_options Dict.update
  rw [List.filter_append]
  have h2 : (opts.filter (fun kv => ¬ Dict.containsKey defaults kv.1)).filter
      (fun kv => Dict.containsKey defaults kv.1 && kv.2.isSome) = [] := by
    rw [List.filter_eq_nil_iff]
    intro kv hkv
    have := (List.mem_filter.mp hkv).2
    simp only [Bool.and_eq_true, decide_eq_true_eq] at this ⊢
    intro hc
    rw [hc.1] at this
    simp at this
  rw [h2, List.append_nil]

/-- Every entry produced by `prepare_target_options` has a key known to
the backend and a non-`None` value. -/
theorem prepare_mem (defaults opts : OptDict) (kv : String × Option Nat)
    (h : kv ∈ prepare_target_options defaults opts) :
    Dict.containsKey defaults kv.1 = true ∧ kv.2.isSome = true := by
  have := (List.mem_filter.mp h).2
  simpa [Bool.and_eq_true] using this

/-- Mapping then filtering two pointwise-equal functions over the same
list gives the same result. -/
theorem map_congr_mem {α β : Type} (l : List α) (f g : α → β)
    (h : ∀ x ∈ l, f x = g x) : l.map f = l.map g :=
  List.map_congr_left h

/-- Claim C10, counterexample: `prepare_target_options` is not
idempotent.  With backend defaults `{a: 1}` and target options
`{a: None}`, the first call deletes the explicit `None` and leaves `{}`,
while the second call re-applies the default and leaves `{a: 1}`. -/
theorem claim_C10_counterexample :
    prepare_target_options [("a", some 1)]
        (prepare_target_options [("a", some 1)] [("a", none)]) ≠
      prepare_target_options [("a", some 1)] [("a", none)] := by
  decide

/-- Claim C10, amended: unconditionally, after any call to
`prepare_target_options` every key of the result is a key of the
backend defaults and no value is `None`; and provided the backend's
option defaults have duplicate-free keys (a dict-representation
invariant) and no pre-existing option of the target is explicitly
`None`, `prepare_target_options` is idempotent. -/
theorem claim_C10_amended (defaults opts : OptDict) :
    (∀ kv ∈ prepare_target_options defaults opts,
      Dict.containsKey defaults kv.1 = true ∧ kv.2.isSome = true) ∧
    ((defaults.map Prod.fst).Nodup →
      (∀ kv ∈ opts, kv.2.isSome = true) →
      prepare_target_options defaults (prepare_target_options defaults opts) =
        prepare_target_options defaults opts) := by
  refine ⟨fun kv h => prepare_mem defaults opts kv h, fun hnodup hnone => ?_⟩
  rw [prepare_eq_mapFilter defaults (prepare_target_options defaults opts)]
  conv_rhs => rw [prepare_eq_mapFilter defaults opts]
  congr 1
  apply map_congr_mem
  intro kv hkv
  have hget : Dict.get defaults kv.1 = some kv.2 := Dict.get_of_mem_nodup hkv hnodup
  have hcont : Dict.containsKey defaults kv.1 = true := by
    unfold Dict.containsKey
    rw [List.any_eq_true]
    exact ⟨kv, hkv, by simp⟩
  have hr : Dict.get (prepare_target_options defaults opts) kv.1 =
      if Dict.containsKey defaults kv.1 && ((Dict.get opts kv.1).getD kv.2).isSome
        then some ((Dict.get opts kv.1).getD kv.2) else none := by
    rw [prepare_eq_mapFilter defaults opts]
    exact mapFilter_get defaults
      (fun kv => Dict.containsKey defaults kv.1 && kv.2.isSome)
      (fun k v => (Dict.get opts k).getD v) hnodup kv.1 kv.2 hget
  rw [hcont, Bool.true_and] at hr
  cases hopt : Dict.get opts kv.1 with
  | some v =>
    have hv : v.isSome = true := by
      have hfind := hopt
      unfold Dict.get at hfind
      cases hfe : opts.find? (fun e => e.1 = kv.1) with
      | none => rw [hfe] at hfind; simp at hfind
      | some e =>
        rw [hfe] at hfind
        simp only [Option.map_some'] at hfind
        injection hfind with hv
        exact hv ▸ hnone e (List.mem_of_find?_eq_some hfe)
    rw [hopt] at hr
    simp only [Option.getD_some, hv, if_true] at hr
    simp only [hopt, hr, Option.getD_some]
  | none =>
    rw [hopt] at hr
    simp only [Option.getD_none] at hr
    cases hv2 : kv.2 with
    | some n =>
      rw [hv2] at hr
      simp only [Option.isSome_some, if_true] at hr
      simp only [hopt, Option.getD_none, hr, hv2, Option.getD_some]
    | none =>
      rw [hv2] at hr
      simp only [Option.isSome_none, Bool.false_eq_true, if_false] at hr
      simp only [hopt, Option.getD_none, hr, hv2]

/-- Claim C10, amended, witness: the unconditional postconditions and
the amended idempotence at a concrete backend schema and option dict,
with the idempotence provisos discharged there. -/
theorem claim_C10_amended_witness :
    (∀ kv ∈ prepare_target_options [("cores", some 1), ("mem", some 4)]
        [("cores", some 8), ("queue", some 3)],
      Dict.containsKey [("cores", some 1), ("mem", some 4)] kv.1 = true ∧
        kv.2.isSome = true) ∧
    prepare_target_options [("cores", some 1), ("mem", some 4)]
        (prepare_target_options [("cores", some 1), ("mem", some 4)]
          [("cores", some 8), ("queue", some 3)]) =
      prepare_target_options [("cores", some 1), ("mem", some 4)]
        [("cores", some 8), ("queue", some 3)] :=
  ⟨(claim_C10_amended [("cores", some 1), ("mem", some 4)]
      [("cores", some 8), ("queue", some 3)]).1,
    (claim_C10_amended [("cores", some 1), ("mem", some 4)]
      [("cores", some 8), ("queue", some 3)]).2 (by decide) (by decide)⟩

/-! ## Generic `Except` plumbing -/

@[simp] theorem exbind_ok {ε α β : Type} (a : α) (f : α → Except ε β) :
    (Except.ok a >>= f) = f a := rfl

@[simp] theorem exbind_err {ε α β : Type} (e : ε) (f : α → Except ε β) :
    ((Except.error e : Except ε α) >>= f) = .error e := rfl

@[simp] theorem expure_eq {ε α : Type} (a : α) :
    (pure a : Except ε α) = .ok a := rfl

/-! ## Status resolution (claim C2) -/

/-- Modelled from the spec: the status table of §4.5, row by row. -/
def statusTable (m : MetaState) (sr : Bool) : TargetStatus :=
  match m, sr with
  | .unknown, true => .shouldrun
  | .unknown, false => .completed
  | .submitted, _ => .submitted
  | .running, _ => .running
  | .completed, true => .shouldrun
  | .completed, false => .completed
  | .failed, _ => .failed
  | .cancelled, _ => .cancelled
  | .killed, _ => .killed

/-- The source's `if/elif` chain coincides with the spec's table. -/
theorem statusCase_eq_table (m : MetaState) (sr : Bool) :
    statusCase m sr = statusTable m sr := by
  cases m <;> cases sr <;> rfl

/-- Claim C2: `status(t)` first applies `update_state(t)`, then asks
`should_run(t)`, and returns exactly the spec table's projection of the
pair (persisted state, should_run): UNKNOWN and COMPLETED map to
SHOULDRUN when `should_run` holds and to COMPLETED otherwise, while
SUBMITTED, RUNNING, FAILED, CANCELLED and KILLED map to the same-named
status regardless of `should_run`. -/
theorem claim_C2 (c : Ctx) (db : DB) (t : Target) (db' : DB) (st : TargetStatus)
    (h : status c db t = .ok (db', st)) :
    ∃ m sr, updateState c c.F db t = .ok (db', m) ∧
      shouldRun c c.F t = .ok sr ∧ st = statusTable m sr := by
  unfold status at h
  cases hu : updateState c c.F db t with
  | error e => rw [hu] at h; simp at h
  | ok r =>
    obtain ⟨rdb, rm⟩ := r
    rw [hu] at h
    cases hs : shouldRun c c.F t with
    | error e => rw [hs] at h; simp at h
    | ok sr =>
      rw [hs] at h
      simp only [exbind_ok, expure_eq, Except.ok.injEq, Prod.mk.injEq] at h
      exact ⟨rm, sr, by rw [← h.1], rfl, by rw [← h.2, statusCase_eq_table]⟩

/-- Claim C2, witness: the decomposition at a concrete scheduler state
(a sink target with persisted UNKNOWN state resolves to SHOULDRUN). -/
theorem claim_C2_witness :
    ∃ m sr, updateState ctxSink ctxSink.F dbU fixSink = .ok (dbU, m) ∧
      shouldRun ctxSink ctxSink.F fixSink = .ok sr ∧
      TargetStatus.shouldrun = statusTable m sr := by
  have h : status ctxSink dbU fixSink = .ok (dbU, .shouldrun) := rfl
  exact claim_C2 ctxSink dbU fixSink dbU .shouldrun h

/-! ## List extrema lemmas for the staleness comparison -/

theorem le_foldl_max (xs : List Nat) (init : Nat) : init ≤ xs.foldl Nat.max init := by
  induction xs generalizing init with
  | nil => simp
  | cons x xs ih =>
    simp only [List.foldl_cons]
    exact le_trans (Nat.le_max_left init x) (ih (Nat.max init x))

theorem mem_le_foldl_max {a : Nat} {xs : List Nat} (h : a ∈ xs) (init : Nat) :
    a ≤ xs.foldl Nat.max init := by
  induction xs generalizing init with
  | nil => cases h
  | cons x xs ih =>
    simp only [List.foldl_cons]
    rcases List.mem_cons.mp h with rfl | h2
    · exact le_trans (Nat.le_max_right init a) (le_foldl_max xs _)
    · exact ih h2 _

theorem foldl_max_mem (xs : List Nat) (init : Nat) :
    xs.foldl Nat.max init ∈ xs ∨ xs.foldl Nat.max init = init := by
  induction xs generalizing init with
  | nil => right; rfl
  | cons x xs ih =>
    simp only [List.foldl_cons]
    rcases ih (Nat.max init x) with h | h
    · left; exact List.mem_cons_of_mem _ h
    · rcases Nat.le_total init x with h2 | h2
      · have hx : Nat.max init x = x := by unfold Nat.max; exact max_eq_right h2
        left; rw [h, hx]; exact List.mem_cons_self _ _
      · have hx : Nat.max init x = init := by unfold Nat.max; exact max_eq_left h2
        right; rw [h, hx]

theorem foldl_min_le (xs : List Nat) (init : Nat) : xs.foldl Nat.min init ≤ init := by
  induction xs generalizing init with
  | nil => simp
  | cons x xs ih =>
    simp only [List.foldl_cons]
    exact le_trans (ih (Nat.min init x)) (Nat.min_le_left init x)

theorem foldl_min_le_mem {a : Nat} {xs : List Nat} (h : a ∈ xs) (init : Nat) :
    xs.foldl Nat.min init ≤ a := by
  induction xs generalizing init with
  | nil => cases h
  | cons x xs ih =>
    simp only [List.foldl_cons]
    rcases List.mem_cons.mp h with rfl | h2
    · exact le_trans (foldl_min_le xs _) (Nat.min_le_right init a)
    · exact ih h2 _

theorem foldl_min_mem (xs : List Nat) (init : Nat) :
    xs.foldl Nat.min init ∈ xs ∨ xs.foldl Nat.min init = init := by
  induction xs generalizing init with
  | nil => right; rfl
  | cons x xs ih =>
    simp only [List.foldl_cons]
    rcases ih (Nat.min init x) with h | h
    · left; exact List.mem_cons_of_mem _ h
    · rcases Nat.le_total init x with h2 | h2
      · have hx : Nat.min init x = init := by unfold Nat.min; exact min_eq_left h2
        right; rw [h, hx]
      · have hx : Nat.min init x = x := by unfold Nat.min; exact min_eq_right h2
        left; rw [h, hx]; exact List.mem_cons_self _ _

theorem maxOf_mem {xs : List Nat} (h : xs ≠ []) : maxOf xs ∈ xs := by
  match xs with
  | [] => exact absurd rfl h
  | x :: l =>
    simp only [maxOf]
    rcases foldl_max_mem l x with h2 | h2
    · exact List.mem_cons_of_mem _ h2
    · rw [h2]; exact List.mem_cons_self _ _

theorem le_maxOf {a : Nat} {xs : List Nat} (h : a ∈ xs) : a ≤ maxOf xs := by
  match xs with
  | [] => cases h
  | x :: l =>
    simp only [maxOf]
    rcases List.mem_cons.mp h with rfl | h2
    · exact le_foldl_max l a
    · exact mem_le_foldl_max h2 x

theorem minOf_mem {xs : List Nat} (h : xs ≠ []) : minOf xs ∈ xs := by
  match xs with
  | [] => exact absurd rfl h
  | x :: l =>
    simp only [minOf]
    rcases foldl_min_mem l x with h2 | h2
    · exact List.mem_cons_of_mem _ h2
    · rw [h2]; exact List.mem_cons_self _ _

theorem minOf_le {a : Nat} {xs : List Nat} (h : a ∈ xs) : minOf xs ≤ a := by
  match xs with
  | [] => cases h
  | x :: l =>
    simp only [minOf]
    rcases List.mem_cons.mp h with rfl | h2
    · exact foldl_min_le l a
    · exact foldl_min_le_mem h2 x

/-! ## Lemmas about `collectTimes` -/

theorem collectTimes_cons (fs : FS) (p : String) (ps : List String) :
    collectTimes fs (p :: ps) =
      (fs p).bind (fun tp => (collectTimes fs ps).map (fun ts => tp :: ts)) := by
  unfold collectTimes
  rw [List.mapM_cons]
  cases fs p with
  | none => rfl
  | some tp =>
    cases hps : ps.mapM fs with
    | none => simp [hps, Option.bind]
    | some ts => simp [hps, Option.bind]

theorem collectTimes_mem {fs : FS} {l : List String} {ts : List Nat}
    (h : collectTimes fs l = some ts) :
    (∀ p ∈ l, ∃ tp, fs p = some tp ∧ tp ∈ ts) ∧
      (∀ x ∈ ts, ∃ p ∈ l, fs p = some x) := by
  induction l generalizing ts with
  | nil =>
    have : ts = [] := by
      have h0 : collectTimes fs [] = some [] := rfl
      rw [h0] at h; injection h with h; exact h.symm
    subst this
    exact ⟨fun p hp => absurd hp (List.not_mem_nil p), fun x hx => absurd hx (List.not_mem_nil x)⟩
  | cons p ps ih =>
    rw [collectTimes_cons] at h
    cases hp : fs p with
    | none => rw [hp] at h; cases h
    | some tp =>
      rw [hp] at h
      cases hps : collectTimes fs ps with
      | none => rw [hps] at h; cases h
      | some ts0 =>
        rw [hps] at h
        simp only [Option.bind_some, Option.map_some'] at h
        injection h with h
        subst h
        obtain ⟨ih1, ih2⟩ := ih hps
        constructor
        · intro q hq
          rcases List.mem_cons.mp hq with rfl | hq2
          · exact ⟨tp, hp, List.mem_cons_self _ _⟩
          · obtain ⟨tq, htq, hmem⟩ := ih1 q hq2
            exact ⟨tq, htq, List.mem_cons_of_mem _ hmem⟩
        · intro x hx
          rcases List.mem_cons.mp hx with rfl | hx2
          · exact ⟨p, List.mem_cons_self _ _, hp⟩
          · obtain ⟨q, hq, hfq⟩ := ih2 x hx2
            exact ⟨q, List.mem_cons_of_mem _ hq, hfq⟩

theorem collectTimes_of_isSome {fs : FS} {l : List String}
    (h : ∀ p ∈ l, (fs p).isSome = true) :
    ∃ ts, collectTimes fs l = some ts ∧ ts.length = l.length := by
  induction l with
  | nil => exact ⟨[], rfl, rfl⟩
  | cons p ps ih =>
    obtain ⟨ts, hts, hlen⟩ := ih (fun q hq => h q (List.mem_cons_of_mem _ hq))
    obtain ⟨tp, htp⟩ := Option.isSome_iff_exists.mp (h p (List.mem_cons_self _ _))
    refine ⟨tp :: ts, ?_, by simp [hlen]⟩
    rw [collectTimes_cons, htp, hts]
    rfl

/-! ## Structural lemmas about `should_run` -/

theorem anyTrueM_ok_true {ε α : Type} {f : α → Except ε Bool} {l : List α}
    (h : anyTrueM f l = .ok true) : ∃ x ∈ l, f x = .ok true := by
  induction l with
  | nil => cases h
  | cons x xs ih =>
    unfold anyTrueM at h
    cases hx : f x with
    | error e => rw [hx] at h; cases h
    | ok b =>
      rw [hx] at h
      cases b with
      | true => exact ⟨x, List.mem_cons_self _ _, hx⟩
      | false =>
        simp only [exbind_ok, if_neg (by simp : ¬ false = true)] at h
        obtain ⟨y, hy, hfy⟩ := ih h
        exact ⟨y, List.mem_cons_of_mem _ hy, hfy⟩

theorem anyTrueM_ok_false {ε α : Type} {f : α → Except ε Bool} {l : List α}
    (h : anyTrueM f l = .ok false) : ∀ x ∈ l, f x = .ok false := by
  induction l with
  | nil => intro x hx; cases hx
  | cons x xs ih =>
    unfold anyTrueM at h
    cases hx : f x with
    | error e => rw [hx] at h; cases h
    | ok b =>
      rw [hx] at h
      cases b with
      | true => simp at h
      | false =>
        simp only [exbind_ok, if_neg (by simp : ¬ false = true)] at h
        intro y hy
        rcases List.mem_cons.mp hy with rfl | hy2
        · exact hx
        · exact ih h y hy2

theorem anyTrueM_of_all_false {ε α : Type} {f : α → Except ε Bool} {l : List α}
    (h : ∀ x ∈ l, f x = .ok false) : anyTrueM f l = .ok false := by
  induction l with
  | nil => rfl
  | cons x xs ih =>
    unfold anyTrueM
    rw [h x (List.mem_cons_self _ _)]
    simp only [exbind_ok, if_neg (by simp : ¬ false = true)]
    exact ih (fun y hy => h y (List.mem_cons_of_mem _ hy))

/-- A target whose `should_run` evaluated to `false` has all its output
files on disk: the missing-output check was passed on every `false`
path. -/
theorem shouldRun_ok_false_outputs {c : Ctx} {f : Nat} {d : Target}
    (h : shouldRun c f d = .ok false) :
    ∀ q ∈ d.flattened_outputs, (c.fs q).isSome = true := by
  match f with
  | 0 => cases h
  | f + 1 =>
    unfold shouldRun at h
    cases hdeps : anyTrueM (shouldRun c f) (c.g.dependencies d) with
    | error e => rw [hdeps] at h; cases h
    | ok b =>
      rw [hdeps] at h
      cases b with
      | true => simp at h
      | false =>
        simp only [exbind_ok, if_neg (by simp : ¬ false = true)] at h
        cases hfind : d.flattened_inputs.find?
            (fun p => c.g.unresolved.contains p && (c.fs p).isNone) with
        | some p => rw [hfind] at h; cases h
        | none =>
          rw [hfind] at h
          by_cases hsink : d.is_sink = true
          · rw [if_pos hsink] at h; cases h
          · rw [if_neg hsink] at h
            cases hany : d.flattened_outputs.any (fun p => (c.fs p).isNone) with
            | true => rw [hany] at h; simp at h
            | false =>
              intro q hq
              have := List.any_eq_false.mp hany q hq
              simpa [Option.isNone_iff_eq_none, Option.isSome_iff_ne_none] using this

/-! ## Claims C1 and C8: the staleness decision -/

/-- Claim C1: for a target evaluated without error, `should_run` is
decided by the ordered rules — true when some dependency should run,
otherwise true for a sink, otherwise true when an output is missing,
otherwise false for a source, otherwise true exactly when the maximum
input timestamp strictly exceeds the minimum output timestamp (so equal
timestamps yield false); moreover in the final comparison every
consulted input and output path has a timestamp. -/
theorem claim_C1 (c : Ctx) (f : Nat) (t : Target) (b : Bool)
    (hwf : ∀ p ∈ t.flattened_inputs, c.g.unresolved.contains p = true ∨
      ∃ d ∈ c.g.dependencies t, p ∈ d.flattened_outputs)
    (h : shouldRun c (f + 1) t = .ok b) :
    (b = true ↔
      (∃ d ∈ c.g.dependencies t, shouldRun c f d = .ok true) ∨
      t.is_sink = true ∨
      (∃ q ∈ t.flattened_outputs, c.fs q = none) ∨
      (t.is_source = false ∧
        ∃ p ∈ t.flattened_inputs, ∃ q ∈ t.flattened_outputs, ∃ tp tq,
          c.fs p = some tp ∧ c.fs q = some tq ∧ tq < tp)) ∧
    ((∀ d ∈ c.g.dependencies t, shouldRun c f d = .ok false) →
      t.is_sink = false →
      (∀ q ∈ t.flattened_outputs, (c.fs q).isSome = true) →
      ∀ p ∈ t.flattened_inputs, (c.fs p).isSome = true) := by
  have hC2 : (∀ d ∈ c.g.dependencies t, shouldRun c f d = .ok false) →
      (∀ p ∈ t.flattened_inputs, (c.fs p).isSome = true) ∨
        ¬ (t.flattened_inputs.find?
          (fun p => c.g.unresolved.contains p && (c.fs p).isNone) = none) := by
    intro hdeps
    by_cases hfind : t.flattened_inputs.find?
        (fun p => c.g.unresolved.contains p && (c.fs p).isNone) = none
    · left
      intro p hp
      rcases hwf p hp with hun | ⟨d, hd, hout⟩
      · have := List.find?_eq_none.mp hfind p hp
        simp only [Bool.and_eq_true, not_and] at this
        have h2 := this hun
        simpa [Option.isSome_iff_ne_none, Option.isNone_iff_eq_none] using h2
      · exact shouldRun_ok_false_outputs (hdeps d hd) p hout
    · right; exact hfind
  unfold shouldRun at h
  cases hdeps0 : anyTrueM (shouldRun c f) (c.g.dependencies t) with
  | error e => rw [hdeps0] at h; cases h
  | ok bd =>
    rw [hdeps0] at h
    simp only [exbind_ok] at h
    cases bd with
    | true =>
      rw [if_pos rfl] at h
      injection h with h
      subst h
      have hD1 := anyTrueM_ok_true hdeps0
      exact ⟨⟨fun _ => Or.inl hD1, fun _ => rfl⟩,
        fun hdeps _ _ => by
          obtain ⟨d, hd, htrue⟩ := hD1
          rw [hdeps d hd] at htrue
          cases htrue⟩
    | false =>
      rw [if_neg (by simp : ¬ false = true)] at h
      have hall : ∀ d ∈ c.g.dependencies t, shouldRun c f d = .ok false :=
        anyTrueM_ok_false hdeps0
      have hnotD1 : ¬ ∃ d ∈ c.g.dependencies t, shouldRun c f d = .ok true := by
        rintro ⟨d, hd, htrue⟩
        rw [hall d hd] at htrue
        cases htrue
      cases hfind : t.flattened_inputs.find?
          (fun p => c.g.unresolved.contains p && (c.fs p).isNone) with
      | some p =>
        rw [hfind] at h
        have hb : (Except.error (SchedErr.fileRequired p t.name) :
            Except SchedErr Bool) = .ok b := h
        cases hb
      | none =>
        rw [hfind] at h
        have hins : t.is_sink = false →
            (∀ q ∈ t.flattened_outputs, (c.fs q).isSome = true) →
            ∀ p ∈ t.flattened_inputs, (c.fs p).isSome = true := by
          intro _ _
          rcases hC2 hall with h1 | h1
          · exact h1
          · exact absurd hfind h1
        refine ⟨?_, fun _ => hins⟩
        by_cases hsink : t.is_sink = true
        · rw [if_pos hsink] at h
          have hb : (Except.ok true : Except SchedErr Bool) = .ok b := h
          injection hb with hb
          subst hb
          exact ⟨fun _ => Or.inr (Or.inl hsink), fun _ => rfl⟩
        · rw [if_neg hsink] at h
          have hsinkf : t.is_sink = false := Bool.eq_false_iff.mpr hsink
          cases hany : t.flattened_outputs.any (fun p => (c.fs p).isNone) with
          | true =>
            rw [hany, if_pos rfl] at h
            have hb : (Except.ok true : Except SchedErr Bool) = .ok b := h
            injection hb with hb
            subst hb
            obtain ⟨q, hq, hqn⟩ := List.any_eq_true.mp hany
            exact ⟨fun _ => Or.inr (Or.inr (Or.inl
              ⟨q, hq, Option.isNone_iff_eq_none.mp hqn⟩)), fun _ => rfl⟩
          | false =>
            rw [hany, if_neg (by simp : ¬ false = true)] at h
            have houts : ∀ q ∈ t.flattened_outputs, (c.fs q).isSome = true := by
              intro q hq
              have h2 := List.any_eq_false.mp hany q hq
              simpa [Option.isSome_iff_ne_none, Option.isNone_iff_eq_none] using h2
            have hnotD3 : ¬ ∃ q ∈ t.flattened_outputs, c.fs q = none := by
              rintro ⟨q, hq, hqn⟩
              have h2 := houts q hq
              rw [hqn] at h2
              cases h2
            by_cases hsrc : t.is_source = true
            · rw [if_pos hsrc] at h
              have hb : (Except.ok false : Except SchedErr Bool) = .ok b := h
              injection hb with hb
              subst hb
              constructor
              · intro hfalse; cases hfalse
              · rintro (hD1 | hD2 | hD3 | ⟨hD4, _⟩)
                · exact absurd hD1 hnotD1
                · rw [hsinkf] at hD2; cases hD2
                · exact absurd hD3 hnotD3
                · rw [hsrc] at hD4; cases hD4
            · rw [if_neg hsrc] at h
              have hsrcf : t.is_source = false := Bool.eq_false_iff.mpr hsrc
              have hinsf := hins hsinkf houts
              obtain ⟨yin, hyin, hleni⟩ := collectTimes_of_isSome hinsf
              obtain ⟨yout, hyout, hleno⟩ := collectTimes_of_isSome houts
              rw [hyin, hyout] at h
              have hb : (Except.ok (decide (maxOf yin > minOf yout)) :
                  Except SchedErr Bool) = .ok b := h
              injection hb with hb
              subst hb
              have hinne : t.flattened_inputs ≠ [] := by
                intro he
                have h2 : t.is_source = true := by
                  rw [Target.is_source, show t.inputs = [] from he]
                  rfl
                rw [h2] at hsrcf
                cases hsrcf
              have houtne : t.flattened_outputs ≠ [] := by
                intro he
                have h2 : t.is_sink = true := by
                  rw [Target.is_sink, show t.outputs = [] from he]
                  rfl
                rw [h2] at hsinkf
                cases hsinkf
              have hyinne : yin ≠ [] := by
                intro he
                rw [he] at hleni
                exact hinne (List.length_eq_zero.mp hleni.symm)
              have hyoutne : yout ≠ [] := by
                intro he
                rw [he] at hleno
                exact houtne (List.length_eq_zero.mp hleno.symm)
              constructor
              · intro hcmp
                have hgt : maxOf yin > minOf yout := of_decide_eq_true hcmp
                obtain ⟨p, hp, hfp⟩ :=
                  (collectTimes_mem hyin).2 (maxOf yin) (maxOf_mem hyinne)
                obtain ⟨q, hq, hfq⟩ :=
                  (collectTimes_mem hyout).2 (minOf yout) (minOf_mem hyoutne)
                exact Or.inr (Or.inr (Or.inr ⟨hsrcf,
                  p, hp, q, hq, maxOf yin, minOf yout, hfp, hfq, hgt⟩))
              · rintro (hD1 | hD2 | hD3 | ⟨_, p, hp, q, hq, tp, tq, hfp, hfq, hlt⟩)
                · exact absurd hD1 hnotD1
                · rw [hsinkf] at hD2; cases hD2
                · exact absurd hD3 hnotD3
                · obtain ⟨tp2, hfp2, htpin⟩ := (collectTimes_mem hyin).1 p hp
                  obtain ⟨tq2, hfq2, htqin⟩ := (collectTimes_mem hyout).1 q hq
                  rw [hfp] at hfp2
                  rw [hfq] at hfq2
                  injection hfp2 with hfp2
                  injection hfq2 with hfq2
                  subst hfp2
                  subst hfq2
                  have h1 : tp ≤ maxOf yin := le_maxOf htpin
                  have h2 : minOf yout ≤ tq := minOf_le htqin
                  exact decide_eq_true (Nat.lt_of_lt_of_le (Nat.lt_of_le_of_lt h2 hlt) h1)

/-- Claim C1, witness: the rule cascade at a concrete stale target (a
missing output forces a run) whose single dependency is up to date. -/
theorem claim_C1_witness :
    ((true = true ↔
      (∃ d ∈ ctxC1.g.dependencies fixT, shouldRun ctxC1 3 d = .ok true) ∨
      fixT.is_sink = true ∨
      (∃ q ∈ fixT.flattened_outputs, ctxC1.fs q = none) ∨
      (fixT.is_source = false ∧
        ∃ p ∈ fixT.flattened_inputs, ∃ q ∈ fixT.flattened_outputs, ∃ tp tq,
          ctxC1.fs p = some tp ∧ ctxC1.fs q = some tq ∧ tq < tp)) ∧
    ((∀ d ∈ ctxC1.g.dependencies fixT, shouldRun ctxC1 3 d = .ok false) →
      fixT.is_sink = false →
      (∀ q ∈ fixT.flattened_outputs, (ctxC1.fs q).isSome = true) →
      ∀ p ∈ fixT.flattened_inputs, (ctxC1.fs p).isSome = true)) :=
  claim_C1 ctxC1 3 fixT true (by decide) (by rfl)

/-- Claim C8: when no dependency of `t` should run, an unresolved input
missing on disk makes `should_run` (and hence `schedule`, which asks
`status` first) fail with the required-file-missing error naming the
path and the target; when every unresolved input exists on disk, no
such error is raised for `t`. -/
theorem claim_C8 (c : Ctx) (f : Nat) (t : Target)
    (hdeps : ∀ d ∈ c.g.dependencies t, shouldRun c f d = .ok false) :
    ((∃ p ∈ t.flattened_inputs, c.g.unresolved.contains p = true ∧ c.fs p = none) →
      ∃ p, shouldRun c (f + 1) t = .error (.fileRequired p t.name) ∧
        p ∈ t.flattened_inputs ∧ c.g.unresolved.contains p = true ∧ c.fs p = none) ∧
    ((∀ p ∈ t.flattened_inputs, c.g.unresolved.contains p = true →
        (c.fs p).isSome = true) →
      ∀ p, shouldRun c (f + 1) t ≠ .error (.fileRequired p t.name)) ∧
    (c.F = f + 1 →
      (∀ s : SchedState, ∀ fl du,
        updateState c (f + 1) s.db t = .ok du →
        (∃ p ∈ t.flattened_inputs, c.g.unresolved.contains p = true ∧ c.fs p = none) →
        ∃ p, schedule c (fl + 1) s t = .error (.fileRequired p t.name))) := by
  have hloop : anyTrueM (shouldRun c f) (c.g.dependencies t) = .ok false :=
    anyTrueM_of_all_false hdeps
  have hsr : ∀ b0, shouldRun c (f + 1) t = b0 → b0 =
      (match t.flattened_inputs.find?
          (fun p => c.g.unresolved.contains p && (c.fs p).isNone) with
      | some p => .error (.fileRequired p t.name)
      | none =>
        if t.is_sink then .ok true
        else if t.flattened_outputs.any (fun p => (c.fs p).isNone) then .ok true
        else if t.is_source then .ok false
        else
          match collectTimes c.fs t.flattened_inputs,
                collectTimes c.fs t.flattened_outputs with
          | some yin, some yout => .ok (decide (maxOf yin > minOf yout))
          | _, _ => .error .typeConfusion) := by
    intro b0 hb0
    rw [← hb0]
    unfold shouldRun
    rw [hloop]
    simp only [exbind_ok, Bool.false_eq_true, if_false]
  have hmain := hsr _ rfl
  have hpart1 : (∃ p ∈ t.flattened_inputs,
      c.g.unresolved.contains p = true ∧ c.fs p = none) →
      ∃ p, shouldRun c (f + 1) t = .error (.fileRequired p t.name) ∧
        p ∈ t.flattened_inputs ∧ c.g.unresolved.contains p = true ∧
        c.fs p = none := by
    rintro ⟨p, hp, hun, hmiss⟩
    have hex : ∃ q, t.flattened_inputs.find?
        (fun p => c.g.unresolved.contains p && (c.fs p).isNone) = some q := by
      rcases hfind : t.flattened_inputs.find?
          (fun p => c.g.unresolved.contains p && (c.fs p).isNone) with _ | q
      · have := List.find?_eq_none.mp hfind p hp
        rw [hun, hmiss] at this
        simp at this
      · exact ⟨q, rfl⟩
    obtain ⟨q, hq⟩ := hex
    rw [hq] at hmain
    have hqmem := List.mem_of_find?_eq_some hq
    have hqprop := List.find?_some hq
    simp only [Bool.and_eq_true, Option.isNone_iff_eq_none] at hqprop
    exact ⟨q, hmain, hqmem, hqprop.1, hqprop.2⟩
  refine ⟨hpart1, ?_, ?_⟩
  · intro hok p
    cases hfind : t.flattened_inputs.find?
        (fun p => c.g.unresolved.contains p && (c.fs p).isNone) with
    | some q =>
      have hqmem := List.mem_of_find?_eq_some hfind
      have hqprop := List.find?_some hfind
      simp only [Bool.and_eq_true, Option.isNone_iff_eq_none] at hqprop
      have := hok q hqmem hqprop.1
      rw [hqprop.2] at this
      cases this
    | none =>
      rw [hfind] at hmain
      rw [hmain]
      by_cases hsink : t.is_sink = true
      · simp [hsink]
      · simp only [Bool.eq_false_iff.mpr hsink, Bool.false_eq_true, if_false]
        cases hany : t.flattened_outputs.any (fun p => (c.fs p).isNone) with
        | true => simp
        | false =>
          simp only [Bool.false_eq_true, if_false]
          by_cases hsrc : t.is_source = true
          · simp [hsrc]
          · simp only [Bool.eq_false_iff.mpr hsrc, Bool.false_eq_true, if_false]
            rcases collectTimes c.fs t.flattened_inputs with _ | yin <;>
              rcases collectTimes c.fs t.flattened_outputs with _ | yout <;> simp
  · intro hF s fl du hupd hmiss
    obtain ⟨p, hsrerr, hpmem, hpun, hpnone⟩ := hpart1 hmiss
    refine ⟨p, ?_⟩
    unfold schedule
    have hstatus : status c s.db t = .error (.fileRequired p t.name) := by
      unfold status
      rw [hF, hupd]
      simp only [exbind_ok]
      rw [hsrerr]
      rfl
    simp only [hstatus]
    rfl

/-! ## Claims C8 (witness) and C9 -/

/-- Claim C8, witness: scenario S7 — the unresolved input `ext` of `M`
is missing on disk, so `should_run` (and `schedule`) fail with the
required-file-missing error naming `ext` and `M`. -/
theorem claim_C8_witness :
    ((∃ p ∈ fixM.flattened_inputs, ctxC8.g.unresolved.contains p = true ∧
        ctxC8.fs p = none) →
      ∃ p, shouldRun ctxC8 (2 + 1) fixM = .error (.fileRequired p fixM.name) ∧
        p ∈ fixM.flattened_inputs ∧ ctxC8.g.unresolved.contains p = true ∧
        ctxC8.fs p = none) ∧
    ((∀ p ∈ fixM.flattened_inputs, ctxC8.g.unresolved.contains p = true →
        (ctxC8.fs p).isSome = true) →
      ∀ p, shouldRun ctxC8 (2 + 1) fixM ≠ .error (.fileRequired p fixM.name)) ∧
    (ctxC8.F = 2 + 1 →
      (∀ s : SchedState, ∀ fl du,
        updateState ctxC8 (2 + 1) s.db fixM = .ok du →
        (∃ p ∈ fixM.flattened_inputs, ctxC8.g.unresolved.contains p = true ∧
          ctxC8.fs p = none) →
        ∃ p, schedule ctxC8 (fl + 1) s fixM = .error (.fileRequired p fixM.name))) :=
  claim_C8 ctxC8 2 fixM (fun d hd => absurd hd (List.not_mem_nil d))

/-- A store whose every record is UNKNOWN looks up to UNKNOWN at every
name. -/
theorem DB.get_all_unknown {db : DB}
    (h : db.all (fun e => e.2 = .unknown) = true) :
    ∀ n, DB.get db n = .unknown := by
  intro n
  unfold DB.get
  cases hf : db.find? (fun e => e.1 = n) with
  | none => rfl
  | some e =>
    have hmem := List.mem_of_find?_eq_some hf
    have h2 := List.all_eq_true.mp h e hmem
    simp only [decide_eq_true_eq] at h2
    simp [h2]

/-- Claim C9: scenario S8 — on the dry-run chain `A → B → C` with no
files on disk and all TargetMeta UNKNOWN, `schedule(C)` returns true,
leaves every persisted state unchanged (no TargetMeta mutations,
value-wise) and no submission trace, and leaves the pretend-submitted
set `[A, B, C]`; re-invoking `schedule(B)` returns true immediately
(pretend set, trace and persisted states unchanged). -/
theorem claim_C9 :
    runS1 = .ok (s1S1, true) ∧
    s1S1.pretend = ["A", "B", "C"] ∧
    s1S1.trace = [] ∧
    (∀ n, DB.get s1S1.db n = DB.get schedState0.db n) ∧
    runS1B = .ok (s2S1, true) ∧
    s2S1.pretend = s1S1.pretend ∧
    s2S1.trace = s1S1.trace ∧
    (∀ n, DB.get s2S1.db n = DB.get s1S1.db n) := by
  have h1 : ∀ n, DB.get s1S1.db n = .unknown := DB.get_all_unknown (by decide)
  have h2 : ∀ n, DB.get s2S1.db n = .unknown := DB.get_all_unknown (by decide)
  exact ⟨rfl, by decide, by decide, fun n => by rw [h1 n]; rfl,
    rfl, by decide, by decide, fun n => by rw [h1 n, h2 n]⟩

/-! ## Reachability and store lemmas -/

theorem Reaches.trans {g : Graph} {a b e : Target}
    (h1 : Reaches g a b) (h2 : Reaches g b e) : Reaches g a e := by
  induction h1 with
  | refl t => exact h2
  | step hd _ ih => exact Reaches.step hd (ih h2)

theorem Reaches_mem_targets {g : Graph} (hc : DepsClosed g) {a z : Target}
    (h : Reaches g a z) : a ∈ g.targets → z ∈ g.targets := by
  induction h with
  | refl t => exact id
  | step hd _ ih => intro ha; exact ih (hc _ ha _ hd)

theorem Reaches_inv {g : Graph} {t x : Target} (h : Reaches g t x) :
    x = t ∨ ∃ d ∈ g.dependencies t, Reaches g d x := by
  cases h with
  | refl => left; rfl
  | step hd h2 => right; exact ⟨_, hd, h2⟩

theorem DB.get_set_same (db : DB) (n : String) (v : MetaState) :
    DB.get (DB.set db n v) n = v := by
  simp [DB.get, DB.set, List.find?]

theorem DB.get_set_ne (db : DB) {n m : String} (h : n ≠ m) (v : MetaState) :
    DB.get (DB.set db m v) n = DB.get db n := by
  simp only [DB.get, DB.set, List.find?]
  rw [show (decide (m = n)) = false from decide_eq_false (fun he => h he.symm)]

theorem HasBadDep.toBadClosure {g : Graph} {db : DB} {x : Target}
    (h : HasBadDep g db x) : BadClosure g db x := by
  obtain ⟨e, he, z, hz, hbad⟩ := h
  exact ⟨z, Reaches.step he hz, hbad⟩

theorem BadClosure_iff {g : Graph} {db : DB} {d : Target} :
    BadClosure g db d ↔ ((DB.get db d.name).isBad = true ∨ HasBadDep g db d) := by
  constructor
  · rintro ⟨z, hz, hbad⟩
    cases hz with
    | refl => left; exact hbad
    | step hd h2 => right; exact ⟨_, hd, z, h2, hbad⟩
  · rintro (h | h)
    · exact ⟨d, Reaches.refl d, h⟩
    · exact h.toBadClosure

theorem BadClosure_stable {c : Ctx} {db db2 : DB} (hc : DepsClosed c.g)
    (hr : ResetsOf c db db2) {e : Target} (he : e ∈ c.g.targets) :
    BadClosure c.g db2 e ↔ BadClosure c.g db e := by
  constructor
  · rintro ⟨z, hz, hbad⟩
    have hzmem : z ∈ c.g.targets := Reaches_mem_targets hc hz he
    rcases hr z hzmem with heq | ⟨_, hbc⟩
    · rw [heq] at hbad
      exact ⟨z, hz, hbad⟩
    · obtain ⟨w, hw, hwbad⟩ := hbc
      exact ⟨w, hz.trans hw, hwbad⟩
  · rintro ⟨z, hz, hbad⟩
    have hzmem : z ∈ c.g.targets := Reaches_mem_targets hc hz he
    rcases hr z hzmem with heq | ⟨hu, _⟩
    · exact ⟨z, hz, by rw [heq]; exact hbad⟩
    · exact ⟨z, hz, by rw [hu]; rfl⟩

theorem HasBadDep_stable {c : Ctx} {db db2 : DB} (hc : DepsClosed c.g)
    (hr : ResetsOf c db db2) {x : Target} (hx : x ∈ c.g.targets) :
    HasBadDep c.g db2 x ↔ HasBadDep c.g db x := by
  constructor
  · rintro ⟨e, he, hbc⟩
    exact ⟨e, he, (BadClosure_stable hc hr (hc x hx e he)).mp hbc⟩
  · rintro ⟨e, he, hbc⟩
    exact ⟨e, he, (BadClosure_stable hc hr (hc x hx e he)).mpr hbc⟩

theorem UpdChar.resetsOf {c : Ctx} {db db' : DB} {t : Target}
    (h : UpdChar c db db' t) : ResetsOf c db db' := by
  intro x hx
  rcases Classical.em (Reaches c.g t x ∧ HasBadDep c.g db x) with hcond | hcond
  · exact Or.inr ⟨(h x hx).1 hcond, hcond.2.toBadClosure⟩
  · exact Or.inl ((h x hx).2 hcond)

/-! ## The characterisation of `update_state` (claim C6) -/

/-- The dependency loop of `update_state` realises `LoopChar`, assuming
the characterisation of the recursive calls at the current fuel. -/
theorem updateLoopChar (c : Ctx) (hc : DepsClosed c.g) (hinj : NamesInj c.g)
    (f : Nat)
    (IH : ∀ db t db' m, t ∈ c.g.targets →
      updateState c f db t = .ok (db', m) →
      UpdChar c db db' t ∧ m = DB.get db' t.name) :
    ∀ (l : List Target) (db db' : DB) (t : Target), t ∈ c.g.targets →
      (∀ d ∈ l, d ∈ c.g.dependencies t) →
      updateLoop (updateState c f) t.name db l = .ok db' →
      LoopChar c db db' t.name l := by
  intro l
  induction l with
  | nil =>
    intro db db' t ht hsub h
    have hdb : db = db' := by
      unfold updateLoop at h
      injection h
    subst hdb
    intro x hx
    constructor
    · rintro (⟨⟨d, hd, _⟩, _⟩ | ⟨_, d, hd, _⟩) <;> cases hd
    · intro _; rfl
  | cons d ds ihl =>
    intro db db' t ht hsub h
    unfold updateLoop at h
    cases hr : updateState c f db d with
    | error e => rw [hr] at h; cases h
    | ok r =>
      obtain ⟨db1, m⟩ := r
      rw [hr] at h
      simp only [exbind_ok] at h
      have hd_t : d ∈ c.g.dependencies t := hsub d (List.mem_cons_self _ _)
      have hdmem : d ∈ c.g.targets := hc t ht d hd_t
      obtain ⟨hchar1, hm⟩ := IH db d db1 m hdmem hr
      have hres1 : ResetsOf c db db1 := hchar1.resetsOf
      have hmBC : m.isBad = true ↔ BadClosure c.g db d := by
        constructor
        · intro hbad
          rcases Classical.em (HasBadDep c.g db d) with hh | hh
          · exact BadClosure_iff.mpr (Or.inr hh)
          · have heq := (hchar1 d hdmem).2 (fun hcon => hh hcon.2)
            rw [hm, heq] at hbad
            exact BadClosure_iff.mpr (Or.inl hbad)
        · intro hbc
          rcases BadClosure_iff.mp hbc with hbad | hh
          · rcases Classical.em (HasBadDep c.g db d) with hh2 | hh2
            · rw [hm, (hchar1 d hdmem).1 ⟨Reaches.refl d, hh2⟩]; rfl
            · rw [hm, (hchar1 d hdmem).2 (fun hcon => hh2 hcon.2)]; exact hbad
          · rw [hm, (hchar1 d hdmem).1 ⟨Reaches.refl d, hh⟩]; rfl
      by_cases hmb : m.isBad = true
      · rw [if_pos hmb] at h
        have hBCd : BadClosure c.g db d := hmBC.mp hmb
        have hres2 : ResetsOf c db (DB.set db1 t.name .unknown) := by
          intro x hx
          by_cases hxt : x.name = t.name
          · refine Or.inr ⟨by rw [hxt]; exact DB.get_set_same db1 t.name .unknown, ?_⟩
            have hxeq : x = t := hinj x hx t ht hxt
            subst hxeq
            obtain ⟨z, hz, hzb⟩ := hBCd
            exact ⟨z, Reaches.step hd_t hz, hzb⟩
          · rw [DB.get_set_ne db1 hxt .unknown]
            exact hres1 x hx
        have hds := ihl (DB.set db1 t.name .unknown) db' t ht
          (fun e he => hsub e (List.mem_cons_of_mem _ he)) h
        intro x hx
        obtain ⟨l1, l2⟩ := hds x hx
        have hcondiff : LoopCond c (DB.set db1 t.name .unknown) t.name ds x ↔
            (((∃ e ∈ ds, Reaches c.g e x) ∧ HasBadDep c.g db x) ∨
              (x.name = t.name ∧ ∃ e ∈ ds, BadClosure c.g db e)) := by
          unfold LoopCond
          constructor
          · rintro (⟨hre, hhb⟩ | ⟨hxt, e, he, hbc⟩)
            · exact Or.inl ⟨hre, (HasBadDep_stable hc hres2 hx).mp hhb⟩
            · exact Or.inr ⟨hxt, e, he,
                (BadClosure_stable hc hres2 (hc t ht e (hsub e (List.mem_cons_of_mem _ he)))).mp hbc⟩
          · rintro (⟨hre, hhb⟩ | ⟨hxt, e, he, hbc⟩)
            · exact Or.inl ⟨hre, (HasBadDep_stable hc hres2 hx).mpr hhb⟩
            · exact Or.inr ⟨hxt, e, he,
                (BadClosure_stable hc hres2 (hc t ht e (hsub e (List.mem_cons_of_mem _ he)))).mpr hbc⟩
        constructor
        · rintro (⟨⟨e, he, hre⟩, hhb⟩ | ⟨hxt, e, he, hbc⟩)
          · rcases List.mem_cons.mp he with rfl | he2
            · -- x is in the closure of the head dependency
              have hdb1x : DB.get db1 x.name = .unknown := (hchar1 x hx).1 ⟨hre, hhb⟩
              by_cases hc2 : LoopCond c (DB.set db1 t.name .unknown) t.name ds x
              · exact l1 hc2
              · rw [l2 hc2]
                by_cases hxt : x.name = t.name
                · rw [hxt]; exact DB.get_set_same db1 t.name .unknown
                · rw [DB.get_set_ne db1 hxt .unknown]; exact hdb1x
            · exact l1 (hcondiff.mpr (Or.inl ⟨⟨e, he2, hre⟩, hhb⟩))
          · rcases List.mem_cons.mp he with rfl | he2
            · by_cases hc2 : LoopCond c (DB.set db1 t.name .unknown) t.name ds x
              · exact l1 hc2
              · rw [l2 hc2, hxt]
                exact DB.get_set_same db1 t.name .unknown
            · exact l1 (hcondiff.mpr (Or.inr ⟨hxt, e, he2, hbc⟩))
        · intro hnc
          have hnds : ¬ LoopCond c (DB.set db1 t.name .unknown) t.name ds x := by
            intro hcond
            rcases hcondiff.mp hcond with ⟨⟨e, he, hre⟩, hhb⟩ | ⟨hxt, e, he, hbc⟩
            · exact hnc (Or.inl ⟨⟨e, List.mem_cons_of_mem _ he, hre⟩, hhb⟩)
            · exact hnc (Or.inr ⟨hxt, e, List.mem_cons_of_mem _ he, hbc⟩)
          rw [l2 hnds]
          have hxt : ¬ x.name = t.name := by
            intro hxt
            exact hnc (Or.inr ⟨hxt, d, List.mem_cons_self _ _, hBCd⟩)
          rw [DB.get_set_ne db1 hxt .unknown]
          apply (hchar1 x hx).2
          rintro ⟨hre, hhb⟩
          exact hnc (Or.inl ⟨⟨d, List.mem_cons_self _ _, hre⟩, hhb⟩)
      · rw [if_neg hmb] at h
        have hnBCd : ¬ BadClosure c.g db d := fun hbc => hmb (hmBC.mpr hbc)
        have hds := ihl db1 db' t ht
          (fun e he => hsub e (List.mem_cons_of_mem _ he)) h
        intro x hx
        obtain ⟨l1, l2⟩ := hds x hx
        have hcondiff : LoopCond c db1 t.name ds x ↔
            (((∃ e ∈ ds, Reaches c.g e x) ∧ HasBadDep c.g db x) ∨
              (x.name = t.name ∧ ∃ e ∈ ds, BadClosure c.g db e)) := by
          unfold LoopCond
          constructor
          · rintro (⟨hre, hhb⟩ | ⟨hxt, e, he, hbc⟩)
            · exact Or.inl ⟨hre, (HasBadDep_stable hc hres1 hx).mp hhb⟩
            · exact Or.inr ⟨hxt, e, he,
                (BadClosure_stable hc hres1 (hc t ht e (hsub e (List.mem_cons_of_mem _ he)))).mp hbc⟩
          · rintro (⟨hre, hhb⟩ | ⟨hxt, e, he, hbc⟩)
            · exact Or.inl ⟨hre, (HasBadDep_stable hc hres1 hx).mpr hhb⟩
            · exact Or.inr ⟨hxt, e, he,
                (BadClosure_stable hc hres1 (hc t ht e (hsub e (List.mem_cons_of_mem _ he)))).mpr hbc⟩
        constructor
        · rintro (⟨⟨e, he, hre⟩, hhb⟩ | ⟨hxt, e, he, hbc⟩)
          · rcases List.mem_cons.mp he with rfl | he2
            · have hdb1x : DB.get db1 x.name = .unknown := (hchar1 x hx).1 ⟨hre, hhb⟩
              by_cases hc2 : LoopCond c db1 t.name ds x
              · exact l1 hc2
              · rw [l2 hc2]; exact hdb1x
            · exact l1 (hcondiff.mpr (Or.inl ⟨⟨e, he2, hre⟩, hhb⟩))
          · rcases List.mem_cons.mp he with rfl | he2
            · exact absurd hbc hnBCd
            · exact l1 (hcondiff.mpr (Or.inr ⟨hxt, e, he2, hbc⟩))
        · intro hnc
          have hnds : ¬ LoopCond c db1 t.name ds x := by
            intro hcond
            rcases hcondiff.mp hcond with ⟨⟨e, he, hre⟩, hhb⟩ | ⟨hxt, e, he, hbc⟩
            · exact hnc (Or.inl ⟨⟨e, List.mem_cons_of_mem _ he, hre⟩, hhb⟩)
            · exact hnc (Or.inr ⟨hxt, e, List.mem_cons_of_mem _ he, hbc⟩)
          rw [l2 hnds]
          apply (hchar1 x hx).2
          rintro ⟨hre, hhb⟩
          exact hnc (Or.inl ⟨⟨d, List.mem_cons_self _ _, hre⟩, hhb⟩)

/-- The characterisation of `update_state`: it returns the final meta of
the target, and resets exactly the reachable targets having a
bad-closured dependency. -/
theorem updateStateChar (c : Ctx) (hc : DepsClosed c.g) (hinj : NamesInj c.g) :
    ∀ (f : Nat) (db : DB) (t : Target) (db' : DB) (m : MetaState),
      t ∈ c.g.targets → updateState c f db t = .ok (db', m) →
      UpdChar c db db' t ∧ m = DB.get db' t.name := by
  intro f
  induction f with
  | zero => intro db t db' m ht h; cases h
  | succ f ih =>
    intro db t db' m ht h
    unfold updateState at h
    cases hl : updateLoop (updateState c f) t.name db (c.g.dependencies t) with
    | error e => rw [hl] at h; cases h
    | ok db1 =>
      rw [hl] at h
      simp only [exbind_ok] at h
      have hdb : db1 = db' ∧ DB.get db1 t.name = m := by
        have h2 : (Except.ok (db1, DB.get db1 t.name) :
            Except SchedErr (DB × MetaState)) = .ok (db', m) := h
        injection h2 with h2
        exact ⟨congrArg Prod.fst h2, congrArg Prod.snd h2⟩
      obtain ⟨hdb1, hm⟩ := hdb
      subst hdb1
      have hloop := updateLoopChar c hc hinj f
        (fun db t db' m ht h => ih db t db' m ht h)
        (c.g.dependencies t) db db1 t ht (fun _ hd => hd) hl
      refine ⟨?_, hm.symm⟩
      intro x hx
      obtain ⟨l1, l2⟩ := hloop x hx
      constructor
      · rintro ⟨hrx, hbd⟩
        rcases Reaches_inv hrx with rfl | ⟨d, hd, hdx⟩
        · exact l1 (Or.inr ⟨rfl, hbd⟩)
        · exact l1 (Or.inl ⟨⟨d, hd, hdx⟩, hbd⟩)
      · intro hn
        apply l2
        rintro (⟨⟨d, hd, hdx⟩, hbd⟩ | ⟨hxt, d, hd, hbc⟩)
        · exact hn ⟨Reaches.step hd hdx, hbd⟩
        · have hxeq : x = t := hinj x hx t ht hxt
          subst hxeq
          exact hn ⟨Reaches.refl x, ⟨d, hd, hbc⟩⟩

/-- Claim C6: `update_state(t)` recursively updates every dependency
first and returns `t`'s final TargetMeta; after the call, if any
dependency's resulting state is FAILED, KILLED, CANCELLED or UNKNOWN,
then `t`'s persisted state is UNKNOWN. -/
theorem claim_C6 (c : Ctx) (f : Nat) (db db' : DB) (t : Target) (m : MetaState)
    (hclosed : DepsClosed c.g) (hinj : NamesInj c.g) (ht : t ∈ c.g.targets)
    (h : updateState c f db t = .ok (db', m)) :
    m = DB.get db' t.name ∧
    ∀ d ∈ c.g.dependencies t, (DB.get db' d.name).isBad = true →
      DB.get db' t.name = .unknown := by
  obtain ⟨hchar, hm⟩ := updateStateChar c hclosed hinj f db t db' m ht h
  refine ⟨hm, ?_⟩
  intro d hd hbad
  have hdmem : d ∈ c.g.targets := hclosed t ht d hd
  have hbd : HasBadDep c.g db t := by
    rcases Classical.em (Reaches c.g t d ∧ HasBadDep c.g db d) with hcase | hcase
    · exact ⟨d, hd, hcase.2.toBadClosure⟩
    · have heq := (hchar d hdmem).2 hcase
      rw [heq] at hbad
      exact ⟨d, hd, BadClosure_iff.mpr (Or.inl hbad)⟩
  exact (hchar t ht).1 ⟨Reaches.refl t, hbd⟩

/-- Claim C6, witness: with `Q` depending on FAILED `P`, `update_state(Q)`
returns `Q`'s final meta and has reset `Q` to UNKNOWN. -/
theorem claim_C6_witness :
    mC6 = DB.get dbC6r fixQ.name ∧
    ∀ d ∈ ctxC6.g.dependencies fixQ, (DB.get dbC6r d.name).isBad = true →
      DB.get dbC6r fixQ.name = .unknown :=
  claim_C6 ctxC6 3 dbC6 dbC6r fixQ mC6 (by unfold DepsClosed; decide)
    (by unfold NamesInj; decide) (by decide) rfl

/-! ## Verification of the cycle check (claim C7) -/

theorem AccDep.no_self {g : Graph} {x : Target} (hacc : AccDep g x) :
    ¬ ∃ d ∈ g.dependencies x, Reaches g d x := by
  induction hacc with
  | intro hdeps ih =>
    rintro ⟨d, hd, hr⟩
    rcases Reaches_inv hr with heq | ⟨e, he, hex⟩
    · exact ih d hd ⟨d, heq ▸ hd, Reaches.refl d⟩
    · exact ih d hd ⟨e, he, hex.trans (Reaches.step hd (Reaches.refl _))⟩

/-- The dependency loop of the walk, on a successful run: done nodes
persist, no started or fresh nodes appear, accessibility of done nodes
is preserved, and every processed dependency ends done. -/
theorem visitLoop_ok (g : Graph) (v : ColorMap → Target → Except BuildErr ColorMap)
    (HV : ∀ st d st'', d ∈ g.targets → v st d = .ok st'' →
      DonePres st st'' ∧ StartAnti st st'' ∧ FreshAnti st st'' ∧
      st'' d = .done ∧ (DoneAcc g st → DoneAcc g st'')) :
    ∀ (l : List Target) (st st' : ColorMap) (node : Target),
      node ∈ g.targets → (∀ d ∈ l, d ∈ g.targets) →
      visitLoop v node st l = .ok st' →
      DonePres st st' ∧ StartAnti st st' ∧ FreshAnti st st' ∧
      (DoneAcc g st → DoneAcc g st') ∧ (∀ d ∈ l, st' d = .done) := by
  intro l
  induction l with
  | nil =>
    intro st st' node hnode hsub h
    have hst : st = st' := by unfold visitLoop at h; injection h
    subst hst
    exact ⟨fun x hx => hx, fun x hx => hx, fun x hx => hx, id,
      fun d hd => absurd hd (List.not_mem_nil d)⟩
  | cons d ds ihl =>
    intro st st' node hnode hsub h
    unfold visitLoop at h
    by_cases hs : st d = .started
    · rw [if_pos hs] at h; cases h
    · rw [if_neg hs] at h
      by_cases hf : st d = .fresh
      · rw [if_pos hf] at h
        cases hv : v st d with
        | error e => rw [hv] at h; cases h
        | ok st1 =>
          rw [hv] at h
          simp only [exbind_ok] at h
          obtain ⟨hdp1, hsa1, hfa1, hd1, hda1⟩ :=
            HV st d st1 (hsub d (List.mem_cons_self _ _)) hv
          obtain ⟨hdp2, hsa2, hfa2, hda2, hds2⟩ :=
            ihl st1 st' node hnode (fun e he => hsub e (List.mem_cons_of_mem _ he)) h
          refine ⟨fun x hx => hdp2 x (hdp1 x hx),
            fun x hx => hsa1 x (hsa2 x hx),
            fun x hx => hfa1 x (hfa2 x hx),
            fun hda => hda2 (hda1 hda), ?_⟩
          intro e he
          rcases List.mem_cons.mp he with rfl | he2
          · exact hdp2 e hd1
          · exact hds2 e he2
      · rw [if_neg hf] at h
        have hd0 : st d = .done := by
          cases hcol : st d with
          | fresh => exact absurd hcol hf
          | started => exact absurd hcol hs
          | done => rfl
        obtain ⟨hdp2, hsa2, hfa2, hda2, hds2⟩ :=
          ihl st st' node hnode (fun e he => hsub e (List.mem_cons_of_mem _ he)) h
        refine ⟨hdp2, hsa2, hfa2, hda2, ?_⟩
        intro e he
        rcases List.mem_cons.mp he with rfl | he2
        · exact hdp2 e hd0
        · exact hds2 e he2

/-- A successful `visitor(node)` run: done nodes persist, no started or
fresh nodes appear, accessibility of done nodes is preserved, and the
node ends done. -/
theorem visitor_ok (g : Graph) (hc : DepsClosed g) :
    ∀ (f : Nat) (st st' : ColorMap) (node : Target), node ∈ g.targets →
      visitor g f st node = .ok st' →
      DonePres st st' ∧ StartAnti st st' ∧ FreshAnti st st' ∧
      st' node = .done ∧ (DoneAcc g st → DoneAcc g st') := by
  intro f
  induction f with
  | zero => intro st st' node hnode h; cases h
  | succ f ih =>
    intro st st' node hnode h
    unfold visitor at h
    cases hl : visitLoop (visitor g f) node
        (Function.update st node .started) (g.dependencies node) with
    | error e => rw [hl] at h; cases h
    | ok st1 =>
      rw [hl] at h
      have hst : st' = Function.update st1 node .done := by
        have h2 : (Except.ok (Function.update st1 node .done) :
            Except BuildErr ColorMap) = .ok st' := h
        injection h2 with h2
        exact h2.symm
      subst hst
      obtain ⟨hdp, hsa, hfa, hda, hds⟩ :=
        visitLoop_ok g (visitor g f) (fun st d st'' hd hv => ih st st'' d hd hv)
          (g.dependencies node) (Function.update st node .started) st1 node hnode
          (fun d hd => hc node hnode d hd) hl
      have hupd : ∀ x v0, Function.update st node (v0 : Color) x = if x = node then v0 else st x := by
        intro x v0
        by_cases hx : x = node
        · subst hx; simp [Function.update]
        · simp [Function.update, hx]
      have hupd1 : ∀ x v0, Function.update st1 node (v0 : Color) x = if x = node then v0 else st1 x := by
        intro x v0
        by_cases hx : x = node
        · subst hx; simp [Function.update]
        · simp [Function.update, hx]
      refine ⟨?_, ?_, ?_, ?_, ?_⟩
      · intro x hx
        rw [hupd1]
        by_cases hxn : x = node
        · rw [if_pos hxn]
        · rw [if_neg hxn]
          apply hdp
          rw [hupd, if_neg hxn]
          exact hx
      · intro x hx
        rw [hupd1] at hx
        by_cases hxn : x = node
        · rw [if_pos hxn] at hx; cases hx
        · rw [if_neg hxn] at hx
          have := hsa x hx
          rw [hupd, if_neg hxn] at this
          exact this
      · intro x hx
        rw [hupd1] at hx
        by_cases hxn : x = node
        · rw [if_pos hxn] at hx; cases hx
        · rw [if_neg hxn] at hx
          have := hfa x hx
          rw [hupd, if_neg hxn] at this
          exact this
      · rw [hupd1, if_pos rfl]
      · intro hdone
        have hAccNode : AccDep g node := by
          refine AccDep.intro ?_
          intro d hd
          have hd1done : st1 d = .done := hds d hd
          -- accessibility of done nodes of st1
          have hda1 : DoneAcc g st1 := by
            apply hda
            intro x hx
            rw [hupd] at hx
            by_cases hxn : x = node
            · rw [if_pos hxn] at hx; cases hx
            · rw [if_neg hxn] at hx
              exact hdone x hx
          exact hda1 d hd1done
        intro x hx
        rw [hupd1] at hx
        by_cases hxn : x = node
        · subst hxn; exact hAccNode
        · rw [if_neg hxn] at hx
          have hda1 : DoneAcc g st1 := by
            apply hda
            intro y hy
            rw [hupd] at hy
            by_cases hyn : y = node
            · rw [if_pos hyn] at hy; cases hy
            · rw [if_neg hyn] at hy
              exact hdone y hy
          exact hda1 x hx

/-- The dependency loop of the walk, on an error: the error is either
out-of-fuel or the cyclic error, and in the latter case the dependency
relation has a cycle. -/
theorem visitLoop_err (g : Graph) (hc : DepsClosed g)
    (v : ColorMap → Target → Except BuildErr ColorMap)
    (HVok : ∀ st d st'', d ∈ g.targets → v st d = .ok st'' → StartAnti st st'')
    (HVerr : ∀ st d e, d ∈ g.targets → StackInv g st d → v st d = .error e →
      e = .fuel ∨ ((∃ n, e = .cyclic n) ∧ Cycle g)) :
    ∀ (l : List Target) (st : ColorMap) (node : Target) (e : BuildErr),
      node ∈ g.targets → (∀ d ∈ l, d ∈ g.dependencies node) →
      StackInv g st node →
      visitLoop v node st l = .error e →
      e = .fuel ∨ ((∃ n, e = .cyclic n) ∧ Cycle g) := by
  intro l
  induction l with
  | nil => intro st node e _ _ _ h; cases h
  | cons d ds ihl =>
    intro st node e hnode hsub hinv h
    unfold visitLoop at h
    by_cases hs : st d = .started
    · rw [if_pos hs] at h
      injection h with h
      refine Or.inr ⟨⟨node.name, h.symm⟩, ?_⟩
      exact ⟨node, hnode, d, hsub d (List.mem_cons_self _ _), hinv d hs⟩
    · rw [if_neg hs] at h
      have hdmem : d ∈ g.targets := hc node hnode d (hsub d (List.mem_cons_self _ _))
      by_cases hf : st d = .fresh
      · rw [if_pos hf] at h
        cases hv : v st d with
        | error e2 =>
          rw [hv] at h
          injection h with h
          subst h
          refine HVerr st d e2 hdmem ?_ hv
          intro x hx
          exact (hinv x hx).trans
            (Reaches.step (hsub d (List.mem_cons_self _ _)) (Reaches.refl d))
        | ok st1 =>
          rw [hv] at h
          simp only [exbind_ok] at h
          refine ihl st1 node e hnode
            (fun x hx => hsub x (List.mem_cons_of_mem _ hx)) ?_ h
          intro x hx
          exact hinv x (HVok st d st1 hdmem hv x hx)
      · rw [if_neg hf] at h
        exact ihl st node e hnode
          (fun x hx => hsub x (List.mem_cons_of_mem _ hx)) hinv h

/-- An erroring `visitor(node)` run signals either out-of-fuel or a
genuine cycle. -/
theorem visitor_err (g : Graph) (hc : DepsClosed g) :
    ∀ (f : Nat) (st : ColorMap) (node : Target) (e : BuildErr),
      node ∈ g.targets → StackInv g st node →
      visitor g f st node = .error e →
      e = .fuel ∨ ((∃ n, e = .cyclic n) ∧ Cycle g) := by
  intro f
  induction f with
  | zero =>
    intro st node e _ _ h
    injection h with h
    exact Or.inl h.symm
  | succ f ih =>
    intro st node e hnode hinv h
    unfold visitor at h
    cases hl : visitLoop (visitor g f) node
        (Function.update st node .started) (g.dependencies node) with
    | error e2 =>
      rw [hl] at h
      injection h with h
      subst h
      refine visitLoop_err g hc (visitor g f)
        (fun st d st'' hd hv => (visitor_ok g hc f st st'' d hd hv).2.1)
        (fun st d e hd hinv hv => ih st d e hd hinv hv)
        (g.dependencies node) (Function.update st node .started) node e2 hnode
        (fun x hx => hx) ?_ hl
      intro x hx
      by_cases hxn : x = node
      · subst hxn; exact Reaches.refl x
      · have : st x = .started := by
          have h2 : Function.update st node Color.started x = st x := by
            simp [Function.update, hxn]
          rw [← h2]
          exact hx
        exact hinv x this
    | ok st1 => rw [hl] at h; cases h

theorem countP_congr_mem {l : List Target} {p q : Target → Bool}
    (h : ∀ x ∈ l, p x = q x) : l.countP p = l.countP q := by
  induction l with
  | nil => rfl
  | cons a l ih =>
    rw [List.countP_cons, List.countP_cons, h a (List.mem_cons_self _ _),
      ih (fun x hx => h x (List.mem_cons_of_mem _ hx))]

theorem countP_mono_mem {l : List Target} {p q : Target → Bool}
    (h : ∀ x ∈ l, p x = true → q x = true) : l.countP p ≤ l.countP q := by
  induction l with
  | nil => exact Nat.le_refl _
  | cons a l ih =>
    rw [List.countP_cons, List.countP_cons]
    have ht := ih (fun x hx => h x (List.mem_cons_of_mem _ hx))
    by_cases hp : p a = true
    · rw [hp, h a (List.mem_cons_self _ _) hp]
      omega
    · rw [Bool.eq_false_iff.mpr hp]
      simp only [Bool.false_eq_true, if_false]
      by_cases hq : q a = true
      · rw [hq]; omega
      · rw [Bool.eq_false_iff.mpr hq]; simp only [Bool.false_eq_true, if_false]; omega

theorem freshCount_le_of_freshAnti {g : Graph} {st st' : ColorMap}
    (h : FreshAnti st st') : freshCount g st' ≤ freshCount g st :=
  countP_mono_mem (fun x _ hx =>
    decide_eq_true (h x (of_decide_eq_true hx)))

theorem freshCount_update_started_lt {g : Graph} {st : ColorMap} {node : Target}
    (hnodup : g.targets.Nodup) (hmem : node ∈ g.targets)
    (hfresh : st node = .fresh) :
    freshCount g (Function.update st node .started) < freshCount g st := by
  unfold freshCount
  have main : ∀ (l : List Target), l.Nodup → node ∈ l →
      l.countP (fun n => decide (Function.update st node Color.started n = .fresh)) <
        l.countP (fun n => decide (st n = .fresh)) := by
    intro l
    induction l with
    | nil => intro _ hmem0; cases hmem0
    | cons a l ih =>
      intro hnd hmem0
      rw [List.nodup_cons] at hnd
      rw [List.countP_cons, List.countP_cons]
      rcases List.mem_cons.mp hmem0 with heq | hmem2
      · have h1 : (decide (Function.update st node Color.started a = Color.fresh)) = false := by
          rw [← heq, Function.update_same]
          rfl
        have h2 : (decide (st a = Color.fresh)) = true := by
          rw [← heq]; exact decide_eq_true hfresh
        rw [h1, h2]
        have heqc : List.countP
            (fun n => decide (Function.update st node Color.started n = .fresh)) l =
            List.countP (fun n => decide (st n = .fresh)) l := by
          apply countP_congr_mem
          intro x hx
          have hxa : x ≠ node := fun he => hnd.1 (heq ▸ he ▸ hx)
          rw [Function.update_noteq hxa]
        rw [heqc]
        simp
      · have hna : node ≠ a := fun he => hnd.1 (he ▸ hmem2)
        have hhead : Function.update st node Color.started a = st a :=
          Function.update_noteq (fun he => hna he.symm) _ _
        rw [hhead]
        have hlt := ih hnd.2 hmem2
        by_cases hq : (decide (st a = Color.fresh)) = true
        · rw [hq]; omega
        · rw [Bool.eq_false_iff.mpr hq]
          simp only [Bool.false_eq_true, if_false]
          omega
  exact main g.targets hnodup hmem

theorem freshCount_pos {g : Graph} {st : ColorMap} {node : Target}
    (hmem : node ∈ g.targets) (hfresh : st node = .fresh) :
    0 < freshCount g st := by
  unfold freshCount
  rw [List.countP_pos_iff]
  exact ⟨node, hmem, decide_eq_true hfresh⟩

/-- The dependency loop never runs out of fuel when the fuel bounds
the number of fresh targets. -/
theorem visitLoop_nofuel (g : Graph) (hc : DepsClosed g) (F : Nat)
    (v : ColorMap → Target → Except BuildErr ColorMap)
    (HVok : ∀ st d st'', d ∈ g.targets → v st d = .ok st'' → FreshAnti st st'')
    (HVfuel : ∀ st d, d ∈ g.targets → st d = .fresh → freshCount g st ≤ F →
      v st d ≠ .error .fuel) :
    ∀ (l : List Target) (st : ColorMap) (node : Target),
      node ∈ g.targets → (∀ d ∈ l, d ∈ g.dependencies node) →
      freshCount g st ≤ F →
      visitLoop v node st l ≠ .error .fuel := by
  intro l
  induction l with
  | nil => intro st node _ _ _ h; cases h
  | cons d ds ihl =>
    intro st node hnode hsub hcnt h
    unfold visitLoop at h
    by_cases hs : st d = .started
    · rw [if_pos hs] at h; cases h
    · rw [if_neg hs] at h
      have hdmem : d ∈ g.targets := hc node hnode d (hsub d (List.mem_cons_self _ _))
      by_cases hfr : st d = .fresh
      · rw [if_pos hfr] at h
        cases hv : v st d with
        | error e2 =>
          rw [hv] at h
          injection h with h
          subst h
          exact HVfuel st d hdmem hfr hcnt hv
        | ok st1 =>
          rw [hv] at h
          simp only [exbind_ok] at h
          have hle : freshCount g st1 ≤ F :=
            Nat.le_trans (freshCount_le_of_freshAnti (HVok st d st1 hdmem hv)) hcnt
          exact ihl st1 node hnode
            (fun x hx => hsub x (List.mem_cons_of_mem _ hx)) hle h
      · rw [if_neg hfr] at h
        exact ihl st node hnode
          (fun x hx => hsub x (List.mem_cons_of_mem _ hx)) hcnt h

/-- `visitor` never runs out of fuel when the fuel bounds the number of
fresh targets. -/
theorem visitor_nofuel (g : Graph) (hc : DepsClosed g) (hnodup : g.targets.Nodup) :
    ∀ (F : Nat) (st : ColorMap) (node : Target),
      node ∈ g.targets → st node = .fresh → freshCount g st ≤ F →
      visitor g F st node ≠ .error .fuel := by
  intro F
  induction F with
  | zero =>
    intro st node hnode hfresh hcnt _
    have := freshCount_pos hnode hfresh
    omega
  | succ F ih =>
    intro st node hnode hfresh hcnt h
    unfold visitor at h
    cases hl : visitLoop (visitor g F) node
        (Function.update st node .started) (g.dependencies node) with
    | error e2 =>
      rw [hl] at h
      injection h with h
      subst h
      have hlt : freshCount g (Function.update st node .started) < freshCount g st :=
        freshCount_update_started_lt hnodup hnode hfresh
      refine visitLoop_nofuel g hc F (visitor g F)
        (fun st d st'' hd hv => (visitor_ok g hc F st st'' d hd hv).2.2.1)
        (fun st d hd hfr hle hv => ih st d hd hfr hle hv)
        (g.dependencies node) (Function.update st node .started) node hnode
        (fun x hx => hx) (by omega) hl
    | ok st1 => rw [hl] at h; cases h

/-- The outer loop of the check, on an error. -/
theorem checkLoop_err (g : Graph) (hc : DepsClosed g) (f : Nat) :
    ∀ (l : List Target) (st : ColorMap) (e : BuildErr),
      (∀ n ∈ l, n ∈ g.targets) → NoStarted st →
      checkLoop g f st l = .error e →
      e = .fuel ∨ ((∃ n, e = .cyclic n) ∧ Cycle g) := by
  intro l
  induction l with
  | nil => intro st e _ _ h; cases h
  | cons n ns ihl =>
    intro st e hsub hns h
    unfold checkLoop at h
    by_cases hfr : st n = .fresh
    · rw [if_pos hfr] at h
      cases hv : visitor g f st n with
      | error e2 =>
        rw [hv] at h
        injection h with h
        subst h
        exact visitor_err g hc f st n e2 (hsub n (List.mem_cons_self _ _))
          (fun x hx => absurd hx (hns x)) hv
      | ok st1 =>
        rw [hv] at h
        simp only [exbind_ok] at h
        refine ihl st1 e (fun x hx => hsub x (List.mem_cons_of_mem _ hx)) ?_ h
        intro x hx
        exact hns x ((visitor_ok g hc f st st1 n (hsub n (List.mem_cons_self _ _)) hv).2.1 x hx)
    · rw [if_neg hfr] at h
      simp only [exbind_ok] at h
      exact ihl st e (fun x hx => hsub x (List.mem_cons_of_mem _ hx)) hns h

/-- The outer loop of the check, on success: every listed target ends
done, and done targets are accessible. -/
theorem checkLoop_ok (g : Graph) (hc : DepsClosed g) (f : Nat) :
    ∀ (l : List Target) (st st' : ColorMap),
      (∀ n ∈ l, n ∈ g.targets) → NoStarted st → DoneAcc g st →
      checkLoop g f st l = .ok st' →
      DoneAcc g st' ∧ DonePres st st' ∧
      (∀ n ∈ l, st n = .fresh → st' n = .done) := by
  intro l
  induction l with
  | nil =>
    intro st st' _ _ hda h
    have hst : st = st' := by unfold checkLoop at h; injection h
    subst hst
    exact ⟨hda, fun x hx => hx, fun n hn => absurd hn (List.not_mem_nil n)⟩
  | cons n ns ihl =>
    intro st st' hsub hns hda h
    unfold checkLoop at h
    by_cases hfr : st n = .fresh
    · rw [if_pos hfr] at h
      cases hv : visitor g f st n with
      | error e2 => rw [hv] at h; cases h
      | ok st1 =>
        rw [hv] at h
        simp only [exbind_ok] at h
        obtain ⟨hdp, hsa, hfa, hdone, hdacc⟩ :=
          visitor_ok g hc f st st1 n (hsub n (List.mem_cons_self _ _)) hv
        obtain ⟨hda2, hdp2, hfresh2⟩ := ihl st1 st'
          (fun x hx => hsub x (List.mem_cons_of_mem _ hx))
          (fun x hx => hns x (hsa x hx)) (hdacc hda) h
        refine ⟨hda2, fun x hx => hdp2 x (hdp x hx), ?_⟩
        intro m hm hmfresh
        rcases List.mem_cons.mp hm with rfl | hm2
        · exact hdp2 m hdone
        · by_cases hm1 : st1 m = .fresh
          · exact hfresh2 m hm2 hm1
          · have hnm : st1 m = .done := by
              cases hcol : st1 m with
              | fresh => exact absurd hcol hm1
              | started => exact absurd (hsa m hcol) (hns m)
              | done => rfl
            exact hdp2 m hnm
    · rw [if_neg hfr] at h
      simp only [expure_eq, exbind_ok] at h
      obtain ⟨hda2, hdp2, hfresh2⟩ := ihl st st'
        (fun x hx => hsub x (List.mem_cons_of_mem _ hx)) hns hda h
      refine ⟨hda2, hdp2, ?_⟩
      intro m hm hmfresh
      rcases List.mem_cons.mp hm with rfl | hm2
      · exact absurd hmfresh hfr
      · exact hfresh2 m hm2 hmfresh

/-- The outer loop never runs out of fuel when the fuel bounds the
number of fresh targets. -/
theorem checkLoop_nofuel (g : Graph) (hc : DepsClosed g)
    (hnodup : g.targets.Nodup) (f : Nat) :
    ∀ (l : List Target) (st : ColorMap),
      (∀ n ∈ l, n ∈ g.targets) → freshCount g st ≤ f →
      checkLoop g f st l ≠ .error .fuel := by
  intro l
  induction l with
  | nil => intro st _ _ h; cases h
  | cons n ns ihl =>
    intro st hsub hcnt h
    unfold checkLoop at h
    by_cases hfr : st n = .fresh
    · rw [if_pos hfr] at h
      cases hv : visitor g f st n with
      | error e2 =>
        rw [hv] at h
        injection h with h
        subst h
        exact visitor_nofuel g hc hnodup f st n
          (hsub n (List.mem_cons_self _ _)) hfr hcnt hv
      | ok st1 =>
        rw [hv] at h
        simp only [exbind_ok] at h
        have hle : freshCount g st1 ≤ f :=
          le_trans (freshCount_le_of_freshAnti
            ((visitor_ok g hc f st st1 n (hsub n (List.mem_cons_self _ _)) hv).2.2.1)) hcnt
        exact ihl st1 (fun x hx => hsub x (List.mem_cons_of_mem _ hx)) hle h
    · rw [if_neg hfr] at h
      simp only [expure_eq, exbind_ok] at h
      exact ihl st (fun x hx => hsub x (List.mem_cons_of_mem _ hx)) hcnt h

/-! ## Provider-map lemmas for the self-edge clause -/

theorem Dict.get_append_of_some {V : Type} {a : Dict V} (b : Dict V) {q : String}
    {u : V} (h : Dict.get a q = some u) : Dict.get (a ++ b) q = some u := by
  induction a with
  | nil => simp [Dict.get] at h
  | cons kv tl ih =>
    rw [Dict.get_cons] at h
    rw [List.cons_append, Dict.get_cons]
    by_cases hk : kv.1 = q
    · rw [if_pos hk] at h ⊢; exact h
    · rw [if_neg hk] at h ⊢; exact ih h

theorem Dict.get_append_right {V : Type} {a : Dict V} (b : Dict V) {q : String}
    (h : Dict.get a q = none) : Dict.get (a ++ b) q = Dict.get b q := by
  induction a with
  | nil => rfl
  | cons kv tl ih =>
    rw [Dict.get_cons] at h
    rw [List.cons_append, Dict.get_cons]
    by_cases hk : kv.1 = q
    · rw [if_pos hk] at h; cases h
    · rw [if_neg hk] at h ⊢; exact ih h

theorem addOutputs_pres {t : Target} : ∀ (ps : List String) (acc acc2 : Dict Target),
    addOutputs t ps acc = .ok acc2 →
    ∀ q u, Dict.get acc q = some u → Dict.get acc2 q = some u := by
  intro ps
  induction ps with
  | nil =>
    intro acc acc2 h q u hq
    have hacc : acc = acc2 := by unfold addOutputs at h; injection h
    exact hacc ▸ hq
  | cons p ps ih =>
    intro acc acc2 h q u hq
    unfold addOutputs at h
    cases hg : Dict.get acc p with
    | some t0 => rw [hg] at h; cases h
    | none =>
      rw [hg] at h
      exact ih (acc ++ [(p, t)]) acc2 h q u (Dict.get_append_of_some _ hq)

theorem addOutputs_mem {t : Target} : ∀ (ps : List String) (acc acc2 : Dict Target),
    addOutputs t ps acc = .ok acc2 →
    ∀ p ∈ ps, Dict.get acc2 p = some t := by
  intro ps
  induction ps with
  | nil => intro acc acc2 _ p hp; cases hp
  | cons p0 ps ih =>
    intro acc acc2 h p hp
    unfold addOutputs at h
    cases hg : Dict.get acc p0 with
    | some t0 => rw [hg] at h; cases h
    | none =>
      rw [hg] at h
      rcases List.mem_cons.mp hp with rfl | hp2
      · refine addOutputs_pres ps _ acc2 h p t ?_
        rw [Dict.get_append_right _ hg, Dict.get_cons, if_pos rfl]
      · exact ih _ acc2 h p hp2

theorem buildProvides_pres : ∀ (ts : List Target) (acc prov : Dict Target),
    buildProvides ts acc = .ok prov →
    ∀ q u, Dict.get acc q = some u → Dict.get prov q = some u := by
  intro ts
  induction ts with
  | nil =>
    intro acc prov h q u hq
    have hacc : acc = prov := by unfold buildProvides at h; injection h
    exact hacc ▸ hq
  | cons t0 ts ih =>
    intro acc prov h q u hq
    unfold buildProvides at h
    cases ha : addOutputs t0 t0.flattened_outputs acc with
    | error e => rw [ha] at h; cases h
    | ok acc1 =>
      rw [ha] at h
      simp only [exbind_ok] at h
      exact ih acc1 prov h q u (addOutputs_pres _ acc acc1 ha q u hq)

theorem buildProvides_mem : ∀ (ts : List Target) (acc prov : Dict Target),
    buildProvides ts acc = .ok prov →
    ∀ t ∈ ts, ∀ p ∈ t.flattened_outputs, Dict.get prov p = some t := by
  intro ts
  induction ts with
  | nil => intro acc prov _ t ht; cases ht
  | cons t0 ts ih =>
    intro acc prov h t ht p hp
    unfold buildProvides at h
    cases ha : addOutputs t0 t0.flattened_outputs acc with
    | error e => rw [ha] at h; cases h
    | ok acc1 =>
      rw [ha] at h
      simp only [exbind_ok] at h
      rcases List.mem_cons.mp ht with rfl | ht2
      · exact buildProvides_pres ts acc1 prov h p t
          (addOutputs_mem _ acc acc1 ha p hp)
      · exact ih acc1 prov h t ht2 p hp

/-- Claim C7: the three-colour depth-first walk of graph construction
raises the cyclic-dependency error exactly when the dependencies
relation has a cycle (with sufficient fuel it raises no other error),
construction succeeds on every acyclic dependency relation, and a
target consuming a file it also produces yields a self-edge, which is a
cycle of the constructed relation. -/
theorem claim_C7 (g : Graph) (hc : DepsClosed g) (hnodup : g.targets.Nodup)
    (f : Nat) (hf : g.targets.length ≤ f) :
    ((∃ e, checkCircular g f = .error e) ↔ Cycle g) ∧
    (∀ e, checkCircular g f = .error e → ∃ n, e = .cyclic n) ∧
    (¬ Cycle g →
      Graph.init g.targets g.dependencies g.unresolved f =
        .ok ⟨g.targets, g.dependencies, g.unresolved⟩) ∧
    (∀ (ts : List Target) (provides : Dict Target) (t : Target) (p : String),
      buildProvides ts [] = .ok provides → t ∈ ts →
      p ∈ t.flattened_inputs → p ∈ t.flattened_outputs →
      Cycle ⟨ts, depsFromProvides provides, unresolvedOf provides ts⟩) := by
  have hcnt : freshCount g (fun _ => Color.fresh) ≤ f :=
    le_trans (List.countP_le_length _) hf
  have hns : NoStarted (fun _ => Color.fresh) := fun x h => by cases h
  have hda : DoneAcc g (fun _ => Color.fresh) := fun x h => by cases h
  have herr2cyc : ∀ e, checkCircular g f = .error e →
      ((∃ n, e = .cyclic n) ∧ Cycle g) := by
    intro e he
    unfold checkCircular at he
    rcases checkLoop_err g hc f g.targets (fun _ => .fresh) e
        (fun n hn => hn) hns he with hfuel | hres
    · subst hfuel
      exact absurd he
        (checkLoop_nofuel g hc hnodup f g.targets (fun _ => .fresh)
          (fun n hn => hn) hcnt)
    · exact hres
  have hok2acyc : ∀ st', checkCircular g f = .ok st' → ¬ Cycle g := by
    intro st' hok hcyc
    obtain ⟨t, ht, d, hd, hr⟩ := hcyc
    unfold checkCircular at hok
    obtain ⟨hda2, _, hfresh2⟩ := checkLoop_ok g hc f g.targets (fun _ => .fresh) st'
      (fun n hn => hn) hns hda hok
    have hdone : st' t = .done := hfresh2 t ht rfl
    exact (hda2 t hdone).no_self ⟨d, hd, hr⟩
  refine ⟨⟨?_, ?_⟩, fun e he => (herr2cyc e he).1, ?_, ?_⟩
  · rintro ⟨e, he⟩
    exact (herr2cyc e he).2
  · intro hcyc
    cases hcc : checkCircular g f with
    | error e => exact ⟨e, rfl⟩
    | ok st' => exact absurd hcyc (hok2acyc st' hcc)
  · intro hnc
    cases hcc : checkCircular g f with
    | error e => exact absurd (herr2cyc e hcc).2 hnc
    | ok st' =>
      have hinit : Graph.init g.targets g.dependencies g.unresolved f =
          (match checkCircular g f with
            | .ok _ => (.ok ⟨g.targets, g.dependencies, g.unresolved⟩ :
                Except BuildErr Graph)
            | .error e => .error e) := rfl
      rw [hinit, hcc]
  · intro ts provides t p hbp ht hin hout
    have hget : Dict.get provides p = some t :=
      buildProvides_mem ts [] provides hbp t ht p hout
    have hdep : t ∈ depsFromProvides provides t := by
      unfold depsFromProvides
      rw [List.mem_dedup]
      exact List.mem_filterMap.mpr ⟨p, hin, hget⟩
    exact ⟨t, ht, t, hdep, Reaches.refl t⟩

/-- Claim C7, witness: the checker accepts the concrete acyclic chain
`A → B → C`, whose construction therefore succeeds. -/
theorem claim_C7_witness :
    ((∃ e, checkCircular ctxS1.g 4 = .error e) ↔ Cycle ctxS1.g) ∧
    (∀ e, checkCircular ctxS1.g 4 = .error e → ∃ n, e = .cyclic n) ∧
    (¬ Cycle ctxS1.g →
      Graph.init ctxS1.g.targets ctxS1.g.dependencies ctxS1.g.unresolved 4 =
        .ok ⟨ctxS1.g.targets, ctxS1.g.dependencies, ctxS1.g.unresolved⟩) ∧
    (∀ (ts : List Target) (provides : Dict Target) (t : Target) (p : String),
      buildProvides ts [] = .ok provides → t ∈ ts →
      p ∈ t.flattened_inputs → p ∈ t.flattened_outputs →
      Cycle ⟨ts, depsFromProvides provides, unresolvedOf provides ts⟩) :=
  claim_C7 ctxS1.g (by unfold DepsClosed; decide) (by decide) 4 (by decide)

/-! ## Frame lemmas for `schedule` (claims C3 and C4) -/

theorem exbind_eq_ok {ε α β : Type} {x : Except ε α} {k : α → Except ε β} {b : β}
    (h : (x >>= k) = .ok b) : ∃ a, x = .ok a ∧ k a = .ok b := by
  cases x with
  | error e => cases h
  | ok a => exact ⟨a, rfl, h⟩

theorem DBResetOnly.dtrans {db1 db2 db3 : DB}
    (h1 : DBResetOnly db1 db2) (h2 : DBResetOnly db2 db3) : DBResetOnly db1 db3 := by
  intro n
  rcases h2 n with h | h
  · rw [h]; exact h1 n
  · exact Or.inr h

theorem DBResetOnly.refl (db : DB) : DBResetOnly db db := fun _ => Or.inl rfl

theorem updateLoop_resetonly (c : Ctx) (f : Nat)
    (IH : ∀ db t db' m, updateState c f db t = .ok (db', m) → DBResetOnly db db') :
    ∀ (l : List Target) (tname : String) (db db' : DB),
      updateLoop (updateState c f) tname db l = .ok db' → DBResetOnly db db' := by
  intro l
  induction l with
  | nil =>
    intro tname db db' h
    have : db = db' := by unfold updateLoop at h; injection h
    exact this ▸ DBResetOnly.refl db
  | cons d ds ihl =>
    intro tname db db' h
    unfold updateLoop at h
    cases hr : updateState c f db d with
    | error e => rw [hr] at h; cases h
    | ok r =>
      rw [hr] at h
      simp only [exbind_ok] at h
      have h1 : DBResetOnly db r.1 := IH db d r.1 r.2 (by rw [hr])
      have h2 : DBResetOnly r.1
          (if r.2.isBad then DB.set r.1 tname .unknown else r.1) := by
        by_cases hb : r.2.isBad = true
        · rw [if_pos hb]
          intro n
          by_cases hn : n = tname
          · subst hn; exact Or.inr (DB.get_set_same r.1 n .unknown)
          · exact Or.inl (DB.get_set_ne r.1 hn .unknown)
        · rw [if_neg hb]; exact DBResetOnly.refl r.1
      exact (h1.dtrans h2).dtrans (ihl tname _ db' h)

theorem updateState_resetonly (c : Ctx) :
    ∀ (f : Nat) (db : DB) (t : Target) (db' : DB) (m : MetaState),
      updateState c f db t = .ok (db', m) → DBResetOnly db db' := by
  intro f
  induction f with
  | zero => intro db t db' m h; cases h
  | succ f ih =>
    intro db t db' m h
    unfold updateState at h
    cases hl : updateLoop (updateState c f) t.name db (c.g.dependencies t) with
    | error e => rw [hl] at h; cases h
    | ok db1 =>
      rw [hl] at h
      have hdb : db1 = db' := by
        have h2 : (Except.ok (db1, DB.get db1 t.name) :
            Except SchedErr (DB × MetaState)) = .ok (db', m) := h
        injection h2 with h2
        exact congrArg Prod.fst h2
      subst hdb
      exact updateLoop_resetonly c f (fun db t db' m h => ih db t db' m h)
        (c.g.dependencies t) t.name db db1 hl

theorem status_resetonly {c : Ctx} {db : DB} {t : Target} {db1 : DB}
    {st : TargetStatus} (h : status c db t = .ok (db1, st)) : DBResetOnly db db1 := by
  unfold status at h
  cases hu : updateState c c.F db t with
  | error e => rw [hu] at h; cases h
  | ok r =>
    rw [hu] at h
    cases hs : shouldRun c c.F t with
    | error e => rw [hs] at h; cases h
    | ok sr =>
      rw [hs] at h
      simp only [exbind_ok, expure_eq, Except.ok.injEq, Prod.mk.injEq] at h
      have := updateState_resetonly c c.F db t r.1 r.2 (by rw [hu])
      rw [← h.1]
      exact this

/-- The `if/elif` chain reports SUBMITTED exactly for the SUBMITTED
persisted state. -/
theorem statusCase_submitted_iff (m : MetaState) (sr : Bool) :
    statusCase m sr = .submitted ↔ m = .submitted := by
  cases m <;> cases sr <;> simp [statusCase]

theorem schedLoop_false_frame (c : Ctx) (f : Nat)
    (IH : ∀ s t s', schedule c f s t = .ok (s', false) → FrameOnly s s') :
    ∀ (l : List Target) (s s2 : SchedState),
      schedLoop (schedule c f) s l = .ok (s2, []) → FrameOnly s s2 := by
  intro l
  induction l with
  | nil =>
    intro s s2 h
    have : (Except.ok (s, ([] : List String)) :
        Except SchedErr (SchedState × List String)) = .ok (s2, []) := h
    injection this with this
    have hs : s = s2 := congrArg Prod.fst this
    subst hs
    exact ⟨rfl, rfl, fun n => Or.inl rfl⟩
  | cons d ds ihl =>
    intro s s2 h
    unfold schedLoop at h
    cases hr1 : schedule c f s d with
    | error e => rw [hr1] at h; cases h
    | ok r1 =>
      rw [hr1] at h
      simp only [exbind_ok] at h
      cases hr2 : schedLoop (schedule c f) r1.1 ds with
      | error e => rw [hr2] at h; cases h
      | ok r2 =>
        rw [hr2] at h
        simp only [exbind_ok, expure_eq, Except.ok.injEq, Prod.mk.injEq] at h
        have hbd : r1.2 = false := by
          by_contra hb
          rw [Bool.not_eq_false] at hb
          rw [hb] at h
          simp at h
        rw [hbd] at h
        simp only [Bool.false_eq_true, if_false] at h
        have hsub : r2.2 = [] := h.2
        have hs2 : r2.1 = s2 := h.1
        have hf1 : FrameOnly s r1.1 := IH s d r1.1 (by rw [hr1, ← hbd])
        have hf2 : FrameOnly r1.1 s2 := by
          rw [← hs2]
          exact ihl r1.1 r2.1 (by rw [hr2, ← hsub])
        exact ⟨hf2.1.trans hf1.1, hf2.2.1.trans hf1.2.1,
          fun n => by
            rcases hf2.2.2 n with h2 | h2
            · rw [h2]; exact hf1.2.2 n
            · exact Or.inr h2⟩

/-- A `schedule` call that returns false submits nothing, adds nothing
to the pretend set and at most resets persisted states. -/
theorem schedule_false_frame (c : Ctx) :
    ∀ (f : Nat) (s : SchedState) (t : Target) (s' : SchedState),
      schedule c f s t = .ok (s', false) → FrameOnly s s' := by
  intro f
  induction f with
  | zero => intro s t s' h; cases h
  | succ f ih =>
    intro s t s' h
    unfold schedule at h
    simp only [] at h
    obtain ⟨r1, hst, h⟩ := exbind_eq_ok h
    split at h
    · simp at h
    · obtain ⟨r2, hloop, h⟩ := exbind_eq_ok h
      split at h
      case isTrue hre =>
        obtain ⟨r3, hst2, h⟩ := exbind_eq_ok h
        simp only [expure_eq, exbind_ok] at h
        split at h
        case isTrue hmust => split at h <;> simp at h
        case isFalse hmust =>
          injection h with h2
          injection h2 with hs' hb2
          have hfr1 : DBResetOnly s.db r1.1 :=
            status_resetonly (show status c s.db t = .ok (r1.1, r1.2) from hst)
          have hempty : r2.2 = [] := List.isEmpty_iff.mp hre
          have hfr2 := schedLoop_false_frame c f (fun s t s' hh => ih s t s' hh)
            (sortedDeps c.g t) _ r2.1 (by rw [hloop, ← hempty])
          have hfr3 : DBResetOnly r2.1.db r3.1 :=
            status_resetonly
              (show status c r2.1.db t = .ok (r3.1, r3.2) from hst2)
          rw [← hs']
          refine ⟨hfr2.1, hfr2.2.1, ?_⟩
          intro n
          rcases hfr3 n with h3 | h3
          · rw [h3]
            rcases hfr2.2.2 n with h4 | h4
            · rw [h4]; exact hfr1 n
            · exact Or.inr h4
          · exact Or.inr h3
      case isFalse hre =>
        simp only [expure_eq, exbind_ok] at h
        split at h
        case isTrue hb => split at h <;> simp at h
        case isFalse hb => exact absurd trivial hb

theorem updateState_snd {c : Ctx} {f : Nat} {db : DB} {t : Target} {db' : DB}
    {m : MetaState} (h : updateState c f db t = .ok (db', m)) :
    m = DB.get db' t.name := by
  cases f with
  | zero => cases h
  | succ f =>
    unfold updateState at h
    obtain ⟨db1, hl, h⟩ := exbind_eq_ok h
    injection h with h
    injection h with h1 h2
    rw [← h2, h1]

/-- The TargetStatus reported by `status` is SUBMITTED exactly when the
persisted state of the target in the returned store is SUBMITTED. -/
theorem status_submitted_iff {c : Ctx} {db : DB} {t : Target} {db1 : DB}
    {st : TargetStatus} (h : status c db t = .ok (db1, st)) :
    st = .submitted ↔ DB.get db1 t.name = .submitted := by
  unfold status at h
  obtain ⟨r, hu, h⟩ := exbind_eq_ok h
  obtain ⟨sr, hs, h⟩ := exbind_eq_ok h
  injection h with h
  injection h with h1 h2
  have hm : r.2 = DB.get r.1 t.name :=
    updateState_snd (show updateState c c.F db t = .ok (r.1, r.2) from hu)
  rw [← h2, ← h1, ← hm]
  exact statusCase_submitted_iff r.2 sr

/-- C4: a `schedule` call returns `true` exactly when, after the call,
the target's persisted state is SUBMITTED or the target is in the
pretend-submitted set (it was submitted — or would have been under
dry-run — during this call, or had already been submitted earlier in
the pass); and the dedup gate comes first: when the status of the
target on the incoming store is SUBMITTED, or the target is already in
the pretend set, the call returns `true` at once and the resulting
state is the incoming state with only the option normalisation and the
store returned by that single status query — no recursion into
dependencies, no trace event, no pretend change. -/
theorem claim_C4 (c : Ctx) (f : Nat) (s : SchedState) (t : Target)
    (s' : SchedState) (b : Bool)
    (h : schedule c f s t = .ok (s', b)) :
    (b = true ↔ DB.get s'.db t.name = .submitted ∨ t.name ∈ s'.pretend) ∧
      (∀ db1 st1, status c s.db t = .ok (db1, st1) →
        st1 = .submitted ∨ t.name ∈ s.pretend →
        b = true ∧ s' = { s with
          db := db1,
          options := Function.update s.options t.name
            (prepare_target_options c.optionDefaults (s.options t.name)) }) := by
  cases f with
  | zero => cases h
  | succ f =>
    unfold schedule at h
    simp only [] at h
    obtain ⟨r1, hst, h⟩ := exbind_eq_ok h
    split at h
    case isTrue hgate =>
      injection h with h2
      injection h2 with hs' hb
      constructor
      · rw [← hb, ← hs']
        refine ⟨fun _ => ?_, fun _ => rfl⟩
        have hgate2 : r1.2 = TargetStatus.submitted ∨
            s.pretend.contains t.name = true := by simpa using hgate
        rcases hgate2 with hg | hg
        · exact Or.inl ((status_submitted_iff
            (show status c s.db t = .ok (r1.1, r1.2) from hst)).mp hg)
        · exact Or.inr (List.elem_iff.mp hg)
      · intro db1 st1 hstatus hdisj
        have hr : r1 = (db1, st1) := by
          have h3 := hst.symm.trans hstatus
          injection h3
        refine ⟨hb.symm, ?_⟩
        rw [← hs', hr]
    case isFalse hgate =>
      simp only [Bool.or_eq_true, decide_eq_true_eq, not_or] at hgate
      have hpart2 : ∀ db1 st1, status c s.db t = .ok (db1, st1) →
          st1 = .submitted ∨ t.name ∈ s.pretend →
          b = true ∧ s' = { s with
            db := db1,
            options := Function.update s.options t.name
              (prepare_target_options c.optionDefaults (s.options t.name)) } := by
        intro db1 st1 hstatus hdisj
        exfalso
        have hr : r1 = (db1, st1) := by
          have h3 := hst.symm.trans hstatus
          injection h3
        rcases hdisj with hsub | hmem
        · exact hgate.1 (by rw [hr]; exact hsub)
        · exact hgate.2 (List.elem_iff.mpr hmem)
      refine ⟨?_, hpart2⟩
      obtain ⟨r2, hloop, h⟩ := exbind_eq_ok h
      split at h
      case isTrue hre =>
        obtain ⟨r3, hst2, h⟩ := exbind_eq_ok h
        simp only [expure_eq, exbind_ok] at h
        split at h
        case isTrue hmust =>
          split at h
          case isTrue hdry =>
            injection h with h2
            injection h2 with hs' hb
            rw [← hb, ← hs']
            exact ⟨fun _ => Or.inr
              (List.mem_append_right _ (List.mem_singleton.mpr rfl)),
              fun _ => rfl⟩
          case isFalse hdry =>
            injection h with h2
            injection h2 with hs' hb
            rw [← hb, ← hs']
            exact ⟨fun _ => Or.inl (DB.get_set_same _ t.name .submitted),
              fun _ => rfl⟩
        case isFalse hmust =>
          injection h with h2
          injection h2 with hs' hb
          rw [← hb, ← hs']
          have hempty : r2.2 = [] := List.isEmpty_iff.mp hre
          have hfr2 := schedLoop_false_frame c f
            (fun s t s' hh => schedule_false_frame c f s t s' hh)
            (sortedDeps c.g t) _ r2.1 (by rw [hloop, ← hempty])
          have hfr3 : DBResetOnly r2.1.db r3.1 :=
            status_resetonly
              (show status c r2.1.db t = .ok (r3.1, r3.2) from hst2)
          constructor
          · intro hh; exact absurd hh (by simp)
          · intro hd
            exfalso
            rcases hd with hdb | hmem
            · have h5 : DB.get r2.1.db t.name = .submitted := by
                rcases hfr3 t.name with h6 | h6
                · rw [← h6]; exact hdb
                · rw [hdb] at h6; cases h6
              have h7 : DB.get r1.1 t.name = .submitted := by
                rcases hfr2.2.2 t.name with h6 | h6
                · rw [← h6]; exact h5
                · rw [h5] at h6; cases h6
              exact hgate.1 ((status_submitted_iff
                (show status c s.db t = .ok (r1.1, r1.2) from hst)).mpr h7)
            · have h5 : t.name ∈ s.pretend := hfr2.2.1 ▸ hmem
              exact hgate.2 (List.elem_iff.mpr h5)
      case isFalse hre =>
        simp only [expure_eq, exbind_ok] at h
        split at h
        case isTrue hb2 =>
          split at h
          case isTrue hdry =>
            injection h with h2
            injection h2 with hs' hb
            rw [← hb, ← hs']
            exact ⟨fun _ => Or.inr
              (List.mem_append_right _ (List.mem_singleton.mpr rfl)),
              fun _ => rfl⟩
          case isFalse hdry =>
            injection h with h2
            injection h2 with hs' hb
            rw [← hb, ← hs']
            exact ⟨fun _ => Or.inl (DB.get_set_same _ t.name .submitted),
              fun _ => rfl⟩
        case isFalse hb2 => exact absurd trivial hb2

theorem schedule_true_post {c : Ctx} {f : Nat} {s : SchedState} {t : Target}
    {s' : SchedState} (h : schedule c f s t = .ok (s', true)) :
    DB.get s'.db t.name = .submitted ∨ t.name ∈ s'.pretend := by
  cases f with
  | zero => cases h
  | succ f =>
    unfold schedule at h
    simp only [] at h
    obtain ⟨r1, hst, h⟩ := exbind_eq_ok h
    split at h
    case isTrue hgate =>
      injection h with h2
      injection h2 with hs' hb
      have hgate2 : r1.2 = TargetStatus.submitted ∨
          s.pretend.contains t.name = true := by simpa using hgate
      rw [← hs']
      rcases hgate2 with hg | hg
      · exact Or.inl ((status_submitted_iff
          (show status c s.db t = .ok (r1.1, r1.2) from hst)).mp hg)
      · exact Or.inr (List.elem_iff.mp hg)
    case isFalse hgate =>
      obtain ⟨r2, hloop, h⟩ := exbind_eq_ok h
      split at h
      case isTrue hre =>
        obtain ⟨r3, hst2, h⟩ := exbind_eq_ok h
        simp only [expure_eq, exbind_ok] at h
        split at h
        case isTrue hmust =>
          split at h
          case isTrue hdry =>
            injection h with h2
            injection h2 with hs' hb
            rw [← hs']
            exact Or.inr (List.mem_append_right _ (List.mem_singleton.mpr rfl))
          case isFalse hdry =>
            injection h with h2
            injection h2 with hs' hb
            rw [← hs']
            exact Or.inl (DB.get_set_same _ t.name .submitted)
        case isFalse hmust => simp at h
      case isFalse hre =>
        simp only [expure_eq, exbind_ok] at h
        split at h
        case isTrue hb2 =>
          split at h
          case isTrue hdry =>
            injection h with h2
            injection h2 with hs' hb
            rw [← hs']
            exact Or.inr (List.mem_append_right _ (List.mem_singleton.mpr rfl))
          case isFalse hdry =>
            injection h with h2
            injection h2 with hs' hb
            rw [← hs']
            exact Or.inl (DB.get_set_same _ t.name .submitted)
        case isFalse hb2 => exact absurd trivial hb2

/-- When the status of the target on the incoming store is SUBMITTED,
or the target is in the pretend set, `schedule` takes the dedup gate:
it returns `true` and the incoming state changed only by the option
normalisation and that status query's store. -/
theorem schedule_gate_first {c : Ctx} {f : Nat} {s : SchedState} {t : Target}
    {s' : SchedState} {b : Bool} (h : schedule c f s t = .ok (s', b))
    {db1 : DB} {st1 : TargetStatus}
    (hstatus : status c s.db t = .ok (db1, st1))
    (hg : st1 = TargetStatus.submitted ∨ t.name ∈ s.pretend) :
    b = true ∧ s' = { s with
      db := db1,
      options := Function.update s.options t.name
        (prepare_target_options c.optionDefaults (s.options t.name)) } := by
  cases f with
  | zero => cases h
  | succ f =>
    unfold schedule at h
    simp only [] at h
    obtain ⟨r1, hst, h⟩ := exbind_eq_ok h
    have hr : r1 = (db1, st1) := by
      have h3 := hst.symm.trans hstatus
      injection h3
    split at h
    case isTrue hgate =>
      injection h with h2
      injection h2 with hs' hb
      exact ⟨hb.symm, by rw [← hs', hr]⟩
    case isFalse hgate =>
      exfalso
      simp only [Bool.or_eq_true, decide_eq_true_eq, not_or] at hgate
      rcases hg with hsub | hmem
      · exact hgate.1 (by rw [hr]; exact hsub)
      · exact hgate.2 (List.elem_iff.mpr hmem)

/-- C3, counterexample: on the chain `D → T` (D up to date on disk but
with persisted state UNKNOWN), `schedule(T)` called twice within one
pass submits `T` to the backend twice — the intervening `update_state`
resets the just-recorded SUBMITTED state of `T` because its dependency's
persisted state is UNKNOWN, so the dedup gate fails on the second call.
Both calls return `true` (the boolean part of the claim holds here, the
at-most-one-submission part does not). -/
theorem claim_C3_counterexample :
    (match runC3x2 with | .ok r => r.1.trace | .error _ => []) =
        [("T", []), ("T", [])] ∧
      (match runC3x with | .ok r => r.2 | .error _ => false) = true ∧
      (match runC3x2 with | .ok r => r.2 | .error _ => false) = true := by
  decide

/-- C3, amended: if `schedule(t)` returned `true` and afterwards no
persisted state in the dependency closure of `t` is bad (failed,
killed, cancelled or unknown), then a second `schedule(t)` within the
same pass again returns `true` and submits nothing: the trace and the
pretend set are unchanged. (Without the goodness proviso the second
call can resubmit, see the counterexample.) -/
theorem claim_C3_amended (c : Ctx) (f1 f2 : Nat) (s s1 s2 : SchedState)
    (t : Target) (b2 : Bool)
    (hclosed : DepsClosed c.g) (hinj : NamesInj c.g) (ht : t ∈ c.g.targets)
    (h1 : schedule c f1 s t = .ok (s1, true))
    (hgood : ∀ e ∈ c.g.dependencies t, ∀ z ∈ c.g.targets,
      Reaches c.g e z → (DB.get s1.db z.name).isBad = false)
    (h2 : schedule c f2 s1 t = .ok (s2, b2)) :
    b2 = true ∧ s2.trace = s1.trace ∧ s2.pretend = s1.pretend := by
  cases f2 with
  | zero => cases h2
  | succ f2 =>
    have h2' := h2
    unfold schedule at h2'
    simp only [] at h2'
    obtain ⟨r1, hst, -⟩ := exbind_eq_ok h2'
    have hgate : r1.2 = TargetStatus.submitted ∨ t.name ∈ s1.pretend := by
      rcases schedule_true_post h1 with hdb | hmem
      · left
        refine (status_submitted_iff
          (show status c s1.db t = .ok (r1.1, r1.2) from hst)).mpr ?_
        have hst0 := hst
        unfold status at hst0
        obtain ⟨r, hu, hrest⟩ := exbind_eq_ok hst0
        obtain ⟨sr, hs, hrest⟩ := exbind_eq_ok hrest
        have he : ((r.1, statusCase r.2 sr) : DB × TargetStatus) = r1 := by
          injection hrest
        have he1 : r.1 = r1.1 := congrArg Prod.fst he
        obtain ⟨hchar, -⟩ := updateStateChar c hclosed hinj c.F s1.db t r.1 r.2
          ht (show updateState c c.F s1.db t = .ok (r.1, r.2) from hu)
        have hnb : ¬ (Reaches c.g t t ∧ HasBadDep c.g s1.db t) := by
          rintro ⟨-, e, he', z, hz, hbad⟩
          have hzmem : z ∈ c.g.targets :=
            Reaches_mem_targets hclosed hz (hclosed t ht e he')
          rw [hgood e he' z hzmem hz] at hbad
          cases hbad
        have hkeep : DB.get r.1 t.name = DB.get s1.db t.name :=
          (hchar t ht).2 hnb
        rw [← he1, hkeep, hdb]
      · exact Or.inr hmem
    obtain ⟨hb2, hs2⟩ := schedule_gate_first h2
      (show status c s1.db t = .ok (r1.1, r1.2) from hst) hgate
    exact ⟨hb2, by rw [hs2], by rw [hs2]⟩

theorem claim_C3_amended_witness :
    true = true ∧ s2C3.trace = s1C3.trace ∧ s2C3.pretend = s1C3.pretend := by
  refine claim_C3_amended ctxC1 4 4 sC3 s1C3 s2C3 fixT true
    (by unfold DepsClosed; decide) (by unfold NamesInj; decide) (by decide)
    rfl ?_ rfl
  intro e he z hz hr
  have he2 : e = fixD := List.mem_singleton.mp he
  subst he2
  rcases Reaches_inv hr with heq | ⟨d, hd, -⟩
  · subst heq
    decide
  · exact absurd hd (List.not_mem_nil d)

theorem claim_C4_witness :
    (true = true ↔
        DB.get s1S1.db fixC.name = .submitted ∨ fixC.name ∈ s1S1.pretend) ∧
      fixC.name ∈ s1S1.pretend :=
  ⟨(claim_C4 ctxS1 4 schedState0 fixC s1S1 true rfl).1, by decide⟩

/-! ## Submission-ordering machinery (claim C5) -/

theorem statusCase_submitted (sr : Bool) :
    statusCase .submitted sr = .submitted := rfl

theorem statusCase_unknown_false : statusCase .unknown false = .completed := rfl

theorem statusCase_unknown_true : statusCase .unknown true = .shouldrun := rfl

theorem shouldRun_det {c : Ctx} {f : Nat} {x : Target} {a b : Bool}
    (h1 : shouldRun c f x = .ok a) (h2 : shouldRun c f x = .ok b) : a = b := by
  rw [h1] at h2
  injection h2

theorem passEvol_refl (c : Ctx) (db : DB) : PassEvol c db db :=
  fun _ _ => Or.inl (Eq.refl _)

theorem PassEvol.badclosure {c : Ctx} (hclosed : DepsClosed c.g)
    {db db2 : DB} (hev : PassEvol c db db2) :
    ∀ e ∈ c.g.targets, BadClosure c.g db2 e → BadClosure c.g db e := by
  rintro e he ⟨z, hz, hbad⟩
  have hzm : z ∈ c.g.targets := Reaches_mem_targets hclosed hz he
  rcases hev z hzm with hsame | ⟨hunk, hbc⟩ | hsub
  · rw [hsame] at hbad
    exact ⟨z, hz, hbad⟩
  · obtain ⟨w, hzw, hw⟩ := hbc
    exact ⟨w, hz.trans hzw, hw⟩
  · rw [hsub] at hbad
    exact absurd hbad (by decide)

theorem PassEvol.hasBadDep {c : Ctx} (hclosed : DepsClosed c.g)
    {db db2 : DB} (hev : PassEvol c db db2) :
    ∀ x ∈ c.g.targets, HasBadDep c.g db2 x → HasBadDep c.g db x := by
  rintro x hx ⟨e, he, hbc⟩
  exact ⟨e, he, hev.badclosure hclosed e (hclosed x hx e he) hbc⟩

theorem PassEvol.ptrans {c : Ctx} (hclosed : DepsClosed c.g)
    {db1 db2 db3 : DB} (h1 : PassEvol c db1 db2) (h2 : PassEvol c db2 db3) :
    PassEvol c db1 db3 := by
  intro x hx
  rcases h2 x hx with hs | ⟨hu, hbc⟩ | hsub
  · rw [hs]; exact h1 x hx
  · exact Or.inr (Or.inl ⟨hu, h1.badclosure hclosed x hx hbc⟩)
  · exact Or.inr (Or.inr hsub)

theorem ResetsOf.passEvol {c : Ctx} {db db2 : DB} (h : ResetsOf c db db2) :
    PassEvol c db db2 := by
  intro x hx
  rcases h x hx with hs | ⟨hu, hbc⟩
  · exact Or.inl hs
  · exact Or.inr (Or.inl ⟨hu, hbc⟩)

theorem ResetsOf.no_new_submitted {c : Ctx} {db db2 : DB} (h : ResetsOf c db db2) :
    ∀ z ∈ c.g.targets, DB.get db2 z.name = .submitted →
      DB.get db z.name = .submitted := by
  intro z hz hsub
  rcases h z hz with hs | ⟨hu, -⟩
  · rw [← hs]; exact hsub
  · rw [hsub] at hu; cases hu

theorem NeverSub.nstable {c : Ctx} (hclosed : DepsClosed c.g) {db db2 : DB}
    (hev : PassEvol c db db2) {x : Target} (hx : x ∈ c.g.targets)
    (h : NeverSub c db x) : NeverSub c db2 x := by
  obtain ⟨hsub, hnbc⟩ := h
  refine ⟨?_, fun hbc => hnbc (hev.badclosure hclosed x hx hbc)⟩
  rcases hev x hx with hs | ⟨hu, hbc⟩ | hs2
  · rw [hs]; exact hsub
  · exact absurd hbc hnbc
  · exact hs2

theorem TrueMark.not_stableFalse {c : Ctx} {db : DB} {x : Target}
    (h : TrueMark c db x) : ¬ StableFalse c db x := by
  induction h with
  | self x hsub hfield =>
    intro hs
    cases hs with
    | mk _ hnode hdeps =>
      obtain ⟨sr, hsr, h1, h2⟩ := hnode
      rw [hsub] at h1
      exact h1.2 (statusCase_submitted sr)
  | bad x hbad hfield =>
    intro hs
    cases hs with
    | mk _ hnode hdeps =>
      obtain ⟨sr, hsr, h1, h2⟩ := hnode
      have hsg := h2 (Or.inr hbad)
      rw [hfield sr hsr, statusCase_unknown_true] at hsg
      exact absurd hsg.1 (by decide)
  | dep x d hd hm ih =>
    intro hs
    cases hs with
    | mk _ hnode hdeps => exact ih (hdeps d hd)

theorem TrueMark.tstable {c : Ctx} (hclosed : DepsClosed c.g) {db db2 : DB}
    (hev : PassEvol c db db2) :
    ∀ {x : Target}, TrueMark c db x → x ∈ c.g.targets → TrueMark c db2 x := by
  intro x h
  induction h with
  | self x hsub hfield =>
    intro hx
    rcases hev x hx with hs | ⟨hu, hbc⟩ | hs2
    · exact TrueMark.self x (by rw [hs]; exact hsub)
        (fun hb2 => hfield (hev.hasBadDep hclosed x hx hb2))
    · rcases BadClosure_iff.mp hbc with hbv | hbd
      · rw [hsub] at hbv
        exact absurd hbv (by decide)
      · exact TrueMark.bad x (by rw [hu]; decide) (hfield hbd)
    · exact TrueMark.self x hs2
        (fun hb2 => hfield (hev.hasBadDep hclosed x hx hb2))
  | bad x hbad hfield =>
    intro hx
    rcases hev x hx with hs | ⟨hu, hbc⟩ | hs2
    · exact TrueMark.bad x (by rw [hs]; exact hbad) hfield
    · exact TrueMark.bad x (by rw [hu]; decide) hfield
    · exact TrueMark.self x hs2 (fun _ => hfield)
  | dep x d hd hm ih =>
    intro hx
    exact TrueMark.dep x d hd (ih (hclosed x hx d hd))

theorem StableFalse.downward {c : Ctx} {db : DB} :
    ∀ {x y : Target}, Reaches c.g x y → StableFalse c db x →
      StableFalse c db y := by
  intro x y hr
  induction hr with
  | refl t => exact id
  | step hd hr2 ih =>
    intro h
    cases h with
    | mk _ hnode hdeps => exact ih (hdeps _ hd)


theorem StableFalse.stable_aux {c : Ctx} (hclosed : DepsClosed c.g)
    {db db2 : DB} (hev : PassEvol c db db2) (x : Target)
    (hguard : ∀ z ∈ c.g.targets, DB.get db2 z.name = .submitted →
      DB.get db z.name = .submitted ∨ ¬ Reaches c.g x z) :
    ∀ y, StableFalse c db y → y ∈ c.g.targets → Reaches c.g x y →
      StableFalse c db2 y := by
  intro y h
  induction h with
  | mk y hnode hdeps ih =>
    intro hy hr
    refine StableFalse.mk y ?_ (fun d hd => ih d hd (hclosed y hy d hd)
      (hr.trans (Reaches.step hd (Reaches.refl d))))
    obtain ⟨sr, hsr, h1, h2⟩ := hnode
    rcases hev y hy with hs | ⟨hu, hbc⟩ | hs2
    · refine ⟨sr, hsr, by rw [hs]; exact h1, fun hg => h2 ?_⟩
      rcases hg with hbd | hbv
      · exact Or.inl (hev.hasBadDep hclosed y hy hbd)
      · rw [hs] at hbv; exact Or.inr hbv
    · have hg := h2 (BadClosure_iff.mp hbc).symm
      exact ⟨sr, hsr, by rw [hu]; exact hg, fun _ => hg⟩
    · rcases hguard y hy hs2 with holds | hnr
      · rw [holds] at h1
        exact absurd (statusCase_submitted sr) h1.2
      · exact absurd hr hnr

theorem StableFalse.stable {c : Ctx} (hclosed : DepsClosed c.g)
    {db db2 : DB} (hev : PassEvol c db db2) {x : Target}
    (hx : x ∈ c.g.targets)
    (hguard : ∀ z ∈ c.g.targets, DB.get db2 z.name = .submitted →
      DB.get db z.name = .submitted ∨ ¬ Reaches c.g x z)
    (h : StableFalse c db x) : StableFalse c db2 x :=
  StableFalse.stable_aux hclosed hev x hguard x h hx (Reaches.refl x)

theorem StableFalse.stable_resets {c : Ctx} (hclosed : DepsClosed c.g)
    {db db2 : DB} (hres : ResetsOf c db db2) {x : Target}
    (hx : x ∈ c.g.targets) (h : StableFalse c db x) : StableFalse c db2 x :=
  StableFalse.stable hclosed hres.passEvol hx
    (fun z hz hsub => Or.inl (hres.no_new_submitted z hz hsub)) h

theorem TraceInv.db_step {c : Ctx} (hclosed : DepsClosed c.g)
    {db db2 : DB} {tr : List (String × List String)}
    (hev : PassEvol c db db2)
    (hguard : ∀ z ∈ c.g.targets, DB.get db2 z.name = .submitted →
      DB.get db z.name = .submitted)
    (h : TraceInv c db tr) : TraceInv c db2 tr := by
  intro pre ev post hsplit p hp hpn d hd
  rcases h pre ev post hsplit p hp hpn d hd with hl | ⟨hno, hsf | hns⟩
  · exact Or.inl hl
  · exact Or.inr ⟨hno, Or.inl (StableFalse.stable hclosed hev
      (hclosed p hp d hd) (fun z hz hsub => Or.inl (hguard z hz hsub)) hsf)⟩
  · exact Or.inr ⟨hno, Or.inr (NeverSub.nstable hclosed hev
      (hclosed p hp d hd) hns)⟩

/-- What a successful `status` query reports and does: `should_run`'s
verdict fused with the materialised meta state (UNKNOWN under a
bad-closured dependency, the stored state otherwise), the store updated
to hold exactly that state at the target, by resets only. -/
theorem status_char {c : Ctx} (hclosed : DepsClosed c.g) (hinj : NamesInj c.g)
    {db db1 : DB} {t : Target} {st : TargetStatus} (ht : t ∈ c.g.targets)
    (h : status c db t = .ok (db1, st)) :
    ∃ sr m, shouldRun c c.F t = .ok sr ∧ MIs c db t m ∧
      st = statusCase m sr ∧ DB.get db1 t.name = m ∧ UpdChar c db db1 t := by
  unfold status at h
  obtain ⟨r, hu, h⟩ := exbind_eq_ok h
  obtain ⟨sr, hs, h⟩ := exbind_eq_ok h
  have he : ((r.1, statusCase r.2 sr) : DB × TargetStatus) = (db1, st) :=
    Except.ok.inj h
  have he1 : r.1 = db1 := congrArg Prod.fst he
  have he2 : statusCase r.2 sr = st := congrArg Prod.snd he
  obtain ⟨hchar, hm⟩ := updateStateChar c hclosed hinj c.F db t r.1 r.2 ht
    (show updateState c c.F db t = .ok (r.1, r.2) from hu)
  refine ⟨sr, r.2, hs, ?_, he2.symm, by rw [← he1, ← hm], he1 ▸ hchar⟩
  rcases Classical.em (HasBadDep c.g db t) with hbd | hbd
  · refine Or.inl ⟨hbd, ?_⟩
    rw [hm]
    exact (hchar t ht).1 ⟨Reaches.refl t, hbd⟩
  · refine Or.inr ⟨hbd, ?_⟩
    rw [hm]
    exact (hchar t ht).2 (fun hc => hbd hc.2)

/-- A successful `status` query changes the store by resets only. -/
theorem status_step {c : Ctx} (hclosed : DepsClosed c.g) (hinj : NamesInj c.g)
    {db db1 : DB} {t : Target} {st : TargetStatus} (ht : t ∈ c.g.targets)
    (h : status c db t = .ok (db1, st)) :
    PassEvol c db db1 ∧
      (∀ z ∈ c.g.targets, DB.get db1 z.name = .submitted →
        DB.get db z.name = .submitted) := by
  obtain ⟨sr, m, hsr, hmis, hst, hstored, hchar⟩ := status_char hclosed hinj ht h
  have hres := hchar.resetsOf
  exact ⟨hres.passEvol, hres.no_new_submitted⟩

theorem mem_sortedDeps {g : Graph} {t d : Target} :
    d ∈ sortedDeps g t ↔ d ∈ g.dependencies t :=
  (List.perm_insertionSort _ _).mem_iff

theorem split_snoc {α : Type} {A pre post : List α} {e ev : α}
    (h : A ++ [e] = pre ++ ev :: post) :
    (pre = A ∧ ev = e ∧ post = []) ∨
      ∃ post0, post = post0 ++ [e] ∧ A = pre ++ ev :: post0 := by
  rcases List.eq_nil_or_concat post with rfl | ⟨post0, x, rfl⟩
  · obtain ⟨hA, he⟩ := List.append_inj' h rfl
    injection he with he1 _
    exact Or.inl ⟨hA.symm, he1.symm, rfl⟩
  · have h' : A ++ [e] = (pre ++ ev :: post0) ++ [x] := by
      rw [h]; simp
    obtain ⟨hA2, he2⟩ := List.append_inj' h' rfl
    injection he2 with he1 _
    exact Or.inr ⟨post0, by rw [← he1]; exact List.concat_eq_append _ _, hA2⟩

/-- A target whose fused status lies in `SHOULDRUN_STATES`, with that
status's meta state materialised in the store, is not stably false. -/
theorem not_stableFalse_node {c : Ctx} {db1 : DB} {t : Target}
    {m : MetaState} {sr : Bool} (hstored : DB.get db1 t.name = m)
    (hsr : shouldRun c c.F t = .ok sr)
    (hmust : SHOULDRUN_STATES.contains (statusCase m sr) = true) :
    ¬ StableFalse c db1 t := by
  intro hs
  cases hs with
  | mk _ hnode _ =>
    obtain ⟨sr', hsr', h1, h2⟩ := hnode
    rw [hstored, shouldRun_det hsr' hsr] at h1
    rw [h1.1] at hmust
    exact absurd hmust (by decide)

/-- The store effect of the non-dry submit branch. -/
theorem submit_write_evol (c : Ctx) (db : DB) (tn : String) :
    PassEvol c db (DB.set (DB.set db tn .unknown) tn .submitted) := by
  intro x hx
  by_cases hxn : x.name = tn
  · exact Or.inr (Or.inr (by rw [hxn]; exact DB.get_set_same _ _ _))
  · exact Or.inl (by rw [DB.get_set_ne _ hxn _, DB.get_set_ne _ hxn _])

theorem submit_write_guard {c : Ctx} (hinj : NamesInj c.g) {db : DB}
    {t x : Target} (ht : t ∈ c.g.targets) (hnr : ¬ Reaches c.g x t) :
    ∀ z ∈ c.g.targets,
      DB.get (DB.set (DB.set db t.name .unknown) t.name .submitted) z.name =
        .submitted →
      DB.get db z.name = .submitted ∨ ¬ Reaches c.g x z := by
  intro z hz hzsub
  by_cases hzn : z.name = t.name
  · have hz_eq : z = t := hinj z hz t ht hzn
    exact Or.inr (by rw [hz_eq]; exact hnr)
  · rw [DB.get_set_ne _ hzn _, DB.get_set_ne _ hzn _] at hzsub
    exact Or.inl hzsub

theorem MIs_of_hasBadDep {c : Ctx} {db : DB} {t : Target} {m : MetaState}
    (hm : MIs c db t m) (hbd : HasBadDep c.g db t) : m = .unknown := by
  rcases hm with ⟨-, hmu⟩ | ⟨hnbd, -⟩
  · exact hmu
  · exact absurd hbd hnbd

theorem MIs_submitted {c : Ctx} {db : DB} {t : Target} {m : MetaState}
    (hm : MIs c db t m) (hsub : m = .submitted) :
    DB.get db t.name = .submitted ∧ ¬ HasBadDep c.g db t := by
  rcases hm with ⟨hbd, hmu⟩ | ⟨hnbd, hmv⟩
  · rw [hsub] at hmu; cases hmu
  · exact ⟨by rw [← hmv, hsub], hnbd⟩

theorem neverSub_m {c : Ctx} {db : DB} {t : Target} {m : MetaState}
    (hm : MIs c db t m) (hns : NeverSub c db t) : m = .submitted := by
  rcases hm with ⟨hbd, -⟩ | ⟨-, hmv⟩
  · exact absurd hbd.toBadClosure hns.2
  · rw [hmv, hns.1]

theorem sr_true_of_must_unknown {sr : Bool}
    (hmust : SHOULDRUN_STATES.contains (statusCase .unknown sr) = true) :
    sr = true := by
  cases sr
  · rw [statusCase_unknown_false] at hmust
    exact absurd hmust (by decide)
  · rfl

/-- The node safety established by a status query whose verdict left
the must-run branch untaken and was not SUBMITTED. -/
theorem nodeSafe_of_must_false {c : Ctx} {db db1 : DB} {t : Target}
    {m : MetaState} {sr : Bool} (hmis : MIs c db t m)
    (hstored : DB.get db1 t.name = m) (hsr : shouldRun c c.F t = .ok sr)
    (hmust : SHOULDRUN_STATES.contains (statusCase m sr) = false)
    (hnsub : m ≠ .submitted)
    (hbdmono : HasBadDep c.g db1 t → HasBadDep c.g db t) :
    NodeSafe c db1 t := by
  have hsrf : (m.isBad = true → sr = false) := by
    intro hbadm
    cases sr
    · rfl
    · exfalso
      cases m with
      | unknown => rw [statusCase_unknown_true] at hmust; exact absurd hmust (by decide)
      | failed => exact absurd hmust (by decide)
      | cancelled => exact absurd hmust (by decide)
      | killed => exact absurd hmust (by decide)
      | submitted => exact absurd hbadm (by decide)
      | running => exact absurd hbadm (by decide)
      | completed => exact absurd hbadm (by decide)
  refine ⟨sr, hsr, ?_, ?_⟩
  · rw [hstored]
    exact ⟨hmust, fun hc => hnsub ((statusCase_submitted_iff m sr).mp hc)⟩
  · intro hg
    have hbadm : m.isBad = true := by
      rcases hg with hbd1 | hbadv
      · rw [MIs_of_hasBadDep hmis (hbdmono hbd1)]; decide
      · rw [hstored] at hbadv; exact hbadv
    rw [hsrf hbadm, statusCase_unknown_false]
    exact ⟨by decide, by decide⟩

theorem schedLoop_master (c : Ctx) (hclosed : DepsClosed c.g) (f : Nat)
    (IH : ∀ s t s' b, t ∈ c.g.targets → s.pretend = [] →
      schedule c f s t = .ok (s', b) → CallSpec c s t s' b) :
    ∀ l, (∀ d ∈ l, d ∈ c.g.targets) →
      ∀ s s2 subs, s.pretend = [] →
        schedLoop (schedule c f) s l = .ok (s2, subs) →
        LoopSpec c l s s2 subs := by
  intro l
  induction l with
  | nil =>
    intro hl s s2 subs hpre h
    have he : ((s, ([] : List String)) : SchedState × List String) = (s2, subs) :=
      Except.ok.inj h
    have hs2 : s = s2 := congrArg Prod.fst he
    have hsubs : ([] : List String) = subs := congrArg Prod.snd he
    subst hs2
    subst hsubs
    refine ⟨[], passEvol_refl c s.db, hpre, fun x hx hsf => hsf, fun hti => hti,
      (List.append_nil _).symm, fun x hx hd ds hm => absurd hm (List.not_mem_nil _),
      fun nm ds hm => absurd hm (List.not_mem_nil _),
      fun x hx hsub => Or.inl hsub,
      fun _ => ⟨rfl, fun d hd => absurd hd (List.not_mem_nil d)⟩,
      fun hne => absurd rfl hne,
      fun d hd => absurd hd (List.not_mem_nil d)⟩
  | cons d ds ihl =>
    intro hl s s2 subs hpre h
    unfold schedLoop at h
    obtain ⟨r1, hc1, h⟩ := exbind_eq_ok h
    obtain ⟨r2, hc2, h⟩ := exbind_eq_ok h
    have he : ((r2.1, if r1.2 then d.name :: r2.2 else r2.2) :
        SchedState × List String) = (s2, subs) := Except.ok.inj h
    have hs2 : r2.1 = s2 := congrArg Prod.fst he
    have hsubs : (if r1.2 then d.name :: r2.2 else r2.2) = subs :=
      congrArg Prod.snd he
    have hdt : d ∈ c.g.targets := hl d (List.mem_cons_self d ds)
    obtain ⟨new1, hev1, hpre1, hpres1, hstf1, hinv1, htr1, hnoev1, hnames1,
      hsubev1, hbf1, hbt1⟩ :=
      IH s d r1.1 r1.2 hdt hpre
        (show schedule c f s d = .ok (r1.1, r1.2) from hc1)
    obtain ⟨new2, hev2, hpre2, hpres2, hinv2, htr2, hnoev2, hnames2, hsubev2,
      hemp2, hne2, hper2⟩ :=
      ihl (fun d' hd' => hl d' (List.mem_cons_of_mem d hd')) r1.1 r2.1 r2.2
        hpre1 (show schedLoop (schedule c f) r1.1 ds = .ok (r2.1, r2.2) from hc2)
    subst hs2
    refine ⟨new1 ++ new2, PassEvol.ptrans hclosed hev1 hev2, hpre2,
      fun x hx hsf => hpres2 x hx (hpres1 x hx hsf),
      fun hti => hinv2 (hinv1 hti),
      by rw [htr2, htr1, List.append_assoc],
      ?_, ?_, ?_, ?_, ?_, ?_⟩
    · intro x hx hdisj ds0 hm
      rcases List.mem_append.mp hm with hm1 | hm2
      · exact hnoev1 x hx hdisj ds0 hm1
      · refine hnoev2 x hx ?_ ds0 hm2
        rcases hdisj with hsf | hns
        · exact Or.inl (hpres1 x hx hsf)
        · exact Or.inr (NeverSub.nstable hclosed hev1 hx hns)
    · intro nm ds0 hm
      rcases List.mem_append.mp hm with hm1 | hm2
      · obtain ⟨q, hq, hname, hreach⟩ := hnames1 nm ds0 hm1
        exact ⟨q, hq, hname, d, List.mem_cons_self d ds, hreach⟩
      · obtain ⟨q, hq, hname, d', hd', hreach⟩ := hnames2 nm ds0 hm2
        exact ⟨q, hq, hname, d', List.mem_cons_of_mem d hd', hreach⟩
    · intro x hx hsub
      rcases hsubev2 x hx hsub with hsub1 | ⟨ds0, hm⟩
      · rcases hsubev1 x hx hsub1 with hsub0 | ⟨ds0, hm⟩
        · exact Or.inl hsub0
        · exact Or.inr ⟨ds0, List.mem_append_left _ hm⟩
      · exact Or.inr ⟨ds0, List.mem_append_right _ hm⟩
    · intro hsub0
      rw [hsub0] at hsubs
      by_cases hr12 : r1.2 = true
      · rw [if_pos hr12] at hsubs
        cases hsubs
      · rw [Bool.not_eq_true] at hr12
        rw [if_neg (by rw [hr12]; exact Bool.false_ne_true)] at hsubs
        obtain ⟨hn1, hsf1⟩ := hbf1 hr12
        obtain ⟨hn2, hsf2⟩ := hemp2 hsubs
        refine ⟨by rw [hn1, hn2]; rfl, ?_⟩
        intro d' hd'
        rcases List.mem_cons.mp hd' with rfl | hd2
        · exact hpres2 d' hdt hsf1
        · exact hsf2 d' hd2
    · intro hne
      by_cases hr12 : r1.2 = true
      · exact ⟨d, List.mem_cons_self d ds,
          TrueMark.tstable hclosed hev2 (hbt1 hr12).2 hdt⟩
      · rw [Bool.not_eq_true] at hr12
        have hsubs2 : r2.2 = subs := by
          rw [← hsubs, if_neg (by rw [hr12]; exact Bool.false_ne_true)]
        obtain ⟨d', hd', hm⟩ := hne2 (by rw [hsubs2]; exact hne)
        exact ⟨d', List.mem_cons_of_mem d hd', hm⟩
    · intro d' hd'
      rcases List.mem_cons.mp hd' with rfl | hd2
      · by_cases hr12 : r1.2 = true
        · rcases (hbt1 hr12).1 with ⟨ds0, hm⟩ | hns
          · exact Or.inl ⟨ds0, List.mem_append_left _ hm⟩
          · exact Or.inr (Or.inr (NeverSub.nstable hclosed hev2 hdt hns))
        · rw [Bool.not_eq_true] at hr12
          exact Or.inr (Or.inl (hpres2 d' hdt (hbf1 hr12).2))
      · rcases hper2 d' hd2 with ⟨ds0, hm⟩ | hsf | hns
        · exact Or.inl ⟨ds0, List.mem_append_right _ hm⟩
        · exact Or.inr (Or.inl hsf)
        · exact Or.inr (Or.inr hns)

theorem schedule_master (c : Ctx) (hclosed : DepsClosed c.g)
    (hinj : NamesInj c.g) (hacc : ∀ x ∈ c.g.targets, AccDep c.g x)
    (hdry : c.dryRun = false) :
    ∀ f s t s' b, t ∈ c.g.targets → s.pretend = [] →
      schedule c f s t = .ok (s', b) → CallSpec c s t s' b := by
  intro f
  induction f with
  | zero => intro s t s' b ht hpre h; cases h
  | succ f ih =>
    intro s t s' b ht hpre h
    unfold schedule at h
    simp only [] at h
    obtain ⟨r1, hst, h⟩ := exbind_eq_ok h
    obtain ⟨sr, m1, hsr, hmis1, hst1eq, hstored1, hupd1⟩ :=
      status_char hclosed hinj ht
        (show status c s.db t = .ok (r1.1, r1.2) from hst)
    have hres1 := hupd1.resetsOf
    have hev1 : PassEvol c s.db r1.1 := hres1.passEvol
    have hnosub1 := hres1.no_new_submitted
    have hcont : s.pretend.contains t.name = false := by rw [hpre]; rfl
    split at h
    case isTrue hgate =>
      injection h with h2
      injection h2 with hs' hb
      subst hb
      have hsub1 : r1.2 = TargetStatus.submitted := by
        rw [hcont] at hgate
        simpa using hgate
      have hm1 : m1 = .submitted := by
        rw [hst1eq] at hsub1
        exact (statusCase_submitted_iff m1 sr).mp hsub1
      obtain ⟨hstv, hnbd⟩ := MIs_submitted hmis1 hm1
      subst hs'
      refine ⟨[], hev1, hpre,
        fun x hx hsf => StableFalse.stable_resets hclosed hres1 hx hsf,
        ?_, fun hti => TraceInv.db_step hclosed hev1 hnosub1 hti,
        (List.append_nil _).symm,
        fun x hx _ ds hm => absurd hm (List.not_mem_nil _),
        fun nm ds hm => absurd hm (List.not_mem_nil _),
        fun x hx hsub => Or.inl (hnosub1 x hx hsub),
        fun hb0 => Bool.noConfusion hb0,
        fun _ => ?_⟩
      · intro hsf
        exfalso
        cases hsf with
        | mk _ hnode _ =>
          obtain ⟨sr', hsr', h1, h2⟩ := hnode
          rw [hstv, shouldRun_det hsr' hsr] at h1
          exact h1.2 (statusCase_submitted sr)
      · have hsubval : DB.get r1.1 t.name = .submitted := by
          rw [hstored1, hm1]
        have hnbc : ¬ BadClosure c.g r1.1 t := by
          intro hbc
          rcases BadClosure_iff.mp hbc with hbv | hbd
          · rw [hsubval] at hbv
            exact absurd hbv (by decide)
          · exact hnbd (hev1.hasBadDep hclosed t ht hbd)
        exact ⟨Or.inr ⟨hsubval, hnbc⟩,
          TrueMark.self t hsubval
            (fun hb2 => ((hnbd (hev1.hasBadDep hclosed t ht hb2)).elim))⟩
    case isFalse hgate =>
      have hst1ne : r1.2 ≠ TargetStatus.submitted := by
        intro hc
        apply hgate
        rw [hc, hcont]
        rfl
      have hm1ne : m1 ≠ .submitted := by
        intro hc
        exact hst1ne (by rw [hst1eq, hc]; exact statusCase_submitted sr)
      have hnns_entry : ¬ NeverSub c s.db t :=
        fun hns => hm1ne (neverSub_m hmis1 hns)
      obtain ⟨r2, hloop, h⟩ := exbind_eq_ok h
      obtain ⟨newL, hevL, hpreL, hpresL, hinvL, htrL, hnoevL, hnamesL, hsubevL,
        hempL, hneL, hperL⟩ :=
        schedLoop_master c hclosed f
          (fun s0 t0 s0' b0 ht0 hp0 hh0 => ih s0 t0 s0' b0 ht0 hp0 hh0)
          (sortedDeps c.g t)
          (fun d0 hd0 => hclosed t ht d0 (mem_sortedDeps.mp hd0))
          ({ db := r1.1, pretend := s.pretend, trace := s.trace,
             options := Function.update s.options t.name
               (prepare_target_options c.optionDefaults (s.options t.name)) } :
            SchedState)
          r2.1 r2.2 hpre hloop
      have hevL' : PassEvol c r1.1 r2.1.db := hevL
      have hpresL' : ∀ x ∈ c.g.targets, StableFalse c r1.1 x →
          StableFalse c r2.1.db x := hpresL
      have htrL' : r2.1.trace = s.trace ++ newL := htrL
      have hsubevL' : ∀ x ∈ c.g.targets, DB.get r2.1.db x.name = .submitted →
          DB.get r1.1 x.name = .submitted ∨ ∃ ds0, (x.name, ds0) ∈ newL :=
        hsubevL
      have hinvL' : TraceInv c r1.1 s.trace →
          TraceInv c r2.1.db r2.1.trace := hinvL
      have hnoevL' : ∀ x ∈ c.g.targets,
          StableFalse c r1.1 x ∨ NeverSub c r1.1 x →
          ∀ ds0, (x.name, ds0) ∉ newL := hnoevL
      have hnot_tname : ∀ ds0, (t.name, ds0) ∉ newL := by
        intro ds0 hm
        obtain ⟨q, hq, hqname, d0, hd0, hreach⟩ := hnamesL t.name ds0 hm
        have hq_eq : q = t := hinj q hq t ht hqname
        exact AccDep.no_self (hacc t ht)
          ⟨d0, mem_sortedDeps.mp hd0, by rw [← hq_eq]; exact hreach⟩
      have hstored_s2 : DB.get r2.1.db t.name = .submitted → False := by
        intro hsb
        rcases hsubevL' t ht hsb with hsb1 | ⟨ds0, hm⟩
        · rw [hstored1] at hsb1
          exact hm1ne hsb1
        · exact hnot_tname ds0 hm
      split at h
      case isTrue hre =>
        obtain ⟨r3, hst2, h⟩ := exbind_eq_ok h
        obtain ⟨sr2, m2, hsr2, hmis2, hst2eq, hstored2, hupd2⟩ :=
          status_char hclosed hinj ht
            (show status c r2.1.db t = .ok (r3.1, r3.2) from hst2)
        have hsr2eq : sr2 = sr := shouldRun_det hsr2 hsr
        rw [hsr2eq] at hst2eq
        have hres3 := hupd2.resetsOf
        have hev3 : PassEvol c r2.1.db r3.1 := hres3.passEvol
        have hnosub3 := hres3.no_new_submitted
        have hempty : r2.2 = [] := List.isEmpty_iff.mp hre
        obtain ⟨hnewL_nil, hdepsSF⟩ := hempL hempty
        have hm2ne : m2 ≠ .submitted := by
          intro hc
          exact hstored_s2 (MIs_submitted hmis2 hc).1
        simp only [expure_eq, exbind_ok] at h
        split at h
        case isTrue hmust =>
          split at h
          case isTrue hdryc => rw [hdry] at hdryc; cases hdryc
          case isFalse hdryc =>
            injection h with h2
            injection h2 with hs' hb
            subst hb
            subst hs'
            have hmustC : SHOULDRUN_STATES.contains (statusCase m2 sr) = true := by
              rw [← hst2eq]; exact hmust
            have hnst_r3 : ¬ StableFalse c r3.1 t :=
              not_stableFalse_node hstored2 hsr hmustC
            have hnst_s2 : ¬ StableFalse c r2.1.db t := by
              intro hsf
              cases hsf with
              | mk _ hnode _ =>
                obtain ⟨sr', hsr', h1, h2⟩ := hnode
                rw [shouldRun_det hsr' hsr] at h1 h2
                rcases hmis2 with ⟨hbd, hmu⟩ | ⟨hnbd, hmv⟩
                · have hsg := h2 (Or.inl hbd)
                  rw [← hmu] at hsg
                  rw [hsg.1] at hmustC
                  cases hmustC
                · rw [← hmv] at h1
                  rw [h1.1] at hmustC
                  cases hmustC
            have hnst_entry : ¬ StableFalse c s.db t := fun hsf =>
              hnst_s2 (hpresL' t ht
                (StableFalse.stable_resets hclosed hres1 ht hsf))
            have hevW := submit_write_evol c r3.1 t.name
            have hfieldT : HasBadDep c.g
                (DB.set (DB.set r3.1 t.name .unknown) t.name .submitted) t →
                ∀ sr0, shouldRun c c.F t = .ok sr0 → sr0 = true := by
              intro hbF sr0 hsr0
              have hb1 : HasBadDep c.g r3.1 t :=
                hevW.hasBadDep hclosed t ht hbF
              have hb2 : HasBadDep c.g r2.1.db t :=
                hev3.hasBadDep hclosed t ht hb1
              have hm2u : m2 = .unknown := MIs_of_hasBadDep hmis2 hb2
              have hsrt : sr = true := sr_true_of_must_unknown
                (by rw [← hm2u]; exact hmustC)
              rw [shouldRun_det hsr0 hsr, hsrt]
            refine ⟨newL ++ [(t.name, r2.2)],
              PassEvol.ptrans hclosed hev1 (PassEvol.ptrans hclosed hevL'
                (PassEvol.ptrans hclosed hev3 hevW)),
              hpreL, ?_, fun hsf => (hnst_entry hsf).elim, ?_, ?_, ?_, ?_, ?_,
              fun hb0 => Bool.noConfusion hb0,
              fun _ => ⟨Or.inl ⟨r2.2,
                List.mem_append_right _ (List.mem_singleton.mpr (Eq.refl _))⟩,
                TrueMark.self t (DB.get_set_same _ _ _) hfieldT⟩⟩
            · intro x hx hsf
              have h1 := StableFalse.stable_resets hclosed hres1 hx hsf
              have h2 := hpresL' x hx h1
              have h3 := StableFalse.stable_resets hclosed hres3 hx h2
              exact StableFalse.stable hclosed hevW hx
                (submit_write_guard hinj ht
                  (fun hr => hnst_entry (StableFalse.downward hr hsf))) h3
            · intro hti
              have hti1 : TraceInv c r1.1 s.trace :=
                TraceInv.db_step hclosed hev1 hnosub1 hti
              have hti2 : TraceInv c r2.1.db r2.1.trace := hinvL' hti1
              have hti3 : TraceInv c r3.1 r2.1.trace :=
                TraceInv.db_step hclosed hev3 hnosub3 hti2
              intro pre ev post hsplit p hp hpn d0 hd0
              have hd0t : d0 ∈ c.g.targets := hclosed p hp d0 hd0
              have hsplit' : r2.1.trace ++ [(t.name, r2.2)] =
                  pre ++ ev :: post := hsplit
              rcases split_snoc hsplit' with ⟨hpre_eq, hev_eq, hpost_eq⟩ |
                ⟨post0, hpost_eq, holdsplit⟩
              · have hp_eq : p = t := hinj p hp t ht (by rw [hpn, hev_eq])
                subst hp_eq
                have hd0s : d0 ∈ sortedDeps c.g p := mem_sortedDeps.mpr hd0
                have hNoSelf : ∀ ds1, (d0.name, ds1) ∉ ev :: post := by
                  intro ds1 hm
                  rw [hpost_eq] at hm
                  rw [List.mem_singleton] at hm
                  have hn0 : d0.name = ev.1 := congrArg Prod.fst hm
                  rw [hev_eq] at hn0
                  have hd0_eq : d0 = p := hinj d0 hd0t p ht hn0
                  exact AccDep.no_self (hacc p ht)
                    ⟨d0, hd0, by rw [hd0_eq]; exact Reaches.refl p⟩
                rcases hperL d0 hd0s with ⟨ds1, hm⟩ | hsf | hns
                · refine Or.inl ⟨ds1, ?_⟩
                  rw [hpre_eq, htrL']
                  exact List.mem_append_right _ hm
                · refine Or.inr ⟨hNoSelf, Or.inl ?_⟩
                  have h3 := StableFalse.stable_resets hclosed hres3 hd0t hsf
                  exact StableFalse.stable hclosed hevW hd0t
                    (submit_write_guard hinj ht
                      (fun hr => AccDep.no_self (hacc p ht) ⟨d0, hd0, hr⟩)) h3
                · refine Or.inr ⟨hNoSelf, Or.inr ?_⟩
                  exact NeverSub.nstable hclosed hevW hd0t
                    (NeverSub.nstable hclosed hev3 hd0t hns)
              · rcases hti3 pre ev post0 holdsplit p hp hpn d0 hd0 with
                  hl | ⟨hno, hdisj⟩
                · exact Or.inl hl
                · by_cases hd0n : d0.name = t.name
                  · have hd0_eq : d0 = t := hinj d0 hd0t t ht hd0n
                    subst hd0_eq
                    exfalso
                    rcases hdisj with hsf | hns
                    · exact hnst_r3 hsf
                    · exact hm2ne (hstored2.symm.trans hns.1)
                  · refine Or.inr ⟨?_, ?_⟩
                    · intro ds1 hm
                      rw [hpost_eq] at hm
                      rcases List.mem_cons.mp hm with hme | hmp
                      · exact hno ds1 (by rw [hme]; exact List.mem_cons_self _ _)
                      · rcases List.mem_append.mp hmp with hmp0 | hml
                        · exact hno ds1 (List.mem_cons_of_mem _ hmp0)
                        · rw [List.mem_singleton] at hml
                          exact hd0n (congrArg Prod.fst hml)
                    · rcases hdisj with hsf | hns
                      · exact Or.inl (StableFalse.stable hclosed hevW hd0t
                          (submit_write_guard hinj ht
                            (fun hr => hnst_r3 (StableFalse.downward hr hsf)))
                          hsf)
                      · exact Or.inr (NeverSub.nstable hclosed hevW hd0t hns)
            · show r2.1.trace ++ [(t.name, r2.2)] =
                s.trace ++ (newL ++ [(t.name, r2.2)])
              rw [htrL', List.append_assoc]
            · intro x hx hdisj ds0 hm
              rcases List.mem_append.mp hm with hm1 | hm2
              · refine hnoevL' x hx ?_ ds0 hm1
                rcases hdisj with hsf | hns
                · exact Or.inl (StableFalse.stable_resets hclosed hres1 hx hsf)
                · exact Or.inr (NeverSub.nstable hclosed hev1 hx hns)
              · rw [List.mem_singleton] at hm2
                have hxn : x.name = t.name := congrArg Prod.fst hm2
                have hx_eq : x = t := hinj x hx t ht hxn
                subst hx_eq
                rcases hdisj with hsf | hns
                · exact hnst_entry hsf
                · exact hnns_entry hns
            · intro nm ds0 hm
              rcases List.mem_append.mp hm with hm1 | hm2
              · obtain ⟨q, hq, hqname, d0, hd0, hreach⟩ := hnamesL nm ds0 hm1
                exact ⟨q, hq, hqname,
                  Reaches.step (mem_sortedDeps.mp hd0) hreach⟩
              · rw [List.mem_singleton] at hm2
                exact ⟨t, ht, (congrArg Prod.fst hm2).symm, Reaches.refl t⟩
            · intro x hx hsub
              by_cases hxn : x.name = t.name
              · exact Or.inr ⟨r2.2, by rw [hxn]; exact
                  List.mem_append_right _ (List.mem_singleton.mpr (Eq.refl _))⟩
              · have hsub' : DB.get (DB.set (DB.set r3.1 t.name .unknown)
                    t.name .submitted) x.name = .submitted := hsub
                rw [DB.get_set_ne _ hxn _, DB.get_set_ne _ hxn _] at hsub'
                have h3 := hnosub3 x hx hsub'
                rcases hsubevL' x hx h3 with h1 | ⟨ds0, hm⟩
                · exact Or.inl (hnosub1 x hx h1)
                · exact Or.inr ⟨ds0, List.mem_append_left _ hm⟩
        case isFalse hmust =>
          injection h with h2
          injection h2 with hs' hb
          subst hb
          subst hs'
          have hmustF : SHOULDRUN_STATES.contains (statusCase m2 sr) = false := by
            rw [← hst2eq]
            exact Bool.not_eq_true _ ▸ (Bool.eq_false_iff.mpr hmust)
          refine ⟨newL,
            PassEvol.ptrans hclosed hev1 (PassEvol.ptrans hclosed hevL' hev3),
            hpreL,
            fun x hx hsf => StableFalse.stable_resets hclosed hres3 hx
              (hpresL' x hx (StableFalse.stable_resets hclosed hres1 hx hsf)),
            fun _ => Eq.refl _,
            fun hti => TraceInv.db_step hclosed hev3 hnosub3
              (hinvL' (TraceInv.db_step hclosed hev1 hnosub1 hti)),
            htrL',
            ?_, ?_, ?_,
            fun _ => ⟨hnewL_nil, ?_⟩,
            fun hb0 => Bool.noConfusion hb0⟩
          · intro x hx hdisj ds0 hm
            refine hnoevL' x hx ?_ ds0 hm
            rcases hdisj with hsf | hns
            · exact Or.inl (StableFalse.stable_resets hclosed hres1 hx hsf)
            · exact Or.inr (NeverSub.nstable hclosed hev1 hx hns)
          · intro nm ds0 hm
            obtain ⟨q, hq, hqname, d0, hd0, hreach⟩ := hnamesL nm ds0 hm
            exact ⟨q, hq, hqname, Reaches.step (mem_sortedDeps.mp hd0) hreach⟩
          · intro x hx hsub
            have h3 := hnosub3 x hx hsub
            rcases hsubevL' x hx h3 with h1 | ⟨ds0, hm⟩
            · exact Or.inl (hnosub1 x hx h1)
            · exact Or.inr ⟨ds0, hm⟩
          · refine StableFalse.mk t
              (nodeSafe_of_must_false hmis2 hstored2 hsr hmustF hm2ne
                (hev3.hasBadDep hclosed t ht)) ?_
            intro d0 hd0
            exact StableFalse.stable_resets hclosed hres3
              (hclosed t ht d0 hd0)
              (hdepsSF d0 (mem_sortedDeps.mpr hd0))
      case isFalse hre =>
        simp only [expure_eq, exbind_ok] at h
        split at h
        case isTrue hb2 =>
          split at h
          case isTrue hdryc => rw [hdry] at hdryc; cases hdryc
          case isFalse hdryc =>
            injection h with h2
            injection h2 with hs' hb
            subst hb
            subst hs'
            have hrne : r2.2 ≠ [] := fun h0 => hre (List.isEmpty_iff.mpr h0)
            obtain ⟨d1, hd1, hTM1⟩ := hneL hrne
            have hd1m : d1 ∈ c.g.dependencies t := mem_sortedDeps.mp hd1
            have hd1t : d1 ∈ c.g.targets := hclosed t ht d1 hd1m
            have hnst_s2 : ¬ StableFalse c r2.1.db t := by
              intro hsf
              cases hsf with
              | mk _ hnode hdeps =>
                exact hTM1.not_stableFalse (hdeps d1 hd1m)
            have hnst_entry : ¬ StableFalse c s.db t := fun hsf =>
              hnst_s2 (hpresL' t ht
                (StableFalse.stable_resets hclosed hres1 ht hsf))
            have hnns_s2 : ¬ NeverSub c r2.1.db t := fun hns =>
              hstored_s2 hns.1
            have hevW := submit_write_evol c r2.1.db t.name
            refine ⟨newL ++ [(t.name, r2.2)],
              PassEvol.ptrans hclosed hev1 (PassEvol.ptrans hclosed hevL' hevW),
              hpreL, ?_, fun hsf => (hnst_entry hsf).elim, ?_, ?_, ?_, ?_, ?_,
              fun hb0 => Bool.noConfusion hb0,
              fun _ => ⟨Or.inl ⟨r2.2,
                List.mem_append_right _ (List.mem_singleton.mpr (Eq.refl _))⟩,
                TrueMark.dep t d1 hd1m
                  (TrueMark.tstable hclosed hevW hTM1 hd1t)⟩⟩
            · intro x hx hsf
              have h1 := StableFalse.stable_resets hclosed hres1 hx hsf
              have h2 := hpresL' x hx h1
              exact StableFalse.stable hclosed hevW hx
                (submit_write_guard hinj ht
                  (fun hr => hnst_entry (StableFalse.downward hr hsf))) h2
            · intro hti
              have hti1 : TraceInv c r1.1 s.trace :=
                TraceInv.db_step hclosed hev1 hnosub1 hti
              have hti2 : TraceInv c r2.1.db r2.1.trace := hinvL' hti1
              intro pre ev post hsplit p hp hpn d0 hd0
              have hd0t : d0 ∈ c.g.targets := hclosed p hp d0 hd0
              have hsplit' : r2.1.trace ++ [(t.name, r2.2)] =
                  pre ++ ev :: post := hsplit
              rcases split_snoc hsplit' with ⟨hpre_eq, hev_eq, hpost_eq⟩ |
                ⟨post0, hpost_eq, holdsplit⟩
              · have hp_eq : p = t := hinj p hp t ht (by rw [hpn, hev_eq])
                subst hp_eq
                have hd0s : d0 ∈ sortedDeps c.g p := mem_sortedDeps.mpr hd0
                have hNoSelf : ∀ ds1, (d0.name, ds1) ∉ ev :: post := by
                  intro ds1 hm
                  rw [hpost_eq] at hm
                  rw [List.mem_singleton] at hm
                  have hn0 : d0.name = ev.1 := congrArg Prod.fst hm
                  rw [hev_eq] at hn0
                  have hd0_eq : d0 = p := hinj d0 hd0t p ht hn0
                  exact AccDep.no_self (hacc p ht)
                    ⟨d0, hd0, by rw [hd0_eq]; exact Reaches.refl p⟩
                rcases hperL d0 hd0s with ⟨ds1, hm⟩ | hsf | hns
                · refine Or.inl ⟨ds1, ?_⟩
                  rw [hpre_eq, htrL']
                  exact List.mem_append_right _ hm
                · refine Or.inr ⟨hNoSelf, Or.inl ?_⟩
                  exact StableFalse.stable hclosed hevW hd0t
                    (submit_write_guard hinj ht
                      (fun hr => AccDep.no_self (hacc p ht) ⟨d0, hd0, hr⟩)) hsf
                · refine Or.inr ⟨hNoSelf, Or.inr ?_⟩
                  exact NeverSub.nstable hclosed hevW hd0t hns
              · rcases hti2 pre ev post0 holdsplit p hp hpn d0 hd0 with
                  hl | ⟨hno, hdisj⟩
                · exact Or.inl hl
                · by_cases hd0n : d0.name = t.name
                  · have hd0_eq : d0 = t := hinj d0 hd0t t ht hd0n
                    subst hd0_eq
                    exfalso
                    rcases hdisj with hsf | hns
                    · exact hnst_s2 hsf
                    · exact hnns_s2 hns
                  · refine Or.inr ⟨?_, ?_⟩
                    · intro ds1 hm
                      rw [hpost_eq] at hm
                      rcases List.mem_cons.mp hm with hme | hmp
                      · exact hno ds1 (by rw [hme]; exact List.mem_cons_self _ _)
                      · rcases List.mem_append.mp hmp with hmp0 | hml
                        · exact hno ds1 (List.mem_cons_of_mem _ hmp0)
                        · rw [List.mem_singleton] at hml
                          exact hd0n (congrArg Prod.fst hml)
                    · rcases hdisj with hsf | hns
                      · exact Or.inl (StableFalse.stable hclosed hevW hd0t
                          (submit_write_guard hinj ht
                            (fun hr => hnst_s2 (StableFalse.downward hr hsf)))
                          hsf)
                      · exact Or.inr (NeverSub.nstable hclosed hevW hd0t hns)
            · show r2.1.trace ++ [(t.name, r2.2)] =
                s.trace ++ (newL ++ [(t.name, r2.2)])
              rw [htrL', List.append_assoc]
            · intro x hx hdisj ds0 hm
              rcases List.mem_append.mp hm with hm1 | hm2
              · refine hnoevL' x hx ?_ ds0 hm1
                rcases hdisj with hsf | hns
                · exact Or.inl (StableFalse.stable_resets hclosed hres1 hx hsf)
                · exact Or.inr (NeverSub.nstable hclosed hev1 hx hns)
              · rw [List.mem_singleton] at hm2
                have hxn : x.name = t.name := congrArg Prod.fst hm2
                have hx_eq : x = t := hinj x hx t ht hxn
                subst hx_eq
                rcases hdisj with hsf | hns
                · exact hnst_entry hsf
                · exact hnns_entry hns
            · intro nm ds0 hm
              rcases List.mem_append.mp hm with hm1 | hm2
              · obtain ⟨q, hq, hqname, d0, hd0, hreach⟩ := hnamesL nm ds0 hm1
                exact ⟨q, hq, hqname,
                  Reaches.step (mem_sortedDeps.mp hd0) hreach⟩
              · rw [List.mem_singleton] at hm2
                exact ⟨t, ht, (congrArg Prod.fst hm2).symm, Reaches.refl t⟩
            · intro x hx hsub
              by_cases hxn : x.name = t.name
              · exact Or.inr ⟨r2.2, by rw [hxn]; exact
                  List.mem_append_right _ (List.mem_singleton.mpr (Eq.refl _))⟩
              · have hsub' : DB.get (DB.set (DB.set r2.1.db t.name .unknown)
                    t.name .submitted) x.name = .submitted := hsub
                rw [DB.get_set_ne _ hxn _, DB.get_set_ne _ hxn _] at hsub'
                rcases hsubevL' x hx hsub' with h1 | ⟨ds0, hm⟩
                · exact Or.inl (hnosub1 x hx h1)
                · exact Or.inr ⟨ds0, List.mem_append_left _ hm⟩
        case isFalse hb2 => exact absurd trivial hb2

theorem scheduleMany_master (c : Ctx) (hclosed : DepsClosed c.g)
    (hinj : NamesInj c.g) (hacc : ∀ x ∈ c.g.targets, AccDep c.g x)
    (hdry : c.dryRun = false) :
    ∀ (ts : List Target) (f : Nat) (s sF : SchedState) (bs : List Bool),
      (∀ t ∈ ts, t ∈ c.g.targets) → s.pretend = [] →
      scheduleMany c f s ts = .ok (sF, bs) →
      sF.pretend = [] ∧
        (TraceInv c s.db s.trace → TraceInv c sF.db sF.trace) := by
  intro ts
  induction ts with
  | nil =>
    intro f s sF bs hts hpre h
    have he : ((s, ([] : List Bool)) : SchedState × List Bool) = (sF, bs) :=
      Except.ok.inj h
    have hs : s = sF := congrArg Prod.fst he
    subst hs
    exact ⟨hpre, fun hti => hti⟩
  | cons t ts ihts =>
    intro f s sF bs hts hpre h
    unfold scheduleMany at h
    obtain ⟨r1, hc1, h⟩ := exbind_eq_ok h
    obtain ⟨r2, hc2, h⟩ := exbind_eq_ok h
    have he : ((r2.1, r1.2 :: r2.2) : SchedState × List Bool) = (sF, bs) :=
      Except.ok.inj h
    have hs : r2.1 = sF := congrArg Prod.fst he
    subst hs
    obtain ⟨new1, hev1, hpre1, hpres1, hstf1, hinv1, htr1, hnoev1, hnames1,
      hsubev1, hbf1, hbt1⟩ :=
      schedule_master c hclosed hinj hacc hdry f s t r1.1 r1.2
        (hts t (List.mem_cons_self t ts)) hpre
        (show schedule c f s t = .ok (r1.1, r1.2) from hc1)
    obtain ⟨hpF, hinvF⟩ := ihts f r1.1 r2.1 r2.2
      (fun t' ht' => hts t' (List.mem_cons_of_mem t ht')) hpre1
      (show scheduleMany c f r1.1 ts = .ok (r2.1, r2.2) from hc2)
    exact ⟨hpF, fun hti => hinvF (hinv1 hti)⟩

/-- The executable comparison agrees with the lexicographic order
underlying `String`'s order: `charListLe xs ys` holds exactly when `ys`
is not lexicographically smaller than `xs`. -/
theorem charListLe_iff : ∀ xs ys : List Char,
    charListLe xs ys = true ↔ ¬ List.Lex (· < ·) ys xs
  | [], ys => by
    constructor
    · intro _ h
      cases h
    · intro _
      rfl
  | x :: xs, [] => by
    constructor
    · intro hc
      cases hc
    · intro h
      exact absurd List.Lex.nil h
  | x :: xs, y :: ys => by
    unfold charListLe
    by_cases h1 : x.toNat < y.toNat
    · rw [if_pos h1]
      refine ⟨fun _ hlt => ?_, fun _ => rfl⟩
      cases hlt with
      | cons h2 => exact absurd h1 (Nat.lt_irrefl _)
      | rel h2 =>
        exact absurd (show y.toNat < x.toNat from h2) (Nat.lt_asymm h1)
    · rw [if_neg h1]
      by_cases h2 : y.toNat < x.toNat
      · rw [if_pos h2]
        constructor
        · intro hc
          cases hc
        · intro h
          exact absurd (List.Lex.rel (show y < x from h2)) h
      · rw [if_neg h2]
        rw [charListLe_iff xs ys]
        have hxy : x = y :=
          Char.ext (UInt32.ext
            (Nat.le_antisymm (Nat.le_of_not_lt h2) (Nat.le_of_not_lt h1)))
        subst hxy
        constructor
        · intro hn hlt
          cases hlt with
          | cons hlt2 => exact hn hlt2
          | rel hrel => exact h2 hrel
        · intro hn hlt2
          exact hn (List.Lex.cons hlt2)

/-- `strLe` is `String`'s order. -/
theorem strLe_iff (a b : String) : strLe a b = true ↔ a ≤ b := by
  unfold strLe
  rw [charListLe_iff]
  exact (not_congr (@String.lt_iff_toList_lt b a)).symm

/-- C5, counterexample: on the diamond `t → {a, b}`, `a → {b}`, with
every file missing, `schedule(t)` submits all three targets, and the
submission events appear in the order `b`, `a`, `t`: among the sibling
dependencies `a` and `b` of `t`, the submission order is NOT
lexicographic by name (`a < b` lexicographically, yet `b` is submitted
first, because `b` also lies below `a` in the dependency graph).
Scheduling order — the order the walk visits the siblings — is
lexicographic; submission order is not. -/
theorem claim_C5_counterexample :
    (match runC5x with | .ok r => r.1.trace | .error _ => []) =
      [("b", []), ("a", ["b"]), ("t", ["a", "b"])] ∧
    fixA5 ∈ ctxC5x.g.dependencies fixT5 ∧
    fixB5 ∈ ctxC5x.g.dependencies fixT5 ∧
    strLe fixA5.name fixB5.name = true ∧ fixA5.name ≠ fixB5.name := by
  decide

/-- C5, amended: in a non-dry scheduling pass started on an empty trace
and pretend set over an acyclic graph with unique names and closed
dependency edges, (1) the dependency walk of every target visits its
dependencies in lexicographic name order (the walk list is a sorted
permutation of the dependency list), and (2) in the trace left by
`schedule_many`, every submission event of a target `p` is preceded by
an earlier submission event of each dependency of `p` that is submitted
at all during the pass.  (Sibling submission events need not be in
lexicographic order, see the counterexample.) -/
theorem claim_C5_amended (c : Ctx) (f : Nat) (db0 : DB)
    (opts : String → OptDict) (ts : List Target) (sf : SchedState)
    (bs : List Bool)
    (hclosed : DepsClosed c.g) (hinj : NamesInj c.g)
    (hacc : ∀ x ∈ c.g.targets, AccDep c.g x) (hdry : c.dryRun = false)
    (hts : ∀ t ∈ ts, t ∈ c.g.targets)
    (hrun : scheduleMany c f ⟨db0, [], [], opts⟩ ts = .ok (sf, bs)) :
    (∀ u : Target, (sortedDeps c.g u).Perm (c.g.dependencies u) ∧
      List.Sorted (fun a b : Target => a.name ≤ b.name) (sortedDeps c.g u)) ∧
    (∀ pre nm subs post, sf.trace = pre ++ (nm, subs) :: post →
      ∀ p ∈ c.g.targets, p.name = nm →
      ∀ d ∈ c.g.dependencies p,
        (∃ ds, (d.name, ds) ∈ sf.trace) → ∃ ds, (d.name, ds) ∈ pre) := by
  constructor
  · intro u
    constructor
    · exact List.perm_insertionSort _ _
    · haveI h1 : IsTotal Target (fun a b : Target => strLe a.name b.name = true) :=
        ⟨fun a b => by
          rcases le_total a.name b.name with h | h
          · exact Or.inl ((strLe_iff _ _).mpr h)
          · exact Or.inr ((strLe_iff _ _).mpr h)⟩
      haveI h2 : IsTrans Target (fun a b : Target => strLe a.name b.name = true) :=
        ⟨fun a b c2 hab hbc => (strLe_iff _ _).mpr
          (le_trans ((strLe_iff _ _).mp hab) ((strLe_iff _ _).mp hbc))⟩
      have hs := List.sorted_insertionSort
        (fun a b : Target => strLe a.name b.name = true) (c.g.dependencies u)
      exact List.Pairwise.imp (fun hab => (strLe_iff _ _).mp hab) hs
  · obtain ⟨-, hinvF⟩ := scheduleMany_master c hclosed hinj hacc hdry ts f
      ⟨db0, [], [], opts⟩ sf bs hts rfl hrun
    have hti0 : TraceInv c db0 ([] : List (String × List String)) := by
      intro pre ev post hsplit
      cases pre <;> cases hsplit
    have hti : TraceInv c sf.db sf.trace := hinvF hti0
    intro pre nm subs post hsplit p hp hpn d hd hdev
    rcases hti pre (nm, subs) post hsplit p hp hpn d hd with hl | ⟨hno, -⟩
    · exact hl
    · obtain ⟨ds1, hds1⟩ := hdev
      rw [hsplit] at hds1
      rcases List.mem_append.mp hds1 with hIn | hIn
      · exact ⟨ds1, hIn⟩
      · exact absurd hIn (hno ds1)

theorem claim_C5_amended_witness :
    (∀ u : Target, (sortedDeps ctxC1.g u).Perm (ctxC1.g.dependencies u) ∧
      List.Sorted (fun a b : Target => a.name ≤ b.name)
        (sortedDeps ctxC1.g u)) ∧
    (∀ pre nm subs post, sC5w.trace = pre ++ (nm, subs) :: post →
      ∀ p ∈ ctxC1.g.targets, p.name = nm →
      ∀ d ∈ ctxC1.g.dependencies p,
        (∃ ds, (d.name, ds) ∈ sC5w.trace) → ∃ ds, (d.name, ds) ∈ pre) := by
  refine claim_C5_amended ctxC1 4 dbU (fun _ => []) [fixT] sC5w [true]
    (by unfold DepsClosed; decide) (by unfold NamesInj; decide) ?_ rfl
    (by decide) rfl
  have haccD : AccDep ctxC1.g fixD :=
    AccDep.intro (fun d hd => absurd hd (List.not_mem_nil d))
  have haccT : AccDep ctxC1.g fixT := by
    refine AccDep.intro (fun d hd => ?_)
    have hdD : d = fixD := List.mem_singleton.mp hd
    rw [hdD]
    exact haccD
  intro x hx
  rcases List.mem_cons.mp hx with rfl | hx2
  · exact haccD
  · rw [List.mem_singleton.mp hx2]
    exact haccT

end Gwf
